import Mathlib

/-!
Verification development for the TaskFlow text-document engine
(`TaskFlowTextManager.py`): a line-oriented parser with sticky section
state, a mutation layer over two cross-referencing entity collections,
a serializer, and a validator.

Strings are modelled by Lean `String`, with all manipulation performed on
the underlying character list (`String.data`), so that every operation is
executable and amenable to induction.  Whitespace is the ASCII whitespace
subset recognized by `Char.isWhitespace` (space, tab, CR, LF), standing in
for Python's `str.strip` whitespace class.  Python `dict`s (which have
unique keys by construction) are modelled as association lists with
insert-or-update and remove-key operations.  Python `int` is modelled by
`Int` (arbitrary precision, as in Python).
-/

namespace TaskFlow

/-! ## Character-list string primitives -/

/-- Python `str.strip()` on a character list: drop whitespace from both ends. -/
def trimChars (l : List Char) : List Char :=
  ((l.dropWhile Char.isWhitespace).reverse.dropWhile Char.isWhitespace).reverse

/-- Python `str.strip()`. -/
def strim (s : String) : String := ⟨trimChars s.data⟩

/-- Python `str.startswith(p)`. -/
def sStarts (p s : String) : Bool := p.data.isPrefixOf s.data

/-- Auxiliary splitter: returns the first chunk (up to the first separator)
and the list of remaining chunks. -/
def splitCharAux (sep : Char) : List Char → List Char × List (List Char)
  | [] => ([], [])
  | c :: cs =>
    let r := splitCharAux sep cs
    if c = sep then ([], r.1 :: r.2) else (c :: r.1, r.2)

/-- Python `str.split(sep)` (split on every occurrence; `""` gives `[""]`). -/
def splitChar (sep : Char) (l : List Char) : List (List Char) :=
  (splitCharAux sep l).1 :: (splitCharAux sep l).2

/-- Python `content.split('\n')`. -/
def splitLines (s : String) : List String :=
  (splitChar '\n' s.data).map (fun l => ⟨l⟩)

/-- Separator-interleaved concatenation (Python `sep.join` on char lists). -/
def joinChar (sep : Char) : List (List Char) → List Char
  | [] => []
  | [x] => x
  | x :: xs => x ++ sep :: joinChar sep xs

/-- Python `'\n'.join(lines)`. -/
def joinNL (ls : List String) : String := ⟨joinChar '\n' (ls.map String.data)⟩

/-- Concatenation of lines each terminated by a newline (the shape in which
the parser accumulates the config blob: every appended line gets `+ '\n'`). -/
def joinTerm (ls : List String) : String :=
  ⟨(ls.map (fun s => s.data ++ ['\n'])).flatten⟩

/-- Python `s.split(sep, 1)`: `none` when the separator is absent (Python
would return a one-element list, and indexing `[1]` would raise). -/
def splitOnce (sep : Char) : List Char → Option (List Char × List Char)
  | [] => none
  | c :: cs =>
    if c = sep then some ([], cs)
    else (splitOnce sep cs).map (fun p => (c :: p.1, p.2))

/-- Remainder of a line after its first colon (`line.split(':', 1)[1]`);
in the parser this is only evaluated on lines known to contain a colon,
the `""` fallback is never reached (see the no-exception theorem). -/
def afterColon (s : String) : String :=
  match splitOnce ':' s.data with
  | some p => ⟨p.2⟩
  | none => ""

/-- Decimal digit characters. -/
def digitChar (n : Nat) : Char :=
  match n with
  | 0 => '0' | 1 => '1' | 2 => '2' | 3 => '3' | 4 => '4'
  | 5 => '5' | 6 => '6' | 7 => '7' | 8 => '8' | _ => '9'

/-- Digit expansion with explicit fuel (structural recursion, so that the
kernel can evaluate it on concrete inputs); the fuel never runs out when
it starts at least at `n + 1`. -/
def natDigitsF : Nat → Nat → List Char
  | 0, _ => []
  | fuel + 1, n =>
    if n < 10 then [digitChar n]
    else natDigitsF fuel (n / 10) ++ [digitChar (n % 10)]

/-- Decimal digits of a natural number, most significant first
(Python `str(n)` for `n ≥ 0`). -/
def natDigits (n : Nat) : List Char := natDigitsF (n + 1) n

/-- Python `str(n)` for a natural number. -/
def natStr (n : Nat) : String := ⟨natDigits n⟩

/-- Python `str(i)` for an integer. -/
def intStr (i : Int) : String :=
  if i < 0 then "-" ++ natStr (-i).toNat else natStr i.toNat

/-- Value of a digit string (Python `int(s)` on an all-digit string). -/
def digitsToNat (l : List Char) : Nat :=
  l.foldl (fun a c => 10 * a + (c.toNat - 48)) 0

/-- Python `int(s)`, modelled for the digit strings the parser feeds it:
succeeds exactly on nonempty all-digit strings, `none` models a raised
`ValueError`. -/
def pyIntDigits (l : List Char) : Option Int :=
  if l ≠ [] ∧ ∀ c ∈ l, c.isDigit then some (digitsToNat l) else none

/-- Python `re.match(r'^\d+\.', line)`: one or more leading digits followed
by a literal dot. -/
def matchNumDot (l : List Char) : Bool :=
  !(l.takeWhile Char.isDigit).isEmpty &&
    ((l.dropWhile Char.isDigit).head? == some '.')

/-- Python `re.match(r'^\d+F\.', line)`: one or more leading digits, then
`F`, then a literal dot. -/
def matchFDot (l : List Char) : Bool :=
  !(l.takeWhile Char.isDigit).isEmpty &&
    ((l.dropWhile Char.isDigit).head? == some 'F') &&
    ((l.dropWhile Char.isDigit).tail.head? == some '.')

/-- The scan of `re.findall(r'File (\d+)', line)`, with explicit fuel
(structural recursion; one unit of fuel is consumed per position, so
`length + 1` always suffices). -/
def fileRefsF : Nat → List Char → List Int
  | 0, _ => []
  | _ + 1, [] => []
  | fuel + 1, 'F' :: 'i' :: 'l' :: 'e' :: ' ' :: r =>
    let ds := r.takeWhile Char.isDigit
    if ds.isEmpty then fileRefsF fuel ('i' :: 'l' :: 'e' :: ' ' :: r)
    else (digitsToNat ds : Int) :: fileRefsF fuel (r.dropWhile Char.isDigit)
  | fuel + 1, _ :: rest => fileRefsF fuel rest

/-- Python `re.findall(r'File (\d+)', line)` with each capture converted by
`int`: scan left to right; at each position a match requires the literal
`File ` followed by at least one digit; the (greedy) digit run is captured
and scanning resumes after it. -/
def fileRefs (l : List Char) : List Int := fileRefsF (l.length + 1) l

/-- Numeric value of a function id (Python `int(fid.replace('F', ''))`):
remove every `F`, read the rest as a decimal number. -/
def idNum (s : String) : Nat :=
  digitsToNat (s.data.filter (fun c => c ≠ 'F'))

/-! ## Association-list model of Python dicts -/

/-- Lookup in an association list (Python `d[k]` / `k in d`). -/
def dlookup {α β : Type} [DecidableEq α] (k : α) : List (α × β) → Option β
  | [] => none
  | p :: d => if p.1 = k then some p.2 else dlookup k d

/-- Python `d[k] = v`: update the value in place when the key is present
(dict insertion preserves key order), append otherwise. -/
def dinsert {α β : Type} [DecidableEq α] (d : List (α × β)) (k : α) (v : β) :
    List (α × β) :=
  if (dlookup k d).isSome then
    d.map (fun p => if p.1 = k then (k, v) else p)
  else d ++ [(k, v)]

/-- Python `del d[k]` (dict keys are unique, so removing every entry with
the key coincides with removing the entry). -/
def dremove {α β : Type} [DecidableEq α] (k : α) (d : List (α × β)) :
    List (α × β) :=
  d.filter (fun p => decide (p.1 ≠ k))

/-! ## Data model (`ProjectFile`, `Function`, manager state) -/

structure ProjectFile where
  index : Int
  path : String
  description : String
  deriving DecidableEq, Repr

structure Function where
  id : String
  name : String
  description : String
  implementation : String
  files_involved : List Int
  deriving DecidableEq, Repr

/-- The document model held by `TaskFlowTextManager`: metadata, the file
collection (`index -> ProjectFile`), the function collection
(`function_id -> Function`), and the opaque config blob. -/
structure TaskFlowState where
  project_name : String := ""
  project_description : String := ""
  technology : String := ""
  files : List (Int × ProjectFile) := []
  functions : List (String × Function) := []
  config_section : String := ""
  deriving DecidableEq, Repr

/-! ## Parser (`_parse_content`) -/

/-- The sticky section the scanner can be in (Python strings `'files'`,
`'functions'`, `'config'`; `None` is modelled by `Option`). -/
inductive Sect
  | files
  | functions
  | config
  deriving DecidableEq, Repr

/-- The in-progress function accumulator (`current_function` dict):
implementation is a list of lines, joined with `'\n'` on commit. -/
structure CurFunc where
  id : String
  name : String
  description : String
  implementation : List String
  files : List Int
  deriving DecidableEq, Repr

/-- Full state of the parsing loop. -/
structure PState where
  st : TaskFlowState
  current_section : Option Sect
  current_function : Option CurFunc
  deriving DecidableEq, Repr

/-- Commit the in-progress function (if any) into the function collection:
`functions[id] = Function(id, name, description, '\n'.join(impl), files)`. -/
def commitCur (funcs : List (String × Function)) :
    Option CurFunc → List (String × Function)
  | none => funcs
  | some c =>
    dinsert funcs c.id
      ⟨c.id, c.name, c.description, joinNL c.implementation, c.files⟩

/-- The body of the parsing loop of `_parse_content`, branch for branch in
source order, applied to the already-stripped line; the chained
`if`/`elif` conditions are evaluated top to bottom. -/
def stepLineCore (p : PState) (line : String) : PState :=
  if sStarts "Project:" line then
    { p with st.project_name := strim (afterColon line) }
  else if sStarts "Description:" line then
    { p with st.project_description := strim (afterColon line) }
  else if sStarts "technology:" line then
    { p with st.technology := strim (afterColon line) }
  else if line = "PROJECT FILES INDEX:" then
    { p with current_section := some .files }
  else if p.current_section = some .files ∧ line ≠ "" ∧
      ¬ sStarts "All functions:" line then
    if matchNumDot line.data then
      match splitOnce '.' line.data with
      | some (before, after) =>
        let index : Int := digitsToNat before
        let path := strim ⟨after⟩
        { p with st.files := dinsert p.st.files index ⟨index, path, ""⟩ }
      | none => p
    else p
  else if line = "All functions:" then
    { p with current_section := some .functions }
  else if p.current_section = some .functions ∧ matchFDot line.data then
    match splitOnce '.' line.data with
    | some (before, after) =>
      { p with
        st.functions := commitCur p.st.functions p.current_function
        current_function := some
          ⟨strim ⟨before⟩, strim ⟨after⟩, "", [], []⟩ }
    | none => p
  else if p.current_function.isSome ∧ line ≠ "" ∧ ¬ matchFDot line.data then
    match p.current_function with
    | some c =>
      if c.description = "" ∧ ¬ sStarts "Implementation:" line then
        { p with current_function := some ({ c with description := line }) }
      else if sStarts "Implementation:" line then
        p
      else if sStarts "File " line then
        { p with
          current_function :=
            some ({ c with
                    files := c.files ++ fileRefs line.data
                    implementation := c.implementation ++ [line] }) }
      else
        { p with
          current_function :=
            some ({ c with implementation := c.implementation ++ [line] }) }
    | none => p
  else if sStarts "key projct configuration:" line then
    { p with
      current_section := some .config
      st.config_section := line ++ "\n" }
  else if p.current_section = some .config then
    { p with st.config_section := p.st.config_section ++ line ++ "\n" }
  else p

/-- One iteration of the loop: the raw line is stripped first
(`line = lines[i].strip()`), then classified. -/
def stepLine (p : PState) (raw : String) : PState :=
  stepLineCore p (strim raw)

/-- The parsing loop over all lines. -/
def parseLines (p : PState) (ls : List String) : PState :=
  ls.foldl stepLine p

/-- Post-loop flush: commit the last accumulated function. -/
def flushState (p : PState) : TaskFlowState :=
  { p.st with functions := commitCur p.st.functions p.current_function }

/-- The initial manager state (`__init__`): empty metadata and collections. -/
def initPState : PState :=
  { st := {}, current_section := none, current_function := none }

/-- `_parse_content` run on a fresh manager: split on newlines, scan each
line, flush the last function. -/
def parseContent (text : String) : TaskFlowState :=
  flushState (parseLines initPState (splitLines text))

/-! ## Fallible variant of the scanner step

Python `int()` and `[1]`-indexing after `split(..., 1)` can raise; the
variant below returns `none` exactly where `_parse_content` would raise an
exception, so that "parse never raises" is a real statement about the
code rather than an artifact of a total embedding. -/

/-- One loop iteration on the already-stripped line, with every fallible
operation (`int(...)`, `split(x, 1)[1]`) modelled in `Option`; `none` is
an uncaught exception. -/
def stepLineOCore (p : PState) (line : String) : Option PState :=
  if sStarts "Project:" line then
    match splitOnce ':' line.data with
    | some q => some { p with st.project_name := strim ⟨q.2⟩ }
    | none => none
  else if sStarts "Description:" line then
    match splitOnce ':' line.data with
    | some q => some { p with st.project_description := strim ⟨q.2⟩ }
    | none => none
  else if sStarts "technology:" line then
    match splitOnce ':' line.data with
    | some q => some { p with st.technology := strim ⟨q.2⟩ }
    | none => none
  else if line = "PROJECT FILES INDEX:" then
    some { p with current_section := some .files }
  else if p.current_section = some .files ∧ line ≠ "" ∧
      ¬ sStarts "All functions:" line then
    if matchNumDot line.data then
      match splitOnce '.' line.data with
      | some (before, after) =>
        match pyIntDigits before with
        | some index =>
          some { p with st.files :=
                  dinsert p.st.files index ⟨index, strim ⟨after⟩, ""⟩ }
        | none => none
      | none => some p
    else some p
  else if line = "All functions:" then
    some { p with current_section := some .functions }
  else if p.current_section = some .functions ∧ matchFDot line.data then
    match splitOnce '.' line.data with
    | some (before, after) =>
      some { p with
             st.functions := commitCur p.st.functions p.current_function
             current_function := some
               ⟨strim ⟨before⟩, strim ⟨after⟩, "", [], []⟩ }
    | none => none
  else if p.current_function.isSome ∧ line ≠ "" ∧ ¬ matchFDot line.data then
    match p.current_function with
    | some c =>
      if c.description = "" ∧ ¬ sStarts "Implementation:" line then
        some { p with current_function := some ({ c with description := line }) }
      else if sStarts "Implementation:" line then
        some p
      else if sStarts "File " line then
        some { p with
               current_function :=
                 some ({ c with
                         files := c.files ++ fileRefs line.data
                         implementation := c.implementation ++ [line] }) }
      else
        some { p with
               current_function :=
                 some ({ c with implementation := c.implementation ++ [line] }) }
    | none => some p
  else if sStarts "key projct configuration:" line then
    some { p with
           current_section := some .config
           st.config_section := line ++ "\n" }
  else if p.current_section = some .config then
    some { p with st.config_section := p.st.config_section ++ line ++ "\n" }
  else some p

/-- One fallible iteration: strip, then classify. -/
def stepLineO (p : PState) (raw : String) : Option PState :=
  stepLineOCore p (strim raw)

/-- The fallible parsing loop (`none` = an exception escaped the loop). -/
def parseLinesO (p : PState) (ls : List String) : Option PState :=
  ls.foldlM stepLineO p

/-- Fallible `_parse_content` on a fresh manager. -/
def parseContentO (text : String) : Option TaskFlowState :=
  (parseLinesO initPState (splitLines text)).map flushState

/-! ## Serializer (`_generate_content`) -/

/-- Stable insertion into a list sorted by a numeric key: the new element
goes after every element whose key is `≤` its own (so ties keep their
original relative order, matching Python's stable `sorted`). -/
def insertByKey {α : Type} (key : α → Int) (a : α) : List α → List α
  | [] => [a]
  | b :: bs => if key b ≤ key a then b :: insertByKey key a bs else a :: b :: bs

/-- Stable sort by a numeric key (Python `sorted(xs, key=...)`). -/
def sortByKey {α : Type} (key : α → Int) (l : List α) : List α :=
  l.foldl (fun acc a => insertByKey key a acc) []

/-- `_generate_content`: headers, the files section sorted ascending by
index, a blank line, the functions section sorted ascending by numeric id
prefix (each function contributing its header line, description line, the
`Implementation:` marker, the raw implementation blob and a trailing blank
line), then the stripped config blob; all joined with newlines. -/
def generateContent (m : TaskFlowState) : String :=
  let fileLines :=
    (sortByKey (fun kv => kv.1) m.files).map
      (fun kv => intStr kv.1 ++ ". " ++ kv.2.path)
  let funcLines :=
    (sortByKey (fun kv => (idNum kv.1 : Int)) m.functions).flatMap
      (fun kv =>
        [kv.1 ++ ". " ++ kv.2.name, kv.2.description, "Implementation:",
         kv.2.implementation, ""])
  joinNL
    (["Project:" ++ m.project_name,
      "Description:" ++ m.project_description,
      "technology:" ++ m.technology,
      "PROJECT FILES INDEX:"] ++
     fileLines ++ [""] ++ ["All functions:"] ++ funcLines ++
     [strim m.config_section])

/-! ## Mutation API -/

/-- `add_function`: fresh id `str(max(existing numeric ids, default) + 1) + "F"`
(or `"1F"` on an empty collection), insert, return the new state and id.
The file-reference check only prints warnings; it does not affect state. -/
def add_function (m : TaskFlowState) (name description implementation : String)
    (files_involved : List Int := []) : TaskFlowState × String :=
  let existing := m.functions.map (fun kv => idNum kv.1)
  let new_id :=
    if existing.isEmpty then "1F"
    else natStr (existing.foldl max 0 + 1) ++ "F"
  ({ m with
     functions :=
       dinsert m.functions new_id
         ⟨new_id, name, description, implementation, files_involved⟩ },
   new_id)

/-- Python's truthiness test on an optional string argument
(`if name: func.name = name`): the stored value is replaced only when the
argument is supplied and non-empty. -/
def truthyReplace (cur : String) (arg : Option String) : String :=
  match arg with
  | some s => if s ≠ "" then s else cur
  | none => cur

/-- `edit_function`: `False` when the id is unknown; otherwise each of
`name`, `description`, `implementation` replaces the stored value only
when supplied and truthy (a supplied empty string is ignored, like
Python's `if name:`), while `files_involved` replaces whenever supplied
(`is not None`), including by the empty list. -/
def edit_function (m : TaskFlowState) (function_id : String)
    (name : Option String := none) (description : Option String := none)
    (implementation : Option String := none)
    (files_involved : Option (List Int) := none) : TaskFlowState × Bool :=
  match dlookup function_id m.functions with
  | none => (m, false)
  | some f =>
    ({ m with
       functions :=
         dinsert m.functions function_id
           { f with
             name := truthyReplace f.name name
             description := truthyReplace f.description description
             implementation := truthyReplace f.implementation implementation
             files_involved :=
               match files_involved with
               | some l => l
               | none => f.files_involved } }, true)

/-- `delete_function`: remove the entry when present. -/
def delete_function (m : TaskFlowState) (function_id : String) :
    TaskFlowState × Bool :=
  if (dlookup function_id m.functions).isSome then
    ({ m with functions := dremove function_id m.functions }, true)
  else (m, false)

/-- `add_file`: fresh index `max(existing indices, default) + 1` (or `1`
on an empty collection), insert, return the new state and index. -/
def add_file (m : TaskFlowState) (path : String) (description : String := "") :
    TaskFlowState × Int :=
  let keys := m.files.map (fun kv => kv.1)
  let new_index : Int :=
    if keys.isEmpty then 1 else keys.foldl max 0 + 1
  ({ m with files := dinsert m.files new_index ⟨new_index, path, description⟩ },
   new_index)

/-- `delete_file`: `False` when the index is unknown; otherwise remove the
first occurrence of the index from each function's `files_involved`
(Python `list.remove`), delete the file entry, return `True`. -/
def delete_file (m : TaskFlowState) (index : Int) : TaskFlowState × Bool :=
  if (dlookup index m.files).isSome then
    ({ m with
       functions := m.functions.map (fun kv =>
         (kv.1,
          if index ∈ kv.2.files_involved then
            { kv.2 with files_involved := kv.2.files_involved.erase index }
          else kv.2))
       files := dremove index m.files }, true)
  else (m, false)

/-- `reorder_files`: renumber the files `1..N` in ascending order of the
old indices, rebuild the collection, and map each function's
`files_involved` entry through the old-to-new table
(`index_mapping.get(idx, idx)`: entries absent from the table stay). -/
def reorder_files (m : TaskFlowState) : TaskFlowState :=
  let sorted := sortByKey (fun kv => kv.1) m.files
  let numbered := (List.range' 1 sorted.length).zip sorted
  let new_files := numbered.map
    (fun q => ((q.1 : Int), { q.2.2 with index := (q.1 : Int) }))
  let index_mapping : List (Int × Int) := numbered.map
    (fun q => (q.2.1, (q.1 : Int)))
  { m with
    files := new_files
    functions := m.functions.map (fun kv =>
      (kv.1,
       { kv.2 with
         files_involved :=
           kv.2.files_involved.map
             (fun idx => (dlookup idx index_mapping).getD idx) })) }

/-! ## Validator (`validate_project`) -/

/-- The issue list `validate_project` accumulates: one issue per occurrence
of a `files_involved` entry with no matching file index, then a single
issue when any file path occurs more than once.  (Python renders the
duplicate set with `set(...)`; the exact rendering of that one message is
fixed here deterministically, no claim depends on it.) -/
def validate_issues (m : TaskFlowState) : List String :=
  let refIssues := m.functions.flatMap (fun kv =>
    kv.2.files_involved.filterMap (fun file_idx =>
      if (dlookup file_idx m.files).isSome then none
      else some ("Function " ++ kv.2.id ++ " references non-existent File " ++
                 intStr file_idx)))
  let paths := m.files.map (fun kv => kv.2.path)
  let duplicates := paths.filter (fun path => paths.count path > 1)
  refIssues ++
    (if duplicates.isEmpty then []
     else ["Duplicate file paths found: " ++
           joinNL (duplicates.dedup)])

/-- `validate_project` returns `len(issues) == 0`. -/
def validate_project (m : TaskFlowState) : Bool :=
  (validate_issues m).isEmpty

/-! ## Claim C2: metadata header handling

The spec says the three metadata fields are set once, from the *first*
occurrence of the corresponding header line.  The code unconditionally
reassigns the field on *every* matching line (the `Project:` /
`Description:` / `technology:` branches sit at the top of the chain and
fire regardless of section state), so the *last* occurrence wins. -/

/-- The value a header line contributes for prefix `pre`: present when the
stripped line starts with `pre`, in which case it is the remainder after
the first colon, stripped. -/
def headerValue (pre : String) (raw : String) : Option String :=
  if sStarts pre (strim raw) then some (strim (afterColon (strim raw)))
  else none

/-- The metadata value after a whole scan: the last matching header line
wins (the code overwrites on every match). -/
def lastHeader (pre : String) (ls : List String) : Option String :=
  (ls.filterMap (headerValue pre)).getLast?

/-! ## Claim C4: `delete_file` -/

/-- What claim C4 asserts of `deleteFile(i)` on a model where `i` is
present: it returns true, removes `i` from the file collection, and for
each function removes one occurrence of `i` from `files_involved` when
present (count 1 goes to 0, count 2 goes to 1). -/
def deleteFileSpec (m : TaskFlowState) (i : Int) : Prop :=
  (delete_file m i).2 = true ∧
  dlookup i (delete_file m i).1.files = none ∧
  ∀ k f, (k, f) ∈ m.functions →
    ∃ f', (k, f') ∈ (delete_file m i).1.functions ∧
      (f.files_involved.count i = 1 → f'.files_involved.count i = 0) ∧
      (f.files_involved.count i = 2 → f'.files_involved.count i = 1)

/-! ## Claim C6: `edit_function` -/

/-- What holds of `editFunction` on a present id (the amended claim):
returns true; the entry is replaced field-wise, where `files_involved`
is replaced whenever supplied (including by `[]`), while the three string
fields are replaced only when supplied *and non-empty* (Python's
truthiness test ignores a supplied empty string); all other entries, the
file collection, metadata, and config are untouched. -/
def editFunctionSpec (m : TaskFlowState) (fid : String) (f : Function)
    (name description implementation : Option String)
    (refs : Option (List Int)) : Prop :=
  (edit_function m fid name description implementation refs).2 = true ∧
  dlookup fid (edit_function m fid name description implementation
      refs).1.functions =
    some ⟨f.id, truthyReplace f.name name,
      truthyReplace f.description description,
      truthyReplace f.implementation implementation,
      (match refs with | some l => l | none => f.files_involved)⟩ ∧
  (∀ k, k ≠ fid →
    dlookup k (edit_function m fid name description implementation
        refs).1.functions = dlookup k m.functions) ∧
  (edit_function m fid name description implementation refs).1.files =
    m.files ∧
  (edit_function m fid name description implementation
    refs).1.config_section = m.config_section

/-! ## Claim C7: `add_function` id generation -/

/-- What claim C7 asserts of `addFunction`: the fresh id is
`str(max existing numeric id + 1) + "F"` — numerically strictly greater
than every pre-existing id, never colliding, `"1F"` on an empty
collection — and the new function is inserted under it. -/
def addFunctionSpec (m : TaskFlowState)
    (name description implementation : String) (refs : List Int) : Prop :=
  (m.functions = [] →
    (add_function m name description implementation refs).2 = "1F") ∧
  (∀ k ∈ m.functions.map Prod.fst,
    idNum k < idNum (add_function m name description implementation refs).2) ∧
  (add_function m name description implementation refs).2 ∉
    m.functions.map Prod.fst ∧
  dlookup (add_function m name description implementation refs).2
      (add_function m name description implementation refs).1.functions =
    some ⟨(add_function m name description implementation refs).2,
      name, description, implementation, refs⟩

/-- What holds of the validator (the amended claim): the issue list has
one entry per *occurrence* of a dangling `files_involved` entry (so a
function referencing a missing index twice contributes two issues) plus
one entry when any file path is duplicated; pass/fail is emptiness of the
list; a function referencing missing index 99 puts the exact message
naming 99 and the function id into the list. -/
def validateSpec (m : TaskFlowState) : Prop :=
  (validate_issues m).length =
    (m.functions.map (fun kv =>
      kv.2.files_involved.countP
        (fun i => decide ((dlookup i m.files).isSome = false)))).sum +
    (if ((m.files.map (fun kv => kv.2.path)).filter
        (fun path => (m.files.map (fun kv => kv.2.path)).count path > 1)).isEmpty
     then 0 else 1) ∧
  (validate_project m = true ↔ validate_issues m = []) ∧
  ∀ k f, (k, f) ∈ m.functions → (99 : Int) ∈ f.files_involved →
    dlookup (99 : Int) m.files = none →
    ("Function " ++ f.id ++ " references non-existent File " ++
      intStr 99) ∈ validate_issues m

/-- The old-to-new index translation table that `reorder_files` builds:
the i-th smallest existing index (1-based) maps to `i`. -/
def indexMappingOf (m : TaskFlowState) : List (Int × Int) :=
  ((List.range' 1 (sortByKey (fun kv => kv.1) m.files).length).zip
    (sortByKey (fun kv => kv.1) m.files)).map
    (fun q => (q.2.1, (q.1 : Int)))

/-- What claim C5 asserts of `reorderFiles()`: the new key list is exactly
`1..N` in order (dense range), the new numbering follows the current
ascending order of old indices (the sorted old-key list is an ascending
permutation of the old keys, and the table pairs it positionally with
`1..N`), every function's `files_involved` is rewritten entrywise through
the table, and an entry that is not an existing file index passes through
unchanged. -/
def reorderSpec (m : TaskFlowState) : Prop :=
  (reorder_files m).files.map Prod.fst =
    (List.range' 1 m.files.length).map Int.ofNat ∧
  ((sortByKey (fun kv => kv.1) m.files).map Prod.fst).Pairwise
    (fun a b => a ≤ b) ∧
  (((sortByKey (fun kv => kv.1) m.files).map Prod.fst).Perm
    (m.files.map Prod.fst)) ∧
  (reorder_files m).functions = m.functions.map (fun kv =>
    (kv.1, { kv.2 with
      files_involved := kv.2.files_involved.map
        (fun idx => (dlookup idx (indexMappingOf m)).getD idx) })) ∧
  ∀ idx : Int, idx ∉ m.files.map Prod.fst →
    (dlookup idx (indexMappingOf m)).getD idx = idx

/-- A non-blank line in the `FILES` section that is not a header line, not
a section trigger and does not match the `<digits>.` pattern. -/
def filesUnexpected (line : String) : Prop :=
  line ≠ "" ∧ ¬ sStarts "Project:" line = true ∧
  ¬ sStarts "Description:" line = true ∧
  ¬ sStarts "technology:" line = true ∧ line ≠ "PROJECT FILES INDEX:" ∧
  ¬ sStarts "All functions:" line = true ∧ ¬ matchNumDot line.data = true

/-- A line in the `FUNCTIONS` section, before any function has begun
accumulating, that is not a header line, not a section trigger, not a
`<digits>F.` function header and not the config trigger. -/
def functionsUnexpected (line : String) : Prop :=
  ¬ sStarts "Project:" line = true ∧ ¬ sStarts "Description:" line = true ∧
  ¬ sStarts "technology:" line = true ∧ line ≠ "PROJECT FILES INDEX:" ∧
  line ≠ "All functions:" ∧ ¬ matchFDot line.data = true ∧
  ¬ sStarts "key projct configuration:" line = true

/-! ## Structural invariants of parse output

Every string the parser stores passes through `strip()`, comes from a
newline-split line, and survived the earlier branches of the `elif`
chain; the predicates below record exactly those facts, which both the
whitespace claim and the round-trip claim rest on. -/

/-- A stored line: trimmed, and free of newlines. -/
def lineWf (s : String) : Prop :=
  strim s = s ∧ ('\n' : Char) ∉ s.data

/-- A function description or implementation line as the scanner admits
it: it survived the header branches, the section triggers, the function
header pattern and the `Implementation:` marker. -/
def contentSafe (d : String) : Prop :=
  ¬ sStarts "Project:" d = true ∧ ¬ sStarts "Description:" d = true ∧
  ¬ sStarts "technology:" d = true ∧ ¬ sStarts "Implementation:" d = true ∧
  d ≠ "PROJECT FILES INDEX:" ∧ d ≠ "All functions:" ∧
  ¬ matchFDot d.data = true

/-- An implementation line is additionally non-blank. -/
def implLineWf (s : String) : Prop :=
  s ≠ "" ∧ lineWf s ∧ contentSafe s

/-- A function id as parsed: one or more digits followed by `F`. -/
def isIdForm (s : String) : Prop :=
  ∃ ds : List Char, ds ≠ [] ∧ (∀ c ∈ ds, c.isDigit = true) ∧
    s.data = ds ++ ['F']

/-- The file references a single stored implementation line contributes
(`File `-prefixed lines are scanned, all others contribute nothing). -/
def refsOfLine (s : String) : List Int :=
  if sStarts "File " s then fileRefs s.data else []

/-- The lines of an implementation blob (the blob is the newline-join of
the accumulated lines; an empty blob means no lines). -/
def implLines (f : Function) : List String :=
  if f.implementation = "" then [] else splitLines f.implementation

/-- Invariant of the in-progress function accumulator. -/
def wfCur (c : CurFunc) : Prop :=
  isIdForm c.id ∧ lineWf c.name ∧ lineWf c.description ∧
  contentSafe c.description ∧
  (∀ l ∈ c.implementation, implLineWf l) ∧
  c.files = c.implementation.flatMap (fun l => refsOfLine l) ∧
  (c.implementation ≠ [] → c.description ≠ "")

/-- Invariant of a committed function. -/
def wfFunction (f : Function) : Prop :=
  isIdForm f.id ∧ lineWf f.name ∧ lineWf f.description ∧
  contentSafe f.description ∧
  (∀ l ∈ implLines f, implLineWf l) ∧
  f.files_involved = (implLines f).flatMap (fun l => refsOfLine l) ∧
  (f.implementation ≠ "" → f.description ≠ "") ∧
  joinNL (implLines f) = f.implementation

/-- Invariant of a file entry. -/
def wfFile (i : Int) (pf : ProjectFile) : Prop :=
  0 ≤ i ∧ pf.index = i ∧ lineWf pf.path ∧ pf.description = ""

/-- A line the config accumulator keeps (anything that the earlier
branches would not have diverted). -/
def cfgLineSafe (l : String) : Prop :=
  ¬ sStarts "Project:" l = true ∧ ¬ sStarts "Description:" l = true ∧
  ¬ sStarts "technology:" l = true ∧
  ¬ sStarts "key projct configuration:" l = true ∧
  l ≠ "PROJECT FILES INDEX:" ∧ l ≠ "All functions:"

/-- Invariant of the config blob: empty, or the newline-terminated join
of the trigger line and the kept lines. -/
def wfConfig (c : String) : Prop :=
  c = "" ∨ ∃ l0 ls, c = joinTerm (l0 :: ls) ∧
    sStarts "key projct configuration:" l0 = true ∧ lineWf l0 ∧
    ∀ l ∈ ls, lineWf l ∧ cfgLineSafe l

/-- Invariant of the whole document model. -/
def wfModel (m : TaskFlowState) : Prop :=
  lineWf m.project_name ∧ lineWf m.project_description ∧
  lineWf m.technology ∧
  (∀ e ∈ m.files, wfFile e.1 e.2) ∧ (m.files.map Prod.fst).Nodup ∧
  (∀ e ∈ m.functions, e.1 = e.2.id ∧ wfFunction e.2) ∧
  (m.functions.map Prod.fst).Nodup ∧
  wfConfig m.config_section

/-- Invariant of the full scanner state. -/
def wfP (p : PState) : Prop :=
  wfModel p.st ∧
  (∀ c, p.current_function = some c → wfCur c) ∧
  (p.current_section = some Sect.config → p.current_function = none) ∧
  (p.current_section = some Sect.config → p.st.config_section ≠ "")

/-! ## Round-trip (serialize-then-reparse) development -/

/-- The accumulator state the scanner reaches right after re-reading a
serialized function block: the function's stored fields, with the
implementation blob re-split into lines. -/
def toCur (f : Function) : CurFunc :=
  ⟨f.id, f.name, f.description, implLines f, f.files_involved⟩

/-- The lines a serialized function block contributes to the reparsed
document: header, description, marker, the re-split implementation blob,
and a trailing blank line. -/
def blockLines (kv : String × Function) : List String :=
  [kv.1 ++ ". " ++ kv.2.name, kv.2.description, "Implementation:"] ++
    splitLines kv.2.implementation ++ [""]

/-- Removal of trailing blank lines (what stripping the newline-terminated
config blob does to its line list). -/
def dropTrailBlank (ls : List String) : List String :=
  (ls.reverse.dropWhile (fun s => s == "")).reverse

theorem dropWhile_length_le (p : Char → Bool) (l : List Char) :
    (l.dropWhile p).length ≤ l.length := by
  induction l with
  | nil => simp [List.dropWhile]
  | cons c cs ih =>
    by_cases h : p c
    · simp only [List.dropWhile, h, List.length_cons]
      omega
    · simp [List.dropWhile, h]

/-! ## Basic lemmas about the parsing loop -/

theorem parseLines_nil (p : PState) : parseLines p [] = p := rfl

theorem parseLines_cons (p : PState) (raw : String) (ls : List String) :
    parseLines p (raw :: ls) = parseLines (stepLine p raw) ls := rfl

theorem parseLines_append (p : PState) (ls₁ ls₂ : List String) :
    parseLines p (ls₁ ++ ls₂) = parseLines (parseLines p ls₁) ls₂ :=
  List.foldl_append ..

theorem flushState_project_name (p : PState) :
    (flushState p).project_name = p.st.project_name := rfl

theorem flushState_project_description (p : PState) :
    (flushState p).project_description = p.st.project_description := rfl

theorem flushState_technology (p : PState) :
    (flushState p).technology = p.st.technology := rfl

theorem getLast?_cons_or {α : Type} (a : α) (l : List α) :
    (a :: l).getLast? = l.getLast?.or (some a) := by
  induction l with
  | nil => rfl
  | cons b t _ih =>
    rw [List.getLast?_cons_cons]
    have hne : (b :: t).getLast?.isSome := by
      rw [List.getLast?_isSome]
      simp
    cases h : (b :: t).getLast? with
    | none => rw [h] at hne; simp at hne
    | some w => simp [Option.or]

theorem isPrefixOf_iff_exists_append {p l : List Char} :
    p.isPrefixOf l = true ↔ ∃ t, l = p ++ t := by
  induction p generalizing l with
  | nil => simp [List.isPrefixOf]
  | cons a as ih =>
    cases l with
    | nil => simp [List.isPrefixOf]
    | cons b bs =>
      simp only [List.isPrefixOf, Bool.and_eq_true, beq_iff_eq, ih,
        List.cons_append, List.cons.injEq]
      constructor
      · rintro ⟨rfl, t, rfl⟩; exact ⟨t, rfl, rfl⟩
      · rintro ⟨t, rfl, rfl⟩; exact ⟨rfl, t, rfl⟩

theorem sStarts_iff {p s : String} :
    sStarts p s = true ↔ ∃ t, s.data = p.data ++ t := by
  rw [sStarts, isPrefixOf_iff_exists_append]

/-- Two string prefixes that differ in their first character cannot both
match. -/
theorem sStarts_head {p s : String} (h : sStarts p s = true) :
    s.data.head? = p.data.head? ∨ p.data = [] := by
  rcases sStarts_iff.1 h with ⟨t, ht⟩
  cases hp : p.data with
  | nil => exact Or.inr rfl
  | cons a as => left; rw [ht, hp]; rfl

theorem sStarts_not_both {p q s : String} (hpne : p.data ≠ [])
    (hqne : q.data ≠ []) (hh : p.data.head? ≠ q.data.head?)
    (hp : sStarts p s = true) (hq : sStarts q s = true) : False := by
  rcases sStarts_head hp with h1 | h1
  · rcases sStarts_head hq with h2 | h2
    · exact hh (h1 ▸ h2 ▸ rfl)
    · exact hqne h2
  · exact hpne h1

/-! ### Branch equations for the scanner step

One equation per outcome of the `if`/`elif` chain, each under the
negations of all earlier conditions, mirroring Python's evaluation
order. -/

theorem stepLineCore_header_P (p : PState) (line : String)
    (h1 : sStarts "Project:" line = true) :
    stepLineCore p line =
      { p with st.project_name := strim (afterColon line) } := by
  unfold stepLineCore
  rw [if_pos h1]

theorem stepLineCore_header_D (p : PState) (line : String)
    (h1 : ¬ sStarts "Project:" line = true)
    (h2 : sStarts "Description:" line = true) :
    stepLineCore p line =
      { p with st.project_description := strim (afterColon line) } := by
  unfold stepLineCore
  rw [if_neg h1, if_pos h2]

theorem stepLineCore_header_T (p : PState) (line : String)
    (h1 : ¬ sStarts "Project:" line = true)
    (h2 : ¬ sStarts "Description:" line = true)
    (h3 : sStarts "technology:" line = true) :
    stepLineCore p line =
      { p with st.technology := strim (afterColon line) } := by
  unfold stepLineCore
  rw [if_neg h1, if_neg h2, if_pos h3]

theorem stepLineCore_filesTrigger (p : PState) (line : String)
    (h1 : ¬ sStarts "Project:" line = true)
    (h2 : ¬ sStarts "Description:" line = true)
    (h3 : ¬ sStarts "technology:" line = true)
    (h4 : line = "PROJECT FILES INDEX:") :
    stepLineCore p line = { p with current_section := some Sect.files } := by
  unfold stepLineCore
  rw [if_neg h1, if_neg h2, if_neg h3, if_pos h4]

theorem stepLineCore_fileEntry (p : PState) (line : String)
    (bef aft : List Char)
    (h1 : ¬ sStarts "Project:" line = true)
    (h2 : ¬ sStarts "Description:" line = true)
    (h3 : ¬ sStarts "technology:" line = true)
    (h4 : ¬ line = "PROJECT FILES INDEX:")
    (h5 : p.current_section = some Sect.files ∧ line ≠ "" ∧
      ¬ sStarts "All functions:" line = true)
    (hm : matchNumDot line.data = true)
    (hs : splitOnce '.' line.data = some (bef, aft)) :
    stepLineCore p line =
      { p with
        st.files :=
          dinsert p.st.files (digitsToNat bef)
            ⟨digitsToNat bef, strim ⟨aft⟩, ""⟩ } := by
  unfold stepLineCore
  rw [if_neg h1, if_neg h2, if_neg h3, if_neg h4, if_pos h5, if_pos hm, hs]

theorem stepLineCore_fileEntryNone (p : PState) (line : String)
    (h1 : ¬ sStarts "Project:" line = true)
    (h2 : ¬ sStarts "Description:" line = true)
    (h3 : ¬ sStarts "technology:" line = true)
    (h4 : ¬ line = "PROJECT FILES INDEX:")
    (h5 : p.current_section = some Sect.files ∧ line ≠ "" ∧
      ¬ sStarts "All functions:" line = true)
    (hm : matchNumDot line.data = true)
    (hs : splitOnce '.' line.data = none) :
    stepLineCore p line = p := by
  unfold stepLineCore
  rw [if_neg h1, if_neg h2, if_neg h3, if_neg h4, if_pos h5, if_pos hm, hs]

theorem stepLineCore_fileSkip (p : PState) (line : String)
    (h1 : ¬ sStarts "Project:" line = true)
    (h2 : ¬ sStarts "Description:" line = true)
    (h3 : ¬ sStarts "technology:" line = true)
    (h4 : ¬ line = "PROJECT FILES INDEX:")
    (h5 : p.current_section = some Sect.files ∧ line ≠ "" ∧
      ¬ sStarts "All functions:" line = true)
    (hm : ¬ matchNumDot line.data = true) :
    stepLineCore p line = p := by
  unfold stepLineCore
  rw [if_neg h1, if_neg h2, if_neg h3, if_neg h4, if_pos h5, if_neg hm]

theorem stepLineCore_funcTrigger (p : PState) (line : String)
    (h1 : ¬ sStarts "Project:" line = true)
    (h2 : ¬ sStarts "Description:" line = true)
    (h3 : ¬ sStarts "technology:" line = true)
    (h4 : ¬ line = "PROJECT FILES INDEX:")
    (h5 : ¬ (p.current_section = some Sect.files ∧ line ≠ "" ∧
      ¬ sStarts "All functions:" line = true))
    (h6 : line = "All functions:") :
    stepLineCore p line = { p with current_section := some Sect.functions } := by
  unfold stepLineCore
  rw [if_neg h1, if_neg h2, if_neg h3, if_neg h4, if_neg h5, if_pos h6]

theorem stepLineCore_funcHeader (p : PState) (line : String)
    (bef aft : List Char)
    (h1 : ¬ sStarts "Project:" line = true)
    (h2 : ¬ sStarts "Description:" line = true)
    (h3 : ¬ sStarts "technology:" line = true)
    (h4 : ¬ line = "PROJECT FILES INDEX:")
    (h5 : ¬ (p.current_section = some Sect.files ∧ line ≠ "" ∧
      ¬ sStarts "All functions:" line = true))
    (h6 : ¬ line = "All functions:")
    (h7 : p.current_section = some Sect.functions ∧ matchFDot line.data = true)
    (hs : splitOnce '.' line.data = some (bef, aft)) :
    stepLineCore p line =
      { p with
        st.functions := commitCur p.st.functions p.current_function
        current_function :=
          some ⟨strim ⟨bef⟩, strim ⟨aft⟩, "", [], []⟩ } := by
  unfold stepLineCore
  rw [if_neg h1, if_neg h2, if_neg h3, if_neg h4, if_neg h5, if_neg h6,
    if_pos h7, hs]

theorem stepLineCore_funcHeaderNone (p : PState) (line : String)
    (h1 : ¬ sStarts "Project:" line = true)
    (h2 : ¬ sStarts "Description:" line = true)
    (h3 : ¬ sStarts "technology:" line = true)
    (h4 : ¬ line = "PROJECT FILES INDEX:")
    (h5 : ¬ (p.current_section = some Sect.files ∧ line ≠ "" ∧
      ¬ sStarts "All functions:" line = true))
    (h6 : ¬ line = "All functions:")
    (h7 : p.current_section = some Sect.functions ∧ matchFDot line.data = true)
    (hs : splitOnce '.' line.data = none) :
    stepLineCore p line = p := by
  unfold stepLineCore
  rw [if_neg h1, if_neg h2, if_neg h3, if_neg h4, if_neg h5, if_neg h6,
    if_pos h7, hs]

theorem stepLineCore_descLine (p : PState) (line : String) (c : CurFunc)
    (h1 : ¬ sStarts "Project:" line = true)
    (h2 : ¬ sStarts "Description:" line = true)
    (h3 : ¬ sStarts "technology:" line = true)
    (h4 : ¬ line = "PROJECT FILES INDEX:")
    (h5 : ¬ (p.current_section = some Sect.files ∧ line ≠ "" ∧
      ¬ sStarts "All functions:" line = true))
    (h6 : ¬ line = "All functions:")
    (h7 : ¬ (p.current_section = some Sect.functions ∧
      matchFDot line.data = true))
    (hc : p.current_function = some c)
    (hne : line ≠ "")
    (hnf : ¬ matchFDot line.data = true)
    (hd : c.description = "" ∧ ¬ sStarts "Implementation:" line = true) :
    stepLineCore p line =
      { p with current_function := some ({ c with description := line }) } := by
  unfold stepLineCore
  rw [if_neg h1, if_neg h2, if_neg h3, if_neg h4, if_neg h5, if_neg h6,
    if_neg h7, if_pos ⟨by rw [hc]; rfl, hne, hnf⟩, hc]
  simp only [if_pos hd]

theorem stepLineCore_implMark (p : PState) (line : String) (c : CurFunc)
    (h1 : ¬ sStarts "Project:" line = true)
    (h2 : ¬ sStarts "Description:" line = true)
    (h3 : ¬ sStarts "technology:" line = true)
    (h4 : ¬ line = "PROJECT FILES INDEX:")
    (h5 : ¬ (p.current_section = some Sect.files ∧ line ≠ "" ∧
      ¬ sStarts "All functions:" line = true))
    (h6 : ¬ line = "All functions:")
    (h7 : ¬ (p.current_section = some Sect.functions ∧
      matchFDot line.data = true))
    (hc : p.current_function = some c)
    (hne : line ≠ "")
    (hnf : ¬ matchFDot line.data = true)
    (hd : ¬ (c.description = "" ∧ ¬ sStarts "Implementation:" line = true))
    (hi : sStarts "Implementation:" line = true) :
    stepLineCore p line = p := by
  unfold stepLineCore
  rw [if_neg h1, if_neg h2, if_neg h3, if_neg h4, if_neg h5, if_neg h6,
    if_neg h7, if_pos ⟨by rw [hc]; rfl, hne, hnf⟩, hc]
  simp only [if_neg hd, if_pos hi]

theorem stepLineCore_fileLine (p : PState) (line : String) (c : CurFunc)
    (h1 : ¬ sStarts "Project:" line = true)
    (h2 : ¬ sStarts "Description:" line = true)
    (h3 : ¬ sStarts "technology:" line = true)
    (h4 : ¬ line = "PROJECT FILES INDEX:")
    (h5 : ¬ (p.current_section = some Sect.files ∧ line ≠ "" ∧
      ¬ sStarts "All functions:" line = true))
    (h6 : ¬ line = "All functions:")
    (h7 : ¬ (p.current_section = some Sect.functions ∧
      matchFDot line.data = true))
    (hc : p.current_function = some c)
    (hne : line ≠ "")
    (hnf : ¬ matchFDot line.data = true)
    (hd : ¬ (c.description = "" ∧ ¬ sStarts "Implementation:" line = true))
    (hi : ¬ sStarts "Implementation:" line = true)
    (hf : sStarts "File " line = true) :
    stepLineCore p line =
      { p with
        current_function :=
          some ({ c with
                  files := c.files ++ fileRefs line.data
                  implementation := c.implementation ++ [line] }) } := by
  unfold stepLineCore
  rw [if_neg h1, if_neg h2, if_neg h3, if_neg h4, if_neg h5, if_neg h6,
    if_neg h7, if_pos ⟨by rw [hc]; rfl, hne, hnf⟩, hc]
  simp only [if_neg hd, if_neg hi, if_pos hf]

theorem stepLineCore_otherLine (p : PState) (line : String) (c : CurFunc)
    (h1 : ¬ sStarts "Project:" line = true)
    (h2 : ¬ sStarts "Description:" line = true)
    (h3 : ¬ sStarts "technology:" line = true)
    (h4 : ¬ line = "PROJECT FILES INDEX:")
    (h5 : ¬ (p.current_section = some Sect.files ∧ line ≠ "" ∧
      ¬ sStarts "All functions:" line = true))
    (h6 : ¬ line = "All functions:")
    (h7 : ¬ (p.current_section = some Sect.functions ∧
      matchFDot line.data = true))
    (hc : p.current_function = some c)
    (hne : line ≠ "")
    (hnf : ¬ matchFDot line.data = true)
    (hd : ¬ (c.description = "" ∧ ¬ sStarts "Implementation:" line = true))
    (hi : ¬ sStarts "Implementation:" line = true)
    (hf : ¬ sStarts "File " line = true) :
    stepLineCore p line =
      { p with
        current_function :=
          some ({ c with implementation := c.implementation ++ [line] }) } := by
  unfold stepLineCore
  rw [if_neg h1, if_neg h2, if_neg h3, if_neg h4, if_neg h5, if_neg h6,
    if_neg h7, if_pos ⟨by rw [hc]; rfl, hne, hnf⟩, hc]
  simp only [if_neg hd, if_neg hi, if_neg hf]

theorem stepLineCore_cfgTrigger (p : PState) (line : String)
    (h1 : ¬ sStarts "Project:" line = true)
    (h2 : ¬ sStarts "Description:" line = true)
    (h3 : ¬ sStarts "technology:" line = true)
    (h4 : ¬ line = "PROJECT FILES INDEX:")
    (h5 : ¬ (p.current_section = some Sect.files ∧ line ≠ "" ∧
      ¬ sStarts "All functions:" line = true))
    (h6 : ¬ line = "All functions:")
    (h7 : ¬ (p.current_section = some Sect.functions ∧
      matchFDot line.data = true))
    (h8 : ¬ (p.current_function.isSome = true ∧ line ≠ "" ∧
      ¬ matchFDot line.data = true))
    (h9 : sStarts "key projct configuration:" line = true) :
    stepLineCore p line =
      { p with
        current_section := some Sect.config
        st.config_section := line ++ "\n" } := by
  unfold stepLineCore
  rw [if_neg h1, if_neg h2, if_neg h3, if_neg h4, if_neg h5, if_neg h6,
    if_neg h7, if_neg h8, if_pos h9]

theorem stepLineCore_cfgAppend (p : PState) (line : String)
    (h1 : ¬ sStarts "Project:" line = true)
    (h2 : ¬ sStarts "Description:" line = true)
    (h3 : ¬ sStarts "technology:" line = true)
    (h4 : ¬ line = "PROJECT FILES INDEX:")
    (h5 : ¬ (p.current_section = some Sect.files ∧ line ≠ "" ∧
      ¬ sStarts "All functions:" line = true))
    (h6 : ¬ line = "All functions:")
    (h7 : ¬ (p.current_section = some Sect.functions ∧
      matchFDot line.data = true))
    (h8 : ¬ (p.current_function.isSome = true ∧ line ≠ "" ∧
      ¬ matchFDot line.data = true))
    (h9 : ¬ sStarts "key projct configuration:" line = true)
    (h10 : p.current_section = some Sect.config) :
    stepLineCore p line =
      { p with st.config_section := p.st.config_section ++ line ++ "\n" } := by
  unfold stepLineCore
  rw [if_neg h1, if_neg h2, if_neg h3, if_neg h4, if_neg h5, if_neg h6,
    if_neg h7, if_neg h8, if_neg h9, if_pos h10]

theorem stepLineCore_skip (p : PState) (line : String)
    (h1 : ¬ sStarts "Project:" line = true)
    (h2 : ¬ sStarts "Description:" line = true)
    (h3 : ¬ sStarts "technology:" line = true)
    (h4 : ¬ line = "PROJECT FILES INDEX:")
    (h5 : ¬ (p.current_section = some Sect.files ∧ line ≠ "" ∧
      ¬ sStarts "All functions:" line = true))
    (h6 : ¬ line = "All functions:")
    (h7 : ¬ (p.current_section = some Sect.functions ∧
      matchFDot line.data = true))
    (h8 : ¬ (p.current_function.isSome = true ∧ line ≠ "" ∧
      ¬ matchFDot line.data = true))
    (h9 : ¬ sStarts "key projct configuration:" line = true)
    (h10 : ¬ p.current_section = some Sect.config) :
    stepLineCore p line = p := by
  unfold stepLineCore
  rw [if_neg h1, if_neg h2, if_neg h3, if_neg h4, if_neg h5, if_neg h6,
    if_neg h7, if_neg h8, if_neg h9, if_neg h10]

/-! ### Metadata effect of one scanner step -/

theorem stepLineCore_metadata (p : PState) (line : String) :
    (stepLineCore p line).st.project_name =
      (if sStarts "Project:" line = true then strim (afterColon line)
       else p.st.project_name) ∧
    (stepLineCore p line).st.project_description =
      (if ¬ sStarts "Project:" line = true ∧ sStarts "Description:" line = true
       then strim (afterColon line) else p.st.project_description) ∧
    (stepLineCore p line).st.technology =
      (if ¬ sStarts "Project:" line = true ∧
          ¬ sStarts "Description:" line = true ∧
          sStarts "technology:" line = true
       then strim (afterColon line) else p.st.technology) := by
  by_cases h1 : sStarts "Project:" line = true
  · rw [stepLineCore_header_P p line h1]
    simp [h1]
  by_cases h2 : sStarts "Description:" line = true
  · rw [stepLineCore_header_D p line h1 h2]
    simp [h1, h2]
  by_cases h3 : sStarts "technology:" line = true
  · rw [stepLineCore_header_T p line h1 h2 h3]
    simp [h1, h2, h3]
  by_cases h4 : line = "PROJECT FILES INDEX:"
  · rw [stepLineCore_filesTrigger p line h1 h2 h3 h4]
    simp [h1, h2, h3]
  by_cases h5 : p.current_section = some Sect.files ∧ line ≠ "" ∧
      ¬ sStarts "All functions:" line = true
  · by_cases hm : matchNumDot line.data = true
    · cases hs : splitOnce '.' line.data with
      | none =>
        rw [stepLineCore_fileEntryNone p line h1 h2 h3 h4 h5 hm hs]
        simp [h1, h2, h3]
      | some ba =>
        rw [stepLineCore_fileEntry p line ba.1 ba.2 h1 h2 h3 h4 h5 hm hs]
        simp [h1, h2, h3]
    · rw [stepLineCore_fileSkip p line h1 h2 h3 h4 h5 hm]
      simp [h1, h2, h3]
  by_cases h6 : line = "All functions:"
  · rw [stepLineCore_funcTrigger p line h1 h2 h3 h4 h5 h6]
    simp [h1, h2, h3]
  by_cases h7 : p.current_section = some Sect.functions ∧
      matchFDot line.data = true
  · cases hs : splitOnce '.' line.data with
    | none =>
      rw [stepLineCore_funcHeaderNone p line h1 h2 h3 h4 h5 h6 h7 hs]
      simp [h1, h2, h3]
    | some ba =>
      rw [stepLineCore_funcHeader p line ba.1 ba.2 h1 h2 h3 h4 h5 h6 h7 hs]
      simp [h1, h2, h3]
  by_cases h8 : p.current_function.isSome = true ∧ line ≠ "" ∧
      ¬ matchFDot line.data = true
  · obtain ⟨hsome, hne, hnf⟩ := h8
    cases hc : p.current_function with
    | none => rw [hc] at hsome; simp at hsome
    | some c =>
      by_cases hd : c.description = "" ∧ ¬ sStarts "Implementation:" line = true
      · rw [stepLineCore_descLine p line c h1 h2 h3 h4 h5 h6 h7 hc hne hnf hd]
        simp [h1, h2, h3]
      by_cases hi : sStarts "Implementation:" line = true
      · rw [stepLineCore_implMark p line c h1 h2 h3 h4 h5 h6 h7 hc hne hnf hd hi]
        simp [h1, h2, h3]
      by_cases hf : sStarts "File " line = true
      · rw [stepLineCore_fileLine p line c h1 h2 h3 h4 h5 h6 h7 hc hne hnf hd hi hf]
        simp [h1, h2, h3]
      · rw [stepLineCore_otherLine p line c h1 h2 h3 h4 h5 h6 h7 hc hne hnf hd hi hf]
        simp [h1, h2, h3]
  by_cases h9 : sStarts "key projct configuration:" line = true
  · rw [stepLineCore_cfgTrigger p line h1 h2 h3 h4 h5 h6 h7 h8 h9]
    simp [h1, h2, h3]
  by_cases h10 : p.current_section = some Sect.config
  · rw [stepLineCore_cfgAppend p line h1 h2 h3 h4 h5 h6 h7 h8 h9 h10]
    simp [h1, h2, h3]
  · rw [stepLineCore_skip p line h1 h2 h3 h4 h5 h6 h7 h8 h9 h10]
    simp [h1, h2, h3]

theorem stepLine_project_name (p : PState) (raw : String) :
    (stepLine p raw).st.project_name =
      (headerValue "Project:" raw).getD p.st.project_name := by
  rw [stepLine, (stepLineCore_metadata p (strim raw)).1, headerValue]
  split_ifs <;> rfl

theorem stepLine_project_description (p : PState) (raw : String) :
    (stepLine p raw).st.project_description =
      (headerValue "Description:" raw).getD p.st.project_description := by
  rw [stepLine, (stepLineCore_metadata p (strim raw)).2.1, headerValue]
  by_cases hd : sStarts "Description:" (strim raw) = true
  · have hp : ¬ sStarts "Project:" (strim raw) = true := fun hp =>
      sStarts_not_both (by decide) (by decide) (by decide) hp hd
    simp [hd, hp]
  · simp [hd]

theorem stepLine_technology (p : PState) (raw : String) :
    (stepLine p raw).st.technology =
      (headerValue "technology:" raw).getD p.st.technology := by
  rw [stepLine, (stepLineCore_metadata p (strim raw)).2.2, headerValue]
  by_cases hd : sStarts "technology:" (strim raw) = true
  · have hp : ¬ sStarts "Project:" (strim raw) = true := fun hp =>
      sStarts_not_both (by decide) (by decide) (by decide) hp hd
    have hq : ¬ sStarts "Description:" (strim raw) = true := fun hq =>
      sStarts_not_both (by decide) (by decide) (by decide) hq hd
    simp [hd, hp, hq]
  · simp [hd]

theorem parseLines_lastHeader (pre : String) (fieldOf : PState → String)
    (hstep : ∀ p raw,
      fieldOf (stepLine p raw) = (headerValue pre raw).getD (fieldOf p)) :
    ∀ (ls : List String) (p : PState),
      fieldOf (parseLines p ls) = (lastHeader pre ls).getD (fieldOf p) := by
  intro ls
  induction ls with
  | nil => intro p; simp [parseLines_nil, lastHeader]
  | cons raw ls ih =>
    intro p
    rw [parseLines_cons, ih, hstep]
    unfold lastHeader
    rw [List.filterMap_cons]
    cases hv : headerValue pre raw with
    | none => simp
    | some v =>
      rw [getLast?_cons_or]
      cases hlast : (ls.filterMap (headerValue pre)).getLast? <;>
        simp [Option.or]

/-- Claim C2, counterexample: the spec says later occurrences of a header
line are ignored (first-wins).  On `"Project:A\nProject:B"` the first
`Project:` line carries value `"A"`, but the parse ends with
`project_name = "B"`: the code overwrites on every occurrence. -/
theorem C2_counterexample :
    (parseContent "Project:A\nProject:B").project_name = "B" ∧
    ("B" : String) ≠ "A" := by
  constructor
  · rfl
  · decide

/-- Claim C2 (amended): each of the three metadata fields produced by parse
equals the value from the LAST occurrence of its corresponding header line
(`Project:`, `Description:`, `technology:`) in the text, and the empty
string when there is no such line; every earlier occurrence is
overwritten. -/
theorem C2_metadata_last_wins (text : String) :
    (parseContent text).project_name =
      (lastHeader "Project:" (splitLines text)).getD "" ∧
    (parseContent text).project_description =
      (lastHeader "Description:" (splitLines text)).getD "" ∧
    (parseContent text).technology =
      (lastHeader "technology:" (splitLines text)).getD "" :=
  ⟨parseLines_lastHeader "Project:" (fun p => p.st.project_name)
      stepLine_project_name (splitLines text) initPState,
   parseLines_lastHeader "Description:" (fun p => p.st.project_description)
      stepLine_project_description (splitLines text) initPState,
   parseLines_lastHeader "technology:" (fun p => p.st.technology)
      stepLine_technology (splitLines text) initPState⟩

/-! ## Dictionary lemmas -/

theorem dlookup_append {α β : Type} [DecidableEq α] (k : α)
    (d₁ d₂ : List (α × β)) :
    dlookup k (d₁ ++ d₂) = (dlookup k d₁).or (dlookup k d₂) := by
  induction d₁ with
  | nil => simp [dlookup, Option.or]
  | cons p d ih =>
    by_cases h : p.1 = k
    · simp [dlookup, h, Option.or]
    · simp [dlookup, h, ih]

theorem dlookup_dinsert_self {α β : Type} [DecidableEq α]
    (d : List (α × β)) (k : α) (v : β) :
    dlookup k (dinsert d k v) = some v := by
  unfold dinsert
  split_ifs with h
  · induction d with
    | nil => simp [dlookup] at h
    | cons p d ih =>
      by_cases hp : p.1 = k
      · simp [dlookup, hp]
      · simp only [dlookup, hp, if_false, Option.isSome] at h
        simp [dlookup, hp, List.map_cons]
        exact ih h
  · rw [dlookup_append]
    have : dlookup k d = none := by
      cases hd : dlookup k d
      · rfl
      · rw [hd] at h; simp at h
    simp [this, dlookup, Option.or]

theorem dlookup_map_update_ne {α β : Type} [DecidableEq α]
    (d : List (α × β)) (k : α) (v : β) (k' : α) (h : k' ≠ k) :
    dlookup k' (d.map (fun p => if p.1 = k then (k, v) else p)) =
      dlookup k' d := by
  induction d with
  | nil => rfl
  | cons p d ih =>
    by_cases hpk : p.1 = k
    · have h1 : ¬ (k = k') := fun hh => h hh.symm
      have h2 : ¬ (p.1 = k') := by
        intro hh
        apply h
        rw [← hh]
        exact hpk
      simp only [List.map_cons, if_pos hpk, dlookup, if_neg h1, if_neg h2]
      exact ih
    · simp only [List.map_cons, if_neg hpk, dlookup]
      by_cases hp' : p.1 = k'
      · simp [hp']
      · simp only [if_neg hp']
        exact ih

theorem dlookup_dinsert_ne {α β : Type} [DecidableEq α]
    (d : List (α × β)) (k : α) (v : β) (k' : α) (h : k' ≠ k) :
    dlookup k' (dinsert d k v) = dlookup k' d := by
  unfold dinsert
  split_ifs with hp
  · exact dlookup_map_update_ne d k v k' h
  · rw [dlookup_append]
    have hkk : ¬ (k = k') := fun hh => h hh.symm
    have hone : dlookup k' [(k, v)] = none := by
      simp [dlookup, hkk]
    rw [hone]
    cases dlookup k' d <;> rfl

theorem dlookup_dremove_self {α β : Type} [DecidableEq α]
    (k : α) (d : List (α × β)) :
    dlookup k (dremove k d) = none := by
  induction d with
  | nil => rfl
  | cons p d ih =>
    by_cases hp : p.1 = k
    · simpa [dremove, List.filter_cons, hp] using ih
    · simpa [dremove, List.filter_cons, hp, dlookup] using ih

theorem dlookup_dremove_ne {α β : Type} [DecidableEq α]
    (k : α) (d : List (α × β)) (k' : α) (h : k' ≠ k) :
    dlookup k' (dremove k d) = dlookup k' d := by
  induction d with
  | nil => rfl
  | cons p d ih =>
    have hkk' : ¬ (k = k') := fun hh => h hh.symm
    by_cases hp : p.1 = k
    · have hpk' : ¬ (p.1 = k') := by
        intro hh
        apply h
        rw [← hh]
        exact hp
      simpa [dremove, List.filter_cons, hp, dlookup, hpk', hkk'] using ih
    · by_cases hp' : p.1 = k'
      · simp [dremove, List.filter_cons, hp, dlookup, hp', h]
      · simpa [dremove, List.filter_cons, hp, dlookup, hp'] using ih

/-! ## Decimal digit lemmas -/

theorem digitChar_isDigit (n : Nat) : (digitChar n).isDigit = true := by
  unfold digitChar
  split <;> decide

theorem digitChar_toNat (n : Nat) (h : n < 10) :
    (digitChar n).toNat - 48 = n := by
  interval_cases n <;> decide

theorem digitsToNat_append_one (a : List Char) (c : Char) :
    digitsToNat (a ++ [c]) = 10 * digitsToNat a + (c.toNat - 48) := by
  unfold digitsToNat
  rw [List.foldl_append]
  rfl

theorem digitsToNat_natDigits (n : Nat) : digitsToNat (natDigits n) = n := by
  suffices h : ∀ fuel n, n < fuel → digitsToNat (natDigitsF fuel n) = n from
    h (n + 1) n (by omega)
  intro fuel
  induction fuel with
  | zero => omega
  | succ f ih =>
    intro n hn
    rw [natDigitsF]
    split_ifs with h
    · show digitsToNat ([] ++ [digitChar n]) = n
      rw [digitsToNat_append_one, digitChar_toNat n h]
      simp [digitsToNat]
    · have hdiv : n / 10 < f := by
        have h0 : 0 < n := by omega
        have := Nat.div_lt_self h0 (by omega : 1 < 10)
        omega
      rw [digitsToNat_append_one, ih (n / 10) hdiv,
        digitChar_toNat (n % 10) (Nat.mod_lt n (by omega))]
      omega

theorem natDigits_isDigit (n : Nat) : ∀ c ∈ natDigits n, c.isDigit = true := by
  suffices h : ∀ fuel n, n < fuel →
      ∀ c ∈ natDigitsF fuel n, c.isDigit = true from
    h (n + 1) n (by omega)
  intro fuel
  induction fuel with
  | zero => omega
  | succ f ih =>
    intro n hn
    rw [natDigitsF]
    split_ifs with h
    · intro c hc
      simp only [List.mem_singleton] at hc
      exact hc ▸ digitChar_isDigit n
    · intro c hc
      rw [List.mem_append, List.mem_singleton] at hc
      rcases hc with hc | hc
      · have hdiv : n / 10 < f := by
          have h0 : 0 < n := by omega
          have := Nat.div_lt_self h0 (by omega : 1 < 10)
          omega
        exact ih (n / 10) hdiv c hc
      · exact hc ▸ digitChar_isDigit (n % 10)

theorem isDigit_ne_F {c : Char} (h : c.isDigit = true) : c ≠ 'F' := by
  intro hc
  rw [hc] at h
  exact absurd h (by decide)

theorem data_append (s t : String) : (s ++ t).data = s.data ++ t.data := by
  cases s; cases t; rfl

/-- Numeric value of a generated id: `idNum (str(n) + "F") = n`. -/
theorem idNum_natStr_F (n : Nat) : idNum (natStr n ++ "F") = n := by
  unfold idNum
  rw [data_append]
  have h1 : (natStr n).data = natDigits n := rfl
  have h2 : ("F" : String).data = ['F'] := rfl
  rw [h1, h2, List.filter_append]
  have h3 : (natDigits n).filter (fun c => decide (c ≠ 'F')) = natDigits n := by
    apply List.filter_eq_self.2
    intro c hc
    simpa using isDigit_ne_F (natDigits_isDigit n c hc)
  have h4 : (['F'] : List Char).filter (fun c => decide (c ≠ 'F')) = [] := by
    decide
  rw [h3, h4, List.append_nil]
  exact digitsToNat_natDigits n

theorem le_foldl_max (l : List Nat) (a : Nat) :
    (a ≤ l.foldl max a) ∧ ∀ x ∈ l, x ≤ l.foldl max a := by
  induction l generalizing a with
  | nil => simp
  | cons b t ih =>
    refine ⟨?_, ?_⟩
    · have := (ih (max a b)).1
      calc a ≤ max a b := Nat.le_max_left a b
        _ ≤ _ := this
    · intro x hx
      rw [List.mem_cons] at hx
      rcases hx with rfl | hx
      · calc x ≤ max a x := Nat.le_max_right a x
          _ ≤ _ := (ih (max a x)).1
      · exact (ih (max a b)).2 x hx

/-- Claim C4: for every model and every present file index `i`,
`deleteFile(i)` removes `i` from the file collection, returns true, and
removes `i` from each function's `files_involved` exactly once per
function when present: a single occurrence drops to zero, a double
occurrence drops to exactly one (Python `list.remove` removes only the
first occurrence). -/
theorem C4_delete_file (m : TaskFlowState) (i : Int) (pf : ProjectFile)
    (hpf : dlookup i m.files = some pf) : deleteFileSpec m i := by
  have hcond : (dlookup i m.files).isSome = true := by rw [hpf]; rfl
  unfold deleteFileSpec delete_file
  rw [if_pos hcond]
  refine ⟨rfl, dlookup_dremove_self i m.files, ?_⟩
  intro k f hmem
  refine ⟨_, List.mem_map_of_mem _ hmem, ?_, ?_⟩
  · intro h1
    have hin : i ∈ f.files_involved := by
      rw [← List.count_pos_iff]
      omega
    simp only [if_pos hin]
    rw [List.count_erase_self, h1]
  · intro h2
    have hin : i ∈ f.files_involved := by
      rw [← List.count_pos_iff]
      omega
    simp only [if_pos hin]
    rw [List.count_erase_self, h2]

/-- Claim C4, witness: a concrete model with file 5 and two functions, one
holding `[5]`, the other `[5, 5]`. -/
theorem C4_delete_file_witness :
    dlookup (5 : Int)
      (TaskFlowState.mk "" "" "" [((5 : Int), ⟨5, "a.js", ""⟩)]
        [("1F", ⟨"1F", "f", "d", "x", [5]⟩),
         ("2F", ⟨"2F", "g", "d", "x", [5, 5]⟩)] "").files =
      some ⟨5, "a.js", ""⟩ ∧
    deleteFileSpec
      (TaskFlowState.mk "" "" "" [((5 : Int), ⟨5, "a.js", ""⟩)]
        [("1F", ⟨"1F", "f", "d", "x", [5]⟩),
         ("2F", ⟨"2F", "g", "d", "x", [5, 5]⟩)] "") 5 :=
  ⟨rfl, C4_delete_file _ 5 _ rfl⟩

/-- Claim C6 (amended): for a model containing `fid`, a supplied
`files_involved` — including the empty list — wholly replaces the stored
list, while a supplied `name`/`description`/`implementation` replaces the
stored string only when non-empty (a supplied empty string is treated
like an omitted argument); omitted fields keep their prior values, the
call returns true, and nothing else in the model changes.  In particular
`editFunction("1F", name="RENAMED")` changes only the name. -/
theorem C6_edit_function (m : TaskFlowState) (fid : String) (f : Function)
    (hf : dlookup fid m.functions = some f)
    (name description implementation : Option String)
    (refs : Option (List Int)) :
    editFunctionSpec m fid f name description implementation refs := by
  unfold editFunctionSpec edit_function
  rw [hf]
  refine ⟨rfl, ?_, ?_, rfl, rfl⟩
  · rw [dlookup_dinsert_self]
    rfl
  · intro k hk
    exact dlookup_dinsert_ne m.functions fid _ k hk

/-- Claim C6, witness: the spec's own scenario — files 1 and 2, function
`1F` with `files_involved = [1, 2]`, renamed via
`editFunction("1F", name="RENAMED")`; description, implementation and
file references keep their values and the call returns true. -/
theorem C6_edit_function_witness :
    dlookup "1F"
      (TaskFlowState.mk "" "" ""
        [((1 : Int), ⟨1, "a.js", ""⟩), ((2 : Int), ⟨2, "b.js", ""⟩)]
        [("1F", ⟨"1F", "f", "d", "x", [1, 2]⟩)] "").functions =
      some ⟨"1F", "f", "d", "x", [1, 2]⟩ ∧
    editFunctionSpec
      (TaskFlowState.mk "" "" ""
        [((1 : Int), ⟨1, "a.js", ""⟩), ((2 : Int), ⟨2, "b.js", ""⟩)]
        [("1F", ⟨"1F", "f", "d", "x", [1, 2]⟩)] "")
      "1F" ⟨"1F", "f", "d", "x", [1, 2]⟩ (some "RENAMED") none none none :=
  ⟨rfl,
   C6_edit_function
     (TaskFlowState.mk "" "" ""
       [((1 : Int), ⟨1, "a.js", ""⟩), ((2 : Int), ⟨2, "b.js", ""⟩)]
       [("1F", ⟨"1F", "f", "d", "x", [1, 2]⟩)] "")
     "1F" ⟨"1F", "f", "d", "x", [1, 2]⟩ rfl
     (some "RENAMED") none none none⟩

/-- Claim C6, counterexample: the claim says a supplied *empty string*
wholly replaces the field.  On a function named `"old"`,
`editFunction("1F", name="")` returns true but leaves the name `"old"`
(the Python truthiness test `if name:` skips the assignment), so the
supplied empty string does not replace the value. -/
theorem C6_counterexample :
    (dlookup "1F"
      ((edit_function
        (TaskFlowState.mk "" "" "" []
          [("1F", ⟨"1F", "old", "d", "x", []⟩)] "")
        "1F" (some "") none none none).1.functions)).map Function.name =
      some "old" ∧ ("old" : String) ≠ "" := by
  constructor
  · rfl
  · decide

/-- Claim C7: `addFunction` inserts a new function under the id
`str(max(existing numeric ids, default 0) + 1) + "F"` and returns that
id; the id is numerically strictly greater than every pre-existing id,
never collides, and equals `"1F"` on an empty function collection. -/
theorem C7_add_function (m : TaskFlowState)
    (name description implementation : String) (refs : List Int) :
    addFunctionSpec m name description implementation refs := by
  unfold addFunctionSpec add_function
  cases hm : m.functions with
  | nil =>
    refine ⟨fun _ => rfl, ?_, ?_, ?_⟩
    · intro k hk
      simp at hk
    · simp
    · rw [dlookup_dinsert_self]
  | cons e tl =>
    have hne : ((e :: tl).map (fun kv => idNum kv.1)).isEmpty = false := by
      simp
    simp only [hne, Bool.false_eq_true, if_false]
    have hkey : ∀ k ∈ (e :: tl).map Prod.fst,
        idNum k <
          idNum (natStr (((e :: tl).map
            (fun kv => idNum kv.1)).foldl max 0 + 1) ++ "F") := by
      intro k hk
      rw [idNum_natStr_F]
      rcases List.mem_map.1 hk with ⟨kv, hkv, rfl⟩
      have hmem : idNum kv.1 ∈ (e :: tl).map (fun kv => idNum kv.1) :=
        List.mem_map_of_mem _ hkv
      have := (le_foldl_max ((e :: tl).map (fun kv => idNum kv.1)) 0).2 _ hmem
      omega
    refine ⟨?_, hkey, ?_, ?_⟩
    · intro h
      exact absurd h (by simp)
    · intro hmem
      exact absurd rfl (Nat.ne_of_lt (hkey _ hmem))
    · rw [dlookup_dinsert_self]

/-- Claim C7, witness: on a model with functions `3F` and `07F` the fresh
id is `"8F"`, strictly above both numerically and distinct from both; on
the empty model the conclusion includes the `"1F"` case. -/
theorem C7_add_function_witness :
    addFunctionSpec
      (TaskFlowState.mk "" "" "" []
        [("3F", ⟨"3F", "f", "d", "x", []⟩),
         ("07F", ⟨"07F", "g", "d", "x", []⟩)] "")
      "h" "dd" "xx" [2] ∧
    addFunctionSpec (TaskFlowState.mk "" "" "" [] [] "") "h" "dd" "xx" [] :=
  ⟨C7_add_function _ "h" "dd" "xx" [2], C7_add_function _ "h" "dd" "xx" []⟩

/-! ## Claim C8: the validator -/

theorem length_filterMap_guard {α β : Type} (l : List α) (p : α → Prop)
    [DecidablePred p] (g : α → β) :
    (l.filterMap (fun x => if p x then some (g x) else none)).length =
      l.countP (fun x => decide (p x)) := by
  induction l with
  | nil => rfl
  | cons a t ih =>
    by_cases h : p a
    · simp [List.filterMap_cons, h, List.countP_cons, ih]
    · simp [List.filterMap_cons, h, List.countP_cons, ih]

/-- Claim C8 (amended): `validate_project` collects, without mutating the
model and without short-circuiting, one issue per *occurrence* of a
`files_involved` entry with no matching file index (not one per distinct
(function, index) pair), plus a single issue when any file path is
duplicated; overall pass/fail is emptiness of the issue list, and a
function referencing the non-existent index 99 yields an issue mentioning
99 and that function's id. -/
theorem C8_validate (m : TaskFlowState) : validateSpec m := by
  refine ⟨?_, ?_, ?_⟩
  · unfold validate_issues
    rw [List.length_append]
    have hflat : ∀ (fs : List (String × Function)),
        (fs.flatMap (fun kv =>
          kv.2.files_involved.filterMap (fun file_idx =>
            if (dlookup file_idx m.files).isSome then none
            else some ("Function " ++ kv.2.id ++
              " references non-existent File " ++ intStr file_idx)))).length =
        (fs.map (fun kv =>
          kv.2.files_involved.countP
            (fun i => decide ((dlookup i m.files).isSome = false)))).sum := by
      intro fs
      induction fs with
      | nil => rfl
      | cons kv t ih =>
        rw [List.flatMap_cons, List.length_append, ih, List.map_cons,
          List.sum_cons]
        congr 1
        have := length_filterMap_guard kv.2.files_involved
          (fun i => ¬ (dlookup i m.files).isSome = true)
          (fun file_idx => "Function " ++ kv.2.id ++
            " references non-existent File " ++ intStr file_idx)
        rw [show (fun file_idx => if (dlookup file_idx m.files).isSome then
              none else some ("Function " ++ kv.2.id ++
              " references non-existent File " ++ intStr file_idx)) =
            (fun x => if ¬ (dlookup x m.files).isSome = true then
              some ("Function " ++ kv.2.id ++
              " references non-existent File " ++ intStr x) else none) from ?_,
          this]
        · apply List.countP_congr
          intro x _
          by_cases hx : (dlookup x m.files).isSome = true <;> simp [hx]
        · funext x
          by_cases hx : (dlookup x m.files).isSome = true <;> simp [hx]
    rw [hflat]
    congr 1
    by_cases hd : ((m.files.map (fun kv => kv.2.path)).filter
        (fun path => (m.files.map (fun kv => kv.2.path)).count path > 1)).isEmpty
    · simp [hd]
    · simp [hd]
  · unfold validate_project
    exact List.isEmpty_iff
  · intro k f hmem h99 hnone
    unfold validate_issues
    rw [List.mem_append]
    left
    rw [List.mem_flatMap]
    refine ⟨(k, f), hmem, ?_⟩
    rw [List.mem_filterMap]
    refine ⟨99, h99, ?_⟩
    rw [hnone]
    rfl

/-- Claim C8, witness: a model whose single function references the
missing index 99 twice; the count equation, the pass/fail equivalence and
the 99-message membership are all instances of the theorem. -/
theorem C8_validate_witness :
    validateSpec
      (TaskFlowState.mk "" "" "" []
        [("1F", ⟨"1F", "f", "d", "x", [99, 99]⟩)] "") :=
  C8_validate _

/-- Claim C8, counterexample: the claim demands exactly one issue per
(function, index) *pair*.  A function whose `files_involved` is `[99, 99]`
gives rise to the single pair `("1F", 99)`, yet the code emits one issue
per occurrence, producing the same message twice. -/
theorem C8_counterexample :
    validate_issues
      (TaskFlowState.mk "" "" "" []
        [("1F", ⟨"1F", "f", "d", "x", [99, 99]⟩)] "") =
      ["Function 1F references non-existent File 99",
       "Function 1F references non-existent File 99"] := by
  rfl

/-! ## Claim C5: `reorder_files` -/

theorem insertByKey_perm {α : Type} (key : α → Int) (a : α) (l : List α) :
    (insertByKey key a l).Perm (a :: l) := by
  induction l with
  | nil => exact List.Perm.refl _
  | cons b bs ih =>
    unfold insertByKey
    split_ifs with h
    · exact (List.Perm.cons b ih).trans (List.Perm.swap a b bs)
    · exact List.Perm.refl _

theorem foldl_insertByKey_perm {α : Type} (key : α → Int) :
    ∀ (l acc : List α),
      (l.foldl (fun acc a => insertByKey key a acc) acc).Perm (l ++ acc) := by
  intro l
  induction l with
  | nil => intro acc; simp
  | cons x xs ih =>
    intro acc
    have h1 := ih (insertByKey key x acc)
    have h2 : (xs ++ insertByKey key x acc).Perm (xs ++ x :: acc) :=
      List.Perm.append_left xs (insertByKey_perm key x acc)
    have h3 : (xs ++ x :: acc).Perm (x :: (xs ++ acc)) := List.perm_middle
    exact (h1.trans h2).trans h3

theorem sortByKey_perm {α : Type} (key : α → Int) (l : List α) :
    (sortByKey key l).Perm l := by
  have h := foldl_insertByKey_perm key l []
  rw [List.append_nil] at h
  exact h

theorem insertByKey_sorted {α : Type} (key : α → Int) (a : α) (l : List α)
    (h : l.Pairwise (fun x y => key x ≤ key y)) :
    (insertByKey key a l).Pairwise (fun x y => key x ≤ key y) := by
  induction l with
  | nil => simp [insertByKey]
  | cons b bs ih =>
    rw [List.pairwise_cons] at h
    obtain ⟨hb, hbs⟩ := h
    unfold insertByKey
    split_ifs with hba
    · rw [List.pairwise_cons]
      refine ⟨?_, ih hbs⟩
      intro x hx
      have hx' := (insertByKey_perm key a bs).mem_iff.1 hx
      rw [List.mem_cons] at hx'
      rcases hx' with rfl | hx'
      · exact hba
      · exact hb x hx'
    · rw [List.pairwise_cons]
      refine ⟨?_, List.pairwise_cons.2 ⟨hb, hbs⟩⟩
      intro x hx
      have hab : key a ≤ key b := le_of_not_le hba
      rw [List.mem_cons] at hx
      rcases hx with rfl | hx
      · exact hab
      · exact le_trans hab (hb x hx)

theorem sortByKey_sorted {α : Type} (key : α → Int) (l : List α) :
    (sortByKey key l).Pairwise (fun x y => key x ≤ key y) := by
  suffices h : ∀ (l acc : List α),
      acc.Pairwise (fun x y => key x ≤ key y) →
      (l.foldl (fun acc a => insertByKey key a acc) acc).Pairwise
        (fun x y => key x ≤ key y) from h l [] (by simp)
  intro l
  induction l with
  | nil => intro acc hacc; exact hacc
  | cons x xs ih =>
    intro acc hacc
    exact ih (insertByKey key x acc) (insertByKey_sorted key x acc hacc)

theorem dlookup_eq_none_of_not_mem {α β : Type} [DecidableEq α] (k : α)
    (d : List (α × β)) (h : k ∉ d.map Prod.fst) : dlookup k d = none := by
  induction d with
  | nil => rfl
  | cons p t ih =>
    rw [List.map_cons, List.mem_cons] at h
    push_neg at h
    rw [dlookup, if_neg (fun hh => h.1 hh.symm)]
    exact ih h.2

/-- Claim C5: `reorderFiles()` renumbers the file collection to the dense
key sequence `1..N` following the current ascending order of old indices,
rewrites every function's `files_involved` through the old-to-new table,
and leaves dangling entries (absent from the table) unchanged. -/
theorem C5_reorder_files (m : TaskFlowState) : reorderSpec m := by
  have hperm := sortByKey_perm (fun kv : Int × ProjectFile => kv.1) m.files
  have hlen : (sortByKey (fun kv : Int × ProjectFile => kv.1) m.files).length =
      m.files.length := hperm.length_eq
  refine ⟨?_, ?_, ?_, rfl, ?_⟩
  · show (((List.range' 1 (sortByKey (fun kv => kv.1) m.files).length).zip
        (sortByKey (fun kv => kv.1) m.files)).map
        (fun q => ((q.1 : Int), { q.2.2 with index := (q.1 : Int) }))).map
        Prod.fst = _
    rw [List.map_map]
    have hcomp : (Prod.fst ∘ fun q : Nat × (Int × ProjectFile) =>
        ((q.1 : Int), { q.2.2 with index := (q.1 : Int) })) =
        Int.ofNat ∘ (Prod.fst : Nat × (Int × ProjectFile) → Nat) := rfl
    rw [hcomp, ← List.map_map, List.map_fst_zip _ _ (by rw [List.length_range']),
      hlen]
  · have := sortByKey_sorted (fun kv : Int × ProjectFile => kv.1) m.files
    exact List.Pairwise.map Prod.fst (fun a b h => h) this
  · exact hperm.map Prod.fst
  · intro idx hidx
    rw [dlookup_eq_none_of_not_mem]
    · rfl
    · intro hmem
      apply hidx
      unfold indexMappingOf at hmem
      rw [List.map_map] at hmem
      rcases List.mem_map.1 hmem with ⟨q, hq, rfl⟩
      have hq2 := (List.of_mem_zip hq).2
      exact (hperm.map Prod.fst).subset (List.mem_map_of_mem Prod.fst hq2)

/-- Claim C5, witness: a model with gappy indices `{2, 7}` (7 listed
first) and a function referencing `[7, 99, 2]`, where 99 is dangling. -/
theorem C5_reorder_files_witness :
    reorderSpec
      (TaskFlowState.mk "" "" ""
        [((7 : Int), ⟨7, "b.js", ""⟩), ((2 : Int), ⟨2, "a.js", ""⟩)]
        [("1F", ⟨"1F", "f", "d", "x", [7, 99, 2]⟩)] "") :=
  C5_reorder_files _

/-! ## Splitting lemmas for the regex-guarded conversions -/

theorem splitOnce_append_not_mem (c : Char) (u v : List Char) (h : c ∉ u) :
    splitOnce c (u ++ c :: v) = some (u, v) := by
  induction u with
  | nil => simp [splitOnce]
  | cons a as ih =>
    rw [List.mem_cons] at h
    push_neg at h
    rw [List.cons_append, splitOnce, if_neg (fun hh => h.1 hh.symm),
      ih h.2]
    rfl

theorem splitOnce_isSome_of_mem (c : Char) (l : List Char) (h : c ∈ l) :
    ∃ bef aft, splitOnce c l = some (bef, aft) := by
  induction l with
  | nil => simp at h
  | cons a as ih =>
    by_cases hac : a = c
    · exact ⟨[], as, by rw [splitOnce, if_pos hac]⟩
    · rw [List.mem_cons] at h
      rcases h with h | h
      · exact absurd h.symm hac
      · rcases ih h with ⟨bef, aft, hba⟩
        exact ⟨a :: bef, aft, by rw [splitOnce, if_neg hac, hba]; rfl⟩

theorem mem_takeWhile_digit {l : List Char} {c : Char}
    (h : c ∈ l.takeWhile Char.isDigit) : c.isDigit = true :=
  List.mem_takeWhile_imp h

/-- A line matching `^\d+\.` decomposes as digits, the dot, and a rest;
`split('.', 1)` recovers exactly the digit block. -/
theorem matchNumDot_parts {l : List Char} (h : matchNumDot l = true) :
    l.takeWhile Char.isDigit ≠ [] ∧
    (∀ c ∈ l.takeWhile Char.isDigit, c.isDigit = true) ∧
    splitOnce '.' l =
      some (l.takeWhile Char.isDigit, (l.dropWhile Char.isDigit).tail) := by
  unfold matchNumDot at h
  rw [Bool.and_eq_true] at h
  obtain ⟨h1, h2⟩ := h
  have hne : l.takeWhile Char.isDigit ≠ [] := by
    intro hh
    rw [hh] at h1
    simp at h1
  refine ⟨hne, fun c hc => mem_takeWhile_digit hc, ?_⟩
  have hsplit := (List.takeWhile_append_dropWhile
    (p := Char.isDigit) (l := l)).symm
  rcases hdw : l.dropWhile Char.isDigit with _ | ⟨d, rest⟩
  · rw [hdw] at h2
    simp at h2
  · rw [hdw] at h2
    simp only [List.head?_cons, beq_iff_eq, Option.some.injEq] at h2
    subst h2
    have hnotdot : '.' ∉ l.takeWhile Char.isDigit := by
      intro hmem
      have := mem_takeWhile_digit hmem
      exact absurd this (by decide)
    conv in splitOnce '.' l => rw [hsplit, hdw]
    rw [splitOnce_append_not_mem '.' _ rest hnotdot]
    rfl

/-- A line matching `^\d+F\.` decomposes as digits, `F`, the dot, and a
rest; `split('.', 1)` recovers the digits-plus-`F` block. -/
theorem matchFDot_parts {l : List Char} (h : matchFDot l = true) :
    l.takeWhile Char.isDigit ≠ [] ∧
    (∀ c ∈ l.takeWhile Char.isDigit, c.isDigit = true) ∧
    ∃ rest, l.dropWhile Char.isDigit = 'F' :: '.' :: rest ∧
      splitOnce '.' l =
        some (l.takeWhile Char.isDigit ++ ['F'], rest) := by
  unfold matchFDot at h
  rw [Bool.and_eq_true, Bool.and_eq_true] at h
  obtain ⟨⟨h1, h2⟩, h3⟩ := h
  have hne : l.takeWhile Char.isDigit ≠ [] := by
    intro hh
    rw [hh] at h1
    simp at h1
  refine ⟨hne, fun c hc => mem_takeWhile_digit hc, ?_⟩
  rcases hdw : l.dropWhile Char.isDigit with _ | ⟨d, rest0⟩
  · rw [hdw] at h2
    simp at h2
  · rw [hdw] at h2
    simp only [List.head?_cons, beq_iff_eq, Option.some.injEq] at h2
    subst h2
    rcases rest0 with _ | ⟨e, rest⟩
    · rw [hdw] at h3
      simp at h3
    · rw [hdw] at h3
      simp only [List.tail_cons, List.head?_cons, beq_iff_eq,
        Option.some.injEq] at h3
      subst h3
      refine ⟨rest, rfl, ?_⟩
      have hsplit := (List.takeWhile_append_dropWhile
        (p := Char.isDigit) (l := l)).symm
      have hnotdot : '.' ∉ l.takeWhile Char.isDigit ++ ['F'] := by
        intro hmem
        rw [List.mem_append] at hmem
        rcases hmem with hmem | hmem
        · exact absurd (mem_takeWhile_digit hmem) (by decide)
        · simp at hmem
      conv in splitOnce '.' l => rw [hsplit, hdw]
      rw [show l.takeWhile Char.isDigit ++ 'F' :: '.' :: rest =
          (l.takeWhile Char.isDigit ++ ['F']) ++ '.' :: rest by
        rw [List.append_assoc]; rfl]
      rw [splitOnce_append_not_mem '.' _ rest hnotdot]

/-! ## Claim C9: the parser never raises and drops junk lines -/

theorem colon_mem_of_header {pre line : String}
    (hpre : (':' : Char) ∈ pre.data) (h : sStarts pre line = true) :
    (':' : Char) ∈ line.data := by
  rcases sStarts_iff.1 h with ⟨t, ht⟩
  rw [ht]
  exact List.mem_append_left t hpre

/-- The fallible scanner step always succeeds and agrees with the total
one: every `int()` conversion is guarded by a digit-matching regex and
every `split(x, 1)[1]` by a `startswith`/regex check. -/
theorem stepLineOCore_eq (p : PState) (line : String) :
    stepLineOCore p line = some (stepLineCore p line) := by
  by_cases h1 : sStarts "Project:" line = true
  · rcases splitOnce_isSome_of_mem ':' line.data
      (colon_mem_of_header (by decide) h1) with ⟨bef, aft, hs⟩
    rw [stepLineCore_header_P p line h1]
    unfold stepLineOCore
    rw [if_pos h1, hs]
    unfold afterColon
    rw [hs]
  by_cases h2 : sStarts "Description:" line = true
  · rcases splitOnce_isSome_of_mem ':' line.data
      (colon_mem_of_header (by decide) h2) with ⟨bef, aft, hs⟩
    rw [stepLineCore_header_D p line h1 h2]
    unfold stepLineOCore
    rw [if_neg h1, if_pos h2, hs]
    unfold afterColon
    rw [hs]
  by_cases h3 : sStarts "technology:" line = true
  · rcases splitOnce_isSome_of_mem ':' line.data
      (colon_mem_of_header (by decide) h3) with ⟨bef, aft, hs⟩
    rw [stepLineCore_header_T p line h1 h2 h3]
    unfold stepLineOCore
    rw [if_neg h1, if_neg h2, if_pos h3, hs]
    unfold afterColon
    rw [hs]
  by_cases h4 : line = "PROJECT FILES INDEX:"
  · rw [stepLineCore_filesTrigger p line h1 h2 h3 h4]
    unfold stepLineOCore
    rw [if_neg h1, if_neg h2, if_neg h3, if_pos h4]
  by_cases h5 : p.current_section = some Sect.files ∧ line ≠ "" ∧
      ¬ sStarts "All functions:" line = true
  · by_cases hm : matchNumDot line.data = true
    · obtain ⟨hne, hdig, hs⟩ := matchNumDot_parts hm
      rw [stepLineCore_fileEntry p line _ _ h1 h2 h3 h4 h5 hm hs]
      unfold stepLineOCore
      rw [if_neg h1, if_neg h2, if_neg h3, if_neg h4, if_pos h5, if_pos hm, hs]
      dsimp only
      unfold pyIntDigits
      rw [if_pos ⟨hne, hdig⟩]
    · rw [stepLineCore_fileSkip p line h1 h2 h3 h4 h5 hm]
      unfold stepLineOCore
      rw [if_neg h1, if_neg h2, if_neg h3, if_neg h4, if_pos h5, if_neg hm]
  by_cases h6 : line = "All functions:"
  · rw [stepLineCore_funcTrigger p line h1 h2 h3 h4 h5 h6]
    unfold stepLineOCore
    rw [if_neg h1, if_neg h2, if_neg h3, if_neg h4, if_neg h5, if_pos h6]
  by_cases h7 : p.current_section = some Sect.functions ∧
      matchFDot line.data = true
  · obtain ⟨_, _, rest, _, hs⟩ := matchFDot_parts h7.2
    rw [stepLineCore_funcHeader p line _ _ h1 h2 h3 h4 h5 h6 h7 hs]
    unfold stepLineOCore
    rw [if_neg h1, if_neg h2, if_neg h3, if_neg h4, if_neg h5, if_neg h6,
      if_pos h7, hs]
  by_cases h8 : p.current_function.isSome = true ∧ line ≠ "" ∧
      ¬ matchFDot line.data = true
  · obtain ⟨hsome, hne, hnf⟩ := h8
    cases hc : p.current_function with
    | none => rw [hc] at hsome; simp at hsome
    | some c =>
      have h8' : p.current_function.isSome = true ∧ line ≠ "" ∧
          ¬ matchFDot line.data = true := ⟨by rw [hc]; rfl, hne, hnf⟩
      by_cases hd : c.description = "" ∧ ¬ sStarts "Implementation:" line = true
      · rw [stepLineCore_descLine p line c h1 h2 h3 h4 h5 h6 h7 hc hne hnf hd]
        unfold stepLineOCore
        rw [if_neg h1, if_neg h2, if_neg h3, if_neg h4, if_neg h5, if_neg h6,
          if_neg h7, if_pos h8', hc]
        simp only [if_pos hd]
      by_cases hi : sStarts "Implementation:" line = true
      · rw [stepLineCore_implMark p line c h1 h2 h3 h4 h5 h6 h7 hc hne hnf hd hi]
        unfold stepLineOCore
        rw [if_neg h1, if_neg h2, if_neg h3, if_neg h4, if_neg h5, if_neg h6,
          if_neg h7, if_pos h8', hc]
        simp only [if_neg hd, if_pos hi]
      by_cases hf : sStarts "File " line = true
      · rw [stepLineCore_fileLine p line c h1 h2 h3 h4 h5 h6 h7 hc hne hnf
          hd hi hf]
        unfold stepLineOCore
        rw [if_neg h1, if_neg h2, if_neg h3, if_neg h4, if_neg h5, if_neg h6,
          if_neg h7, if_pos h8', hc]
        simp only [if_neg hd, if_neg hi, if_pos hf]
      · rw [stepLineCore_otherLine p line c h1 h2 h3 h4 h5 h6 h7 hc hne hnf
          hd hi hf]
        unfold stepLineOCore
        rw [if_neg h1, if_neg h2, if_neg h3, if_neg h4, if_neg h5, if_neg h6,
          if_neg h7, if_pos h8', hc]
        simp only [if_neg hd, if_neg hi, if_neg hf]
  by_cases h9 : sStarts "key projct configuration:" line = true
  · rw [stepLineCore_cfgTrigger p line h1 h2 h3 h4 h5 h6 h7 h8 h9]
    unfold stepLineOCore
    rw [if_neg h1, if_neg h2, if_neg h3, if_neg h4, if_neg h5, if_neg h6,
      if_neg h7, if_neg h8, if_pos h9]
  by_cases h10 : p.current_section = some Sect.config
  · rw [stepLineCore_cfgAppend p line h1 h2 h3 h4 h5 h6 h7 h8 h9 h10]
    unfold stepLineOCore
    rw [if_neg h1, if_neg h2, if_neg h3, if_neg h4, if_neg h5, if_neg h6,
      if_neg h7, if_neg h8, if_neg h9, if_pos h10]
  · rw [stepLineCore_skip p line h1 h2 h3 h4 h5 h6 h7 h8 h9 h10]
    unfold stepLineOCore
    rw [if_neg h1, if_neg h2, if_neg h3, if_neg h4, if_neg h5, if_neg h6,
      if_neg h7, if_neg h8, if_neg h9, if_neg h10]

theorem parseLinesO_eq (ls : List String) (p : PState) :
    parseLinesO p ls = some (parseLines p ls) := by
  induction ls generalizing p with
  | nil => rfl
  | cons raw t ih =>
    show (stepLineO p raw) >>= (fun s => parseLinesO s t) = _
    rw [stepLineO, stepLineOCore_eq]
    exact ih (stepLine p raw)

/-- Claim C9: for every input text, parsing terminates and returns a
model with no exception escaping (`parseContentO`, in which every
fallible `int()`/`split()[1]` is modelled in `Option`, always returns
`some`, agreeing with the total parser), and unexpected lines inside the
`FILES` and `FUNCTIONS` sections leave the parse state completely
unchanged. -/
theorem C9_parse_never_raises (text : String) :
    parseContentO text = some (parseContent text) ∧
    (∀ (p : PState) (raw : String), p.current_section = some Sect.files →
      filesUnexpected (strim raw) → stepLine p raw = p) ∧
    (∀ (p : PState) (raw : String), p.current_section = some Sect.functions →
      p.current_function = none →
      functionsUnexpected (strim raw) → stepLine p raw = p) := by
  refine ⟨?_, ?_, ?_⟩
  · unfold parseContentO parseContent
    rw [parseLinesO_eq]
    rfl
  · intro p raw hsec hun
    obtain ⟨hne, hn1, hn2, hn3, hn4, hn6, hnm⟩ := hun
    rw [stepLine]
    exact stepLineCore_fileSkip p (strim raw) hn1 hn2 hn3 hn4
      ⟨hsec, hne, hn6⟩ hnm
  · intro p raw hsec hcur hun
    obtain ⟨hn1, hn2, hn3, hn4, hn6, hnf, hn9⟩ := hun
    rw [stepLine]
    apply stepLineCore_skip p (strim raw) hn1 hn2 hn3 hn4
    · intro hc
      rw [hsec] at hc
      exact absurd hc.1 (by simp)
    · exact hn6
    · intro hc
      exact hnf hc.2
    · intro hc
      rw [hcur] at hc
      exact absurd hc.1 (by simp)
    · exact hn9
    · rw [hsec]
      simp

/-- Claim C9, witness: the no-exception equality at a concrete document,
and the two drop properties at concrete junk lines (a dashed separator in
the files section; a stray word before any function header). -/
theorem C9_parse_never_raises_witness :
    parseContentO "Project:P\nPROJECT FILES INDEX:\n1. a.js\nAll functions:\n1F. f\nd" =
      some (parseContent
        "Project:P\nPROJECT FILES INDEX:\n1. a.js\nAll functions:\n1F. f\nd") ∧
    stepLine
      { st := {}, current_section := some Sect.files,
        current_function := none } "--- junk ---" =
      { st := {}, current_section := some Sect.files,
        current_function := none } ∧
    stepLine
      { st := {}, current_section := some Sect.functions,
        current_function := none } "stray" =
      { st := {}, current_section := some Sect.functions,
        current_function := none } :=
  ⟨(C9_parse_never_raises
      "Project:P\nPROJECT FILES INDEX:\n1. a.js\nAll functions:\n1F. f\nd").1,
   (C9_parse_never_raises "").2.1 _ "--- junk ---" rfl
     (by unfold filesUnexpected; refine ⟨?_, ?_, ?_, ?_, ?_, ?_, ?_⟩ <;> decide),
   (C9_parse_never_raises "").2.2 _ "stray" rfl rfl
     (by unfold functionsUnexpected; refine ⟨?_, ?_, ?_, ?_, ?_, ?_, ?_⟩ <;> decide)⟩

/-! ## Trim and split/join lemmas -/

theorem dropWhile_head_not (p : Char → Bool) (l : List Char) (c : Char)
    (h : (l.dropWhile p).head? = some c) : p c = false := by
  induction l with
  | nil => simp [List.dropWhile] at h
  | cons a as ih =>
    by_cases hp : p a
    · rw [List.dropWhile_cons_of_pos hp] at h
      exact ih h
    · rw [List.dropWhile_cons_of_neg hp] at h
      simp only [List.head?_cons, Option.some.injEq] at h
      subst h
      exact Bool.eq_false_iff.2 hp

theorem dropWhile_eq_self_of_head (p : Char → Bool) (l : List Char)
    (h : ∀ c, l.head? = some c → p c = false) : l.dropWhile p = l := by
  cases l with
  | nil => rfl
  | cons a as =>
    rw [List.dropWhile_cons_of_neg]
    rw [h a rfl]
    simp

theorem dropWhile_idem (p : Char → Bool) (l : List Char) :
    (l.dropWhile p).dropWhile p = l.dropWhile p := by
  apply dropWhile_eq_self_of_head
  intro c hc
  exact dropWhile_head_not p l c hc

/-- The trimmed list is a prefix of the drop-leading-whitespace list, so
its head (when any) is the same non-whitespace head. -/
theorem dropTrail_prefix (p : Char → Bool) (l : List Char) :
    ((l.reverse.dropWhile p).reverse) <+: l := by
  have hsuff : l.reverse.dropWhile p <:+ l.reverse := List.dropWhile_suffix p
  rcases hsuff with ⟨t, ht⟩
  refine ⟨t.reverse, ?_⟩
  rw [← List.reverse_append, ht, List.reverse_reverse]

theorem trimChars_idem (l : List Char) :
    trimChars (trimChars l) = trimChars l := by
  unfold trimChars
  have step1 :
      ((((l.dropWhile Char.isWhitespace).reverse.dropWhile
        Char.isWhitespace).reverse).dropWhile Char.isWhitespace) =
      (((l.dropWhile Char.isWhitespace).reverse.dropWhile
        Char.isWhitespace).reverse) := by
    apply dropWhile_eq_self_of_head
    intro c hc
    have hpre := dropTrail_prefix Char.isWhitespace
      (l.dropWhile Char.isWhitespace)
    rcases hpre with ⟨t, ht⟩
    have hhead : (l.dropWhile Char.isWhitespace).head? = some c := by
      rw [← ht]
      cases hx : (((l.dropWhile Char.isWhitespace).reverse.dropWhile
          Char.isWhitespace).reverse) with
      | nil => rw [hx] at hc; simp at hc
      | cons b bs =>
        rw [hx] at hc
        simp only [List.head?_cons, Option.some.injEq] at hc
        subst hc
        rfl
    exact dropWhile_head_not Char.isWhitespace l c hhead
  rw [step1, List.reverse_reverse, dropWhile_idem]

theorem strim_idem (s : String) : strim (strim s) = strim s := by
  unfold strim
  rw [trimChars_idem]

theorem trimChars_subset (l : List Char) : ∀ c ∈ trimChars l, c ∈ l := by
  intro c hc
  unfold trimChars at hc
  rw [List.mem_reverse] at hc
  have h1 := (List.dropWhile_suffix Char.isWhitespace).subset hc
  rw [List.mem_reverse] at h1
  exact (List.dropWhile_suffix Char.isWhitespace).subset h1

theorem splitOnce_subset (c : Char) (l a b : List Char)
    (h : splitOnce c l = some (a, b)) :
    (∀ x ∈ a, x ∈ l) ∧ (∀ x ∈ b, x ∈ l) := by
  induction l generalizing a b with
  | nil => simp [splitOnce] at h
  | cons d ds ih =>
    rw [splitOnce] at h
    split_ifs at h with hd
    · simp only [Option.some.injEq, Prod.mk.injEq] at h
      obtain ⟨ha, hb⟩ := h
      subst ha
      subst hb
      constructor
      · intro x hx
        simp at hx
      · intro x hx
        exact List.mem_cons_of_mem d hx
    · cases hs : splitOnce c ds with
      | none => rw [hs] at h; simp at h
      | some q =>
        rw [hs] at h
        simp only [Option.map_some', Option.some.injEq, Prod.mk.injEq] at h
        obtain ⟨ha, hb⟩ := h
        obtain ⟨ih1, ih2⟩ := ih q.1 q.2 (by rw [hs])
        constructor
        · intro x hx
          rw [← ha] at hx
          rw [List.mem_cons] at hx
          rcases hx with rfl | hx
          · exact List.mem_cons_self x ds
          · exact List.mem_cons_of_mem d (ih1 x hx)
        · intro x hx
          rw [← hb] at hx
          exact List.mem_cons_of_mem d (ih2 x hx)

/-- Splitting at a separator yields pieces free of the separator. -/
theorem splitChar_no_sep (sep : Char) (l : List Char) :
    sep ∉ (splitCharAux sep l).1 ∧
    ∀ piece ∈ (splitCharAux sep l).2, sep ∉ piece := by
  induction l with
  | nil => simp [splitCharAux]
  | cons c cs ih =>
    rw [splitCharAux]
    split_ifs with hc
    · exact ⟨by simp, fun piece hp => by
        simp only [List.mem_cons] at hp
        rcases hp with rfl | hp
        · exact ih.1
        · exact ih.2 piece hp⟩
    · refine ⟨?_, ih.2⟩
      intro hmem
      simp only [List.mem_cons] at hmem
      rcases hmem with rfl | hmem
      · exact hc rfl
      · exact ih.1 hmem

theorem splitCharAux_no_sep_eq (sep : Char) (l : List Char) (h : sep ∉ l) :
    splitCharAux sep l = (l, []) := by
  induction l with
  | nil => rfl
  | cons c cs ih =>
    rw [List.mem_cons] at h
    push_neg at h
    rw [splitCharAux, if_neg (fun hh => h.1 hh.symm), ih h.2]

theorem splitCharAux_append (sep : Char) (u v : List Char) (h : sep ∉ u) :
    splitCharAux sep (u ++ sep :: v) =
      (u, (splitCharAux sep v).1 :: (splitCharAux sep v).2) := by
  induction u with
  | nil => simp [splitCharAux]
  | cons a as ih =>
    rw [List.mem_cons] at h
    push_neg at h
    rw [List.cons_append, splitCharAux, if_neg (fun hh => h.1 hh.symm),
      ih h.2]

/-- `split` undoes `join` when the pieces are separator-free. -/
theorem splitChar_joinChar (sep : Char) (xs : List (List Char))
    (hne : xs ≠ []) (hx : ∀ x ∈ xs, sep ∉ x) :
    splitChar sep (joinChar sep xs) = xs := by
  induction xs with
  | nil => exact absurd rfl hne
  | cons x rest ih =>
    cases rest with
    | nil =>
      show splitChar sep x = [x]
      unfold splitChar
      rw [splitCharAux_no_sep_eq sep x (hx x (List.mem_cons_self x []))]
    | cons y t =>
      show splitChar sep (x ++ sep :: joinChar sep (y :: t)) = x :: y :: t
      unfold splitChar
      rw [splitCharAux_append sep x _ (hx x (List.mem_cons_self x _))]
      dsimp only
      have := ih (by simp) (fun z hz => hx z (List.mem_cons_of_mem x hz))
      unfold splitChar at this
      rw [this]

theorem joinChar_ne_nil (sep : Char) (xs : List (List Char)) (hne : xs ≠ [])
    (hx : ∀ x ∈ xs, x ≠ []) : joinChar sep xs ≠ [] := by
  cases xs with
  | nil => exact absurd rfl hne
  | cons x rest =>
    cases rest with
    | nil => exact hx x (List.mem_cons_self x [])
    | cons y t =>
      show x ++ sep :: joinChar sep (y :: t) ≠ []
      intro h
      have := congrArg List.length h
      rw [List.length_append] at this
      simp at this

theorem ext_data {s t : String} (h : s.data = t.data) : s = t := by
  cases s
  cases t
  cases h
  rfl

theorem splitLines_joinNL (ls : List String) (hne : ls ≠ [])
    (hx : ∀ l ∈ ls, ('\n' : Char) ∉ l.data) :
    splitLines (joinNL ls) = ls := by
  unfold splitLines joinNL
  have hdata : (String.mk (joinChar '\n' (ls.map String.data))).data =
      joinChar '\n' (ls.map String.data) := rfl
  rw [hdata, splitChar_joinChar '\n' (ls.map String.data)
    (by simpa using hne)
    (by
      intro x hx'
      rcases List.mem_map.1 hx' with ⟨l, hl, rfl⟩
      exact hx l hl),
    List.map_map]
  have hid : ((fun l : List Char => (⟨l⟩ : String)) ∘ String.data) = id := by
    funext s
    exact ext_data rfl
  rw [hid, List.map_id]

/-! ### Facts feeding the invariant -/

theorem isDigit_not_ws {c : Char} (h : c.isDigit = true) :
    c.isWhitespace = false := by
  rcases hw : c.isWhitespace with _ | _
  · rfl
  · exfalso
    unfold Char.isWhitespace at hw
    simp only [Bool.or_eq_true, decide_eq_true_eq] at hw
    rcases hw with ((rfl | rfl) | rfl) | rfl <;> exact absurd h (by decide)

theorem trimChars_eq_self_of_no_ws (l : List Char)
    (h : ∀ c ∈ l, c.isWhitespace = false) : trimChars l = l := by
  unfold trimChars
  have h1 : l.dropWhile Char.isWhitespace = l := by
    apply dropWhile_eq_self_of_head
    intro c hc
    cases l with
    | nil => simp at hc
    | cons a as =>
      simp only [List.head?_cons, Option.some.injEq] at hc
      exact hc ▸ h a (List.mem_cons_self a as)
  rw [h1]
  have h2 : l.reverse.dropWhile Char.isWhitespace = l.reverse := by
    apply dropWhile_eq_self_of_head
    intro c hc
    cases hr : l.reverse with
    | nil => rw [hr] at hc; simp at hc
    | cons a as =>
      rw [hr] at hc
      simp only [List.head?_cons, Option.some.injEq] at hc
      refine hc ▸ h a ?_
      rw [← List.mem_reverse, hr]
      exact List.mem_cons_self a as
  rw [h2, List.reverse_reverse]

theorem lineWf_strim {raw : String} (h : ('\n' : Char) ∉ raw.data) :
    lineWf (strim raw) := by
  refine ⟨strim_idem raw, ?_⟩
  intro hmem
  exact h (trimChars_subset raw.data '\n' hmem)

theorem lineWf_empty : lineWf "" := ⟨rfl, by simp [String.data]⟩

theorem dinsert_forall {α β : Type} [DecidableEq α] (d : List (α × β))
    (k : α) (v : β) (P : α × β → Prop)
    (hd : ∀ e ∈ d, P e) (hkv : P (k, v)) :
    ∀ e ∈ dinsert d k v, P e := by
  unfold dinsert
  split_ifs with h
  · intro e he
    rcases List.mem_map.1 he with ⟨p, hp, rfl⟩
    by_cases hpk : p.1 = k
    · simpa [hpk] using hkv
    · simpa [hpk] using hd p hp
  · intro e he
    rw [List.mem_append] at he
    rcases he with he | he
    · exact hd e he
    · simp only [List.mem_singleton] at he
      exact he ▸ hkv

theorem dinsert_keys {α β : Type} [DecidableEq α] (d : List (α × β))
    (k : α) (v : β) :
    (dinsert d k v).map Prod.fst =
      if (dlookup k d).isSome then d.map Prod.fst
      else d.map Prod.fst ++ [k] := by
  unfold dinsert
  split_ifs with h
  · rw [List.map_map]
    apply List.map_congr_left
    intro p _
    by_cases hpk : p.1 = k
    · simp [hpk]
    · simp [hpk]
  · rw [List.map_append]
    rfl

theorem dlookup_isSome_iff_mem {α β : Type} [DecidableEq α] (k : α)
    (d : List (α × β)) :
    (dlookup k d).isSome = true ↔ k ∈ d.map Prod.fst := by
  induction d with
  | nil => simp [dlookup]
  | cons p t ih =>
    by_cases hp : p.1 = k
    · simp [dlookup, hp]
    · rw [dlookup, if_neg hp, List.map_cons, List.mem_cons, ih]
      constructor
      · exact Or.inr
      · rintro (h | h)
        · exact absurd h.symm hp
        · exact h

theorem dinsert_nodup_keys {α β : Type} [DecidableEq α] (d : List (α × β))
    (k : α) (v : β) (h : (d.map Prod.fst).Nodup) :
    ((dinsert d k v).map Prod.fst).Nodup := by
  rw [dinsert_keys]
  split_ifs with hk
  · exact h
  · rw [List.nodup_append]
    refine ⟨h, List.nodup_singleton k, ?_⟩
    intro a ha hb
    simp only [List.mem_singleton] at hb
    subst hb
    rw [← dlookup_isSome_iff_mem] at ha
    rw [ha] at hk
    exact hk rfl

/-- Committing a well-formed accumulator yields a well-formed function
whose stored blob splits back into exactly the accumulated lines. -/
theorem commit_wfFunction {c : CurFunc} (hc : wfCur c) :
    wfFunction ⟨c.id, c.name, c.description, joinNL c.implementation,
      c.files⟩ := by
  obtain ⟨hid, hname, hdesc, hsafe, himpl, hfiles, hde⟩ := hc
  have hlines : implLines ⟨c.id, c.name, c.description,
      joinNL c.implementation, c.files⟩ = c.implementation := by
    unfold implLines
    rcases hcl : c.implementation with _ | ⟨x, rest⟩
    · simp [joinNL, joinChar]
    · rw [if_neg, splitLines_joinNL]
      · simp
      · intro l hl
        exact ((himpl l (hcl ▸ hl)).2.1).2
      · intro hj
        have hj' : joinNL (x :: rest) = "" := hj
        exact joinChar_ne_nil '\n' ((x :: rest).map String.data) (by simp)
          (fun y hy => by
            rcases List.mem_map.1 hy with ⟨l, hl, rfl⟩
            have hne : l ≠ "" := (himpl l (hcl ▸ hl)).1
            intro hdata
            exact hne (ext_data hdata))
          (congrArg String.data hj')
  refine ⟨hid, hname, hdesc, hsafe, ?_, ?_, ?_, ?_⟩
  · rw [hlines]
    exact himpl
  · rw [hlines]
    exact hfiles
  · intro hne
    apply hde
    intro hcl
    apply hne
    show joinNL c.implementation = ""
    rw [hcl]
    rfl
  · rw [hlines]

theorem afterColon_wf {line : String} (h : ('\n' : Char) ∉ line.data) :
    lineWf (strim (afterColon line)) := by
  unfold afterColon
  cases hs : splitOnce ':' line.data with
  | none =>
    apply lineWf_strim
    simp [String.data]
  | some q =>
    apply lineWf_strim
    intro hmem
    exact h ((splitOnce_subset ':' line.data q.1 q.2 (by rw [hs])).2 '\n' hmem)

theorem sStarts_ne_empty {p s : String} (h : sStarts p s = true)
    (hp : p.data ≠ []) : s ≠ "" := by
  rcases sStarts_iff.1 h with ⟨t, ht⟩
  intro hs
  rw [hs] at ht
  have : ([] : List Char) = p.data ++ t := ht
  cases hd : p.data with
  | nil => exact hp hd
  | cons a as => rw [hd] at this; simp at this

theorem sStarts_head_eq {p s : String} {c : Char} (h : sStarts p s = true)
    (hp : p.data.head? = some c) : s.data.head? = some c := by
  rcases sStarts_iff.1 h with ⟨t, ht⟩
  rw [ht]
  cases hd : p.data with
  | nil => rw [hd] at hp; simp at hp
  | cons a as =>
    rw [hd] at hp
    simp only [List.head?_cons, Option.some.injEq] at hp
    rw [List.cons_append, List.head?_cons, hp]

theorem matchFDot_head_not {s : String} {ch : Char}
    (hh : s.data.head? = some ch) (hd : ch.isDigit = false) :
    matchFDot s.data = false := by
  unfold matchFDot
  cases hl : s.data with
  | nil => rw [hl] at hh; simp at hh
  | cons a as =>
    rw [hl] at hh
    simp only [List.head?_cons, Option.some.injEq] at hh
    subst hh
    rw [List.takeWhile_cons_of_neg (by rw [hd]; simp)]
    simp

theorem data_nil_eq : ("" : String).data = [] := rfl

theorem append_nl_ne_empty (s : String) : s ++ "\n" ≠ "" := by
  intro h
  have := congrArg String.data h
  rw [data_append] at this
  have hlen := congrArg List.length this
  rw [List.length_append] at hlen
  simp [data_nil_eq] at hlen

theorem joinTerm_singleton (l : String) : joinTerm [l] = l ++ "\n" := by
  apply ext_data
  rw [data_append]
  show (l.data ++ ['\n']) ++ [] = l.data ++ ("\n" : String).data
  rw [List.append_nil]

theorem joinTerm_snoc (l0 : String) (ls : List String) (l : String) :
    joinTerm (l0 :: ls) ++ l ++ "\n" = joinTerm (l0 :: (ls ++ [l])) := by
  apply ext_data
  rw [data_append, data_append]
  show (((l0 :: ls).map (fun s => s.data ++ ['\n'])).flatten ++ l.data) ++
      ("\n" : String).data =
    ((l0 :: (ls ++ [l])).map (fun s => s.data ++ ['\n'])).flatten
  rw [List.map_cons, List.map_cons, List.map_append, List.flatten_cons,
    List.flatten_cons, List.flatten_append]
  show ((l0.data ++ ['\n']) ++ (ls.map (fun s => s.data ++ ['\n'])).flatten ++
      l.data) ++ ['\n'] = _
  simp [List.append_assoc]

theorem contentSafe_empty : contentSafe "" := by
  unfold contentSafe
  refine ⟨?_, ?_, ?_, ?_, ?_, ?_, ?_⟩ <;> decide

theorem strim_of_digits_F (ds : List Char) (hds : ∀ c ∈ ds, c.isDigit = true) :
    strim ⟨ds ++ ['F']⟩ = ⟨ds ++ ['F']⟩ := by
  apply ext_data
  show trimChars (ds ++ ['F']) = ds ++ ['F']
  apply trimChars_eq_self_of_no_ws
  intro c hc
  rw [List.mem_append, List.mem_singleton] at hc
  rcases hc with hc | rfl
  · exact isDigit_not_ws (hds c hc)
  · decide

/-- One scanner step preserves the state invariant. -/
theorem stepLineCore_wf (p : PState) (line : String) (hlw : lineWf line)
    (hp : wfP p) : wfP (stepLineCore p line) := by
  obtain ⟨⟨w1, w2, w3, w4, w5, w6, w7, w8⟩, hcur, hcfgc, hcfgne⟩ := hp
  have hnl : ('\n' : Char) ∉ line.data := hlw.2
  by_cases h1 : sStarts "Project:" line = true
  · rw [stepLineCore_header_P p line h1]
    exact ⟨⟨afterColon_wf hnl, w2, w3, w4, w5, w6, w7, w8⟩, hcur, hcfgc,
      hcfgne⟩
  by_cases h2 : sStarts "Description:" line = true
  · rw [stepLineCore_header_D p line h1 h2]
    exact ⟨⟨w1, afterColon_wf hnl, w3, w4, w5, w6, w7, w8⟩, hcur, hcfgc,
      hcfgne⟩
  by_cases h3 : sStarts "technology:" line = true
  · rw [stepLineCore_header_T p line h1 h2 h3]
    exact ⟨⟨w1, w2, afterColon_wf hnl, w4, w5, w6, w7, w8⟩, hcur, hcfgc,
      hcfgne⟩
  by_cases h4 : line = "PROJECT FILES INDEX:"
  · rw [stepLineCore_filesTrigger p line h1 h2 h3 h4]
    refine ⟨⟨w1, w2, w3, w4, w5, w6, w7, w8⟩, hcur, ?_, ?_⟩
    · intro hh
      exact absurd hh (by simp)
    · intro hh
      exact absurd hh (by simp)
  by_cases h5 : p.current_section = some Sect.files ∧ line ≠ "" ∧
      ¬ sStarts "All functions:" line = true
  · by_cases hm : matchNumDot line.data = true
    · obtain ⟨htw, hdig, hs⟩ := matchNumDot_parts hm
      rw [stepLineCore_fileEntry p line _ _ h1 h2 h3 h4 h5 hm hs]
      refine ⟨⟨w1, w2, w3, ?_, ?_, w6, w7, w8⟩, hcur, hcfgc, hcfgne⟩
      · refine dinsert_forall _ _ _ _ w4 ⟨Int.ofNat_nonneg _, rfl, ?_, rfl⟩
        apply lineWf_strim
        intro hmem
        exact hnl ((splitOnce_subset '.' line.data _ _ hs).2 '\n' hmem)
      · exact dinsert_nodup_keys _ _ _ w5
    · rw [stepLineCore_fileSkip p line h1 h2 h3 h4 h5 hm]
      exact ⟨⟨w1, w2, w3, w4, w5, w6, w7, w8⟩, hcur, hcfgc, hcfgne⟩
  by_cases h6 : line = "All functions:"
  · rw [stepLineCore_funcTrigger p line h1 h2 h3 h4 h5 h6]
    refine ⟨⟨w1, w2, w3, w4, w5, w6, w7, w8⟩, hcur, ?_, ?_⟩
    · intro hh
      exact absurd hh (by simp)
    · intro hh
      exact absurd hh (by simp)
  by_cases h7 : p.current_section = some Sect.functions ∧
      matchFDot line.data = true
  · obtain ⟨htw, hdig, rest, hdw, hs⟩ := matchFDot_parts h7.2
    rw [stepLineCore_funcHeader p line _ _ h1 h2 h3 h4 h5 h6 h7 hs]
    refine ⟨⟨w1, w2, w3, w4, w5, ?_, ?_, w8⟩, ?_, ?_, ?_⟩
    · cases hc0 : p.current_function with
      | none => exact w6
      | some c =>
        exact dinsert_forall _ _ _ _ w6 ⟨rfl, commit_wfFunction (hcur c hc0)⟩
    · cases hc0 : p.current_function with
      | none => exact w7
      | some c => exact dinsert_nodup_keys _ _ _ w7
    · intro c' hc'
      simp only [Option.some.injEq] at hc'
      subst hc'
      refine ⟨⟨line.data.takeWhile Char.isDigit, htw, hdig, ?_⟩, ?_,
        lineWf_empty, contentSafe_empty, by simp, rfl, ?_⟩
      · rw [strim_of_digits_F _ hdig]
      · apply lineWf_strim
        intro hmem
        exact hnl ((splitOnce_subset '.' line.data _ _ hs).2 '\n' hmem)
      · intro hh
        exact absurd rfl hh
    · intro hh
      rw [h7.1] at hh
      exact absurd hh (by simp)
    · intro hh
      rw [h7.1] at hh
      exact absurd hh (by simp)
  by_cases h8 : p.current_function.isSome = true ∧ line ≠ "" ∧
      ¬ matchFDot line.data = true
  · obtain ⟨hsome, hne, hnf⟩ := h8
    cases hc : p.current_function with
    | none => rw [hc] at hsome; simp at hsome
    | some c =>
      obtain ⟨cid, cname, cdesc, csafe, cimpl, cfiles, cde⟩ := hcur c hc
      by_cases hd : c.description = "" ∧ ¬ sStarts "Implementation:" line = true
      · rw [stepLineCore_descLine p line c h1 h2 h3 h4 h5 h6 h7 hc hne hnf hd]
        refine ⟨⟨w1, w2, w3, w4, w5, w6, w7, w8⟩, ?_, ?_, hcfgne⟩
        · intro c' hc'
          simp only [Option.some.injEq] at hc'
          subst hc'
          exact ⟨cid, cname, hlw, ⟨h1, h2, h3, hd.2, h4, h6, hnf⟩, cimpl,
            cfiles, fun _ => hne⟩
        · intro hh
          rw [hcfgc hh] at hc
          exact absurd hc (by simp)
      by_cases hi : sStarts "Implementation:" line = true
      · rw [stepLineCore_implMark p line c h1 h2 h3 h4 h5 h6 h7 hc hne hnf
          hd hi]
        exact ⟨⟨w1, w2, w3, w4, w5, w6, w7, w8⟩, hcur, hcfgc, hcfgne⟩
      have hdesc_ne : c.description ≠ "" := fun hde0 => hd ⟨hde0, hi⟩
      by_cases hf : sStarts "File " line = true
      · rw [stepLineCore_fileLine p line c h1 h2 h3 h4 h5 h6 h7 hc hne hnf
          hd hi hf]
        refine ⟨⟨w1, w2, w3, w4, w5, w6, w7, w8⟩, ?_, ?_, hcfgne⟩
        · intro c' hc'
          simp only [Option.some.injEq] at hc'
          subst hc'
          refine ⟨cid, cname, cdesc, csafe, ?_, ?_, fun _ => hdesc_ne⟩
          · intro l hl
            rw [List.mem_append, List.mem_singleton] at hl
            rcases hl with hl | rfl
            · exact cimpl l hl
            · exact ⟨hne, hlw, ⟨h1, h2, h3, hi, h4, h6, hnf⟩⟩
          · rw [List.flatMap_append, ← cfiles]
            simp [refsOfLine, hf]
        · intro hh
          rw [hcfgc hh] at hc
          exact absurd hc (by simp)
      · rw [stepLineCore_otherLine p line c h1 h2 h3 h4 h5 h6 h7 hc hne hnf
          hd hi hf]
        refine ⟨⟨w1, w2, w3, w4, w5, w6, w7, w8⟩, ?_, ?_, hcfgne⟩
        · intro c' hc'
          simp only [Option.some.injEq] at hc'
          subst hc'
          refine ⟨cid, cname, cdesc, csafe, ?_, ?_, fun _ => hdesc_ne⟩
          · intro l hl
            rw [List.mem_append, List.mem_singleton] at hl
            rcases hl with hl | rfl
            · exact cimpl l hl
            · exact ⟨hne, hlw, ⟨h1, h2, h3, hi, h4, h6, hnf⟩⟩
          · rw [List.flatMap_append, ← cfiles]
            simp [refsOfLine, hf]
        · intro hh
          rw [hcfgc hh] at hc
          exact absurd hc (by simp)
  by_cases h9 : sStarts "key projct configuration:" line = true
  · rw [stepLineCore_cfgTrigger p line h1 h2 h3 h4 h5 h6 h7 h8 h9]
    have hneline : line ≠ "" := sStarts_ne_empty h9 (by decide)
    have hnf : ¬ matchFDot line.data = true := by
      have hh := sStarts_head_eq h9
        (by decide :
          ("key projct configuration:" : String).data.head? = some 'k')
      rw [matchFDot_head_not hh (by decide)]
      simp
    have hcnone : p.current_function = none := by
      cases hc0 : p.current_function with
      | none => rfl
      | some c =>
        exact absurd ⟨by rw [hc0]; rfl, hneline, hnf⟩ h8
    refine ⟨⟨w1, w2, w3, w4, w5, w6, w7, ?_⟩, hcur, ?_, ?_⟩
    · right
      exact ⟨line, [], (joinTerm_singleton line).symm, h9, hlw, by simp⟩
    · intro _
      exact hcnone
    · intro _
      exact append_nl_ne_empty line
  by_cases h10 : p.current_section = some Sect.config
  · rw [stepLineCore_cfgAppend p line h1 h2 h3 h4 h5 h6 h7 h8 h9 h10]
    rcases w8 with h8e | ⟨l0, ls, hform, hl0, hl0wf, hls⟩
    · exact absurd h8e (hcfgne h10)
    · refine ⟨⟨w1, w2, w3, w4, w5, w6, w7, ?_⟩, hcur, ?_, ?_⟩
      · right
        refine ⟨l0, ls ++ [line], ?_, hl0, hl0wf, ?_⟩
        · rw [hform, joinTerm_snoc]
        · intro l hl
          rw [List.mem_append, List.mem_singleton] at hl
          rcases hl with hl | rfl
          · exact hls l hl
          · exact ⟨hlw, ⟨h1, h2, h3, h9, h4, h6⟩⟩
      · intro _
        exact hcfgc h10
      · intro _
        exact append_nl_ne_empty _
  · rw [stepLineCore_skip p line h1 h2 h3 h4 h5 h6 h7 h8 h9 h10]
    exact ⟨⟨w1, w2, w3, w4, w5, w6, w7, w8⟩, hcur, hcfgc, hcfgne⟩

/-- The scanner loop preserves the invariant over newline-free lines. -/
theorem parseLines_wf (ls : List String) (p : PState)
    (hls : ∀ l ∈ ls, ('\n' : Char) ∉ l.data) (hp : wfP p) :
    wfP (parseLines p ls) := by
  induction ls generalizing p with
  | nil => exact hp
  | cons raw t ih =>
    rw [parseLines_cons]
    refine ih (stepLine p raw) (fun l hl => hls l (List.mem_cons_of_mem _ hl))
      ?_
    rw [stepLine]
    exact stepLineCore_wf p (strim raw)
      (lineWf_strim (hls raw (List.mem_cons_self raw t))) hp

theorem initPState_wf : wfP initPState := by
  refine ⟨⟨lineWf_empty, lineWf_empty, lineWf_empty, ?_, ?_, ?_, ?_, ?_⟩,
    ?_, ?_, ?_⟩
  · intro e he
    simp [initPState] at he
  · simp [initPState]
  · intro e he
    simp [initPState] at he
  · simp [initPState]
  · left
    rfl
  · intro c hc
    simp [initPState] at hc
  · intro hh
    rfl
  · intro hh
    simp [initPState] at hh

/-- Every line delivered by the newline split is newline-free. -/
theorem splitLines_no_nl (text : String) :
    ∀ l ∈ splitLines text, ('\n' : Char) ∉ l.data := by
  intro l hl
  unfold splitLines at hl
  rcases List.mem_map.1 hl with ⟨piece, hpiece, rfl⟩
  show '\n' ∉ piece
  have := splitChar_no_sep '\n' text.data
  unfold splitChar at hpiece
  rw [List.mem_cons] at hpiece
  rcases hpiece with rfl | hpiece
  · exact this.1
  · exact this.2 piece hpiece

/-- Flushing preserves model well-formedness. -/
theorem flushState_wf (p : PState) (hp : wfP p) : wfModel (flushState p) := by
  obtain ⟨⟨w1, w2, w3, w4, w5, w6, w7, w8⟩, hcur, _, _⟩ := hp
  cases hc : p.current_function with
  | none =>
    exact ⟨w1, w2, w3, w4, w5, by rw [flushState, hc]; exact w6,
      by rw [flushState, hc]; exact w7, w8⟩
  | some c =>
    refine ⟨w1, w2, w3, w4, w5, ?_, ?_, w8⟩
    · rw [flushState, hc]
      exact dinsert_forall _ _ _ _ w6 ⟨rfl, commit_wfFunction (hcur c hc)⟩
    · rw [flushState, hc]
      exact dinsert_nodup_keys _ _ _ w7

/-- The parse of any text satisfies the model invariant. -/
theorem parseContent_wf (text : String) : wfModel (parseContent text) :=
  flushState_wf _
    (parseLines_wf (splitLines text) initPState (splitLines_no_nl text)
      initPState_wf)

/-! ## Claim C10: every stored string field is stripped -/

/-- Claim C10: every string field stored by parse — project name, project
description, technology, each file path, each function name, each
function description, and each line of each implementation blob — is
invariant under stripping (no leading or trailing whitespace survives,
in particular no leading indentation), because the scanner strips every
input line before classifying it. -/
theorem C10_parse_strip (text : String) :
    strim (parseContent text).project_name =
      (parseContent text).project_name ∧
    strim (parseContent text).project_description =
      (parseContent text).project_description ∧
    strim (parseContent text).technology = (parseContent text).technology ∧
    (∀ e ∈ (parseContent text).files, strim e.2.path = e.2.path) ∧
    (∀ e ∈ (parseContent text).functions,
      strim e.2.name = e.2.name ∧
      strim e.2.description = e.2.description ∧
      ∀ l ∈ splitLines e.2.implementation, strim l = l) := by
  obtain ⟨w1, w2, w3, w4, _, w6, _, _⟩ := parseContent_wf text
  refine ⟨w1.1, w2.1, w3.1, ?_, ?_⟩
  · intro e he
    exact (w4 e he).2.2.1.1
  · intro e he
    obtain ⟨_, hwf⟩ := w6 e he
    obtain ⟨_, hname, hdesc, _, himpl, _, _, _⟩ := hwf
    refine ⟨hname.1, hdesc.1, ?_⟩
    intro l hl
    by_cases hempty : e.2.implementation = ""
    · rw [hempty] at hl
      have : splitLines "" = [""] := rfl
      rw [this, List.mem_singleton] at hl
      subst hl
      rfl
    · have : l ∈ implLines e.2 := by
        unfold implLines
        rw [if_neg hempty]
        exact hl
      exact ((himpl l this).2.1).1

/-- Claim C10, witness: the invariant instantiated at a document whose
raw lines carry leading and trailing whitespace. -/
theorem C10_parse_strip_witness :
    strim (parseContent "Project:  P \n  1. x").project_name =
      (parseContent "Project:  P \n  1. x").project_name ∧
    strim (parseContent "Project:  P \n  1. x").project_description =
      (parseContent "Project:  P \n  1. x").project_description ∧
    strim (parseContent "Project:  P \n  1. x").technology =
      (parseContent "Project:  P \n  1. x").technology ∧
    (∀ e ∈ (parseContent "Project:  P \n  1. x").files,
      strim e.2.path = e.2.path) ∧
    (∀ e ∈ (parseContent "Project:  P \n  1. x").functions,
      strim e.2.name = e.2.name ∧
      strim e.2.description = e.2.description ∧
      ∀ l ∈ splitLines e.2.implementation, strim l = l) :=
  C10_parse_strip "Project:  P \n  1. x"

/-! ## Claim C3: the config trigger and blob accumulation -/

theorem matchNumDot_head_not {s : String} {ch : Char}
    (hh : s.data.head? = some ch) (hd : ch.isDigit = false) :
    matchNumDot s.data = false := by
  unfold matchNumDot
  cases hl : s.data with
  | nil => rw [hl] at hh; simp at hh
  | cons a as =>
    rw [hl] at hh
    simp only [List.head?_cons, Option.some.injEq] at hh
    subst hh
    rw [List.takeWhile_cons_of_neg (by rw [hd]; simp)]
    simp

theorem joinTerm_nil : joinTerm [] = "" := rfl

theorem joinTerm_cons (x : String) (xs : List String) :
    joinTerm (x :: xs) = x ++ "\n" ++ joinTerm xs := by
  apply ext_data
  rw [data_append, data_append]
  show ((x :: xs).map (fun s => s.data ++ ['\n'])).flatten =
    (x.data ++ ("\n" : String).data) ++
      ((xs.map (fun s => s.data ++ ['\n'])).flatten)
  rw [List.map_cons, List.flatten_cons]

theorem string_append_assoc (a b c : String) :
    (a ++ b) ++ c = a ++ (b ++ c) := by
  apply ext_data
  rw [data_append, data_append, data_append, data_append,
    List.append_assoc]

theorem string_append_empty (a : String) : a ++ "" = a := by
  apply ext_data
  rw [data_append]
  show a.data ++ [] = a.data
  rw [List.append_nil]

/-- While the scanner sits in the config section with no accumulating
function, every stripped-safe line (blank or not) is appended verbatim
(after stripping) with a newline. -/
theorem parseLines_config_append (rest : List String) :
    ∀ (p : PState), p.current_section = some Sect.config →
    p.current_function = none →
    (∀ r ∈ rest, cfgLineSafe (strim r)) →
    (parseLines p rest).st.config_section =
      p.st.config_section ++ joinTerm (rest.map strim) := by
  induction rest with
  | nil =>
    intro p _ _ _
    rw [parseLines_nil, List.map_nil, joinTerm_nil, string_append_empty]
  | cons r rest' ih =>
    intro p hsec hcur hsafe
    obtain ⟨s1, s2, s3, s9, s4, s6⟩ := hsafe r (List.mem_cons_self r rest')
    have hstep : stepLine p r =
        { p with st.config_section :=
            p.st.config_section ++ strim r ++ "\n" } := by
      rw [stepLine]
      apply stepLineCore_cfgAppend p (strim r) s1 s2 s3 s4
      · intro hh
        rw [hsec] at hh
        exact absurd hh.1 (by simp)
      · exact s6
      · intro hh
        rw [hsec] at hh
        exact absurd hh.1 (by simp)
      · intro hh
        rw [hcur] at hh
        exact absurd hh.1 (by simp)
      · exact s9
      · exact hsec
    rw [parseLines_cons, hstep]
    rw [ih _ (by exact hsec) (by exact hcur)
      (fun x hx => hsafe x (List.mem_cons_of_mem r hx))]
    rw [List.map_cons, joinTerm_cons]
    rw [string_append_assoc, string_append_assoc,
      ← string_append_assoc (strim r)]

/-- Claim C3 (amended): the effect of a `key projct configuration:`
trigger line depends on whether a function is being accumulated.
While a function is accumulating, the trigger line is consumed as
function content: the config blob and the section state are unchanged
(so a document whose trigger follows any function accumulates no config
at all).  When no function is accumulating and the scanner is not in the
`FILES` section, the trigger line (stripped) plus every following line
(stripped, blank or not) that neither matches a metadata-header prefix
nor a section-trigger line nor a second config trigger is appended, each
with a newline, to the config blob until end of input. -/
theorem C3_config_trigger :
    (∀ (p : PState) (raw : String) (c : CurFunc),
      p.current_function = some c →
      sStarts "key projct configuration:" (strim raw) = true →
      (stepLine p raw).st.config_section = p.st.config_section ∧
      (stepLine p raw).current_section = p.current_section) ∧
    (∀ (p : PState) (raw : String) (rest : List String),
      p.current_function = none →
      p.current_section ≠ some Sect.files →
      sStarts "key projct configuration:" (strim raw) = true →
      (∀ r ∈ rest, cfgLineSafe (strim r)) →
      (parseLines p (raw :: rest)).st.config_section =
        joinTerm (strim raw :: rest.map strim)) := by
  constructor
  · intro p raw c hc htrig
    have h1 : ¬ sStarts "Project:" (strim raw) = true := fun hh =>
      sStarts_not_both (by decide) (by decide) (by decide) hh htrig
    have h2 : ¬ sStarts "Description:" (strim raw) = true := fun hh =>
      sStarts_not_both (by decide) (by decide) (by decide) hh htrig
    have h3 : ¬ sStarts "technology:" (strim raw) = true := fun hh =>
      sStarts_not_both (by decide) (by decide) (by decide) hh htrig
    have hhead : (strim raw).data.head? = some 'k' :=
      sStarts_head_eq htrig (by decide)
    have h4 : ¬ strim raw = "PROJECT FILES INDEX:" := by
      intro hh
      rw [hh] at htrig
      exact absurd htrig (by decide)
    have h6 : ¬ strim raw = "All functions:" := by
      intro hh
      rw [hh] at htrig
      exact absurd htrig (by decide)
    have hne : strim raw ≠ "" := sStarts_ne_empty htrig (by decide)
    have hm : matchNumDot (strim raw).data = false :=
      matchNumDot_head_not hhead (by decide)
    have hnf' : matchFDot (strim raw).data = false :=
      matchFDot_head_not hhead (by decide)
    have hnf : ¬ matchFDot (strim raw).data = true := by
      rw [hnf']
      simp
    have hi : ¬ sStarts "Implementation:" (strim raw) = true := fun hh =>
      sStarts_not_both (by decide) (by decide) (by decide) hh htrig
    have hf : ¬ sStarts "File " (strim raw) = true := fun hh =>
      sStarts_not_both (by decide) (by decide) (by decide) hh htrig
    by_cases h5 : p.current_section = some Sect.files ∧ strim raw ≠ "" ∧
        ¬ sStarts "All functions:" (strim raw) = true
    · rw [stepLine, stepLineCore_fileSkip p (strim raw) h1 h2 h3 h4 h5
        (by rw [hm]; simp)]
      exact ⟨rfl, rfl⟩
    · have h7 : ¬ (p.current_section = some Sect.functions ∧
          matchFDot (strim raw).data = true) := fun hh => hnf hh.2
      by_cases hd : c.description = "" ∧
          ¬ sStarts "Implementation:" (strim raw) = true
      · rw [stepLine, stepLineCore_descLine p (strim raw) c h1 h2 h3 h4 h5
          h6 h7 hc hne hnf hd]
        exact ⟨rfl, rfl⟩
      · rw [stepLine, stepLineCore_otherLine p (strim raw) c h1 h2 h3 h4 h5
          h6 h7 hc hne hnf hd hi hf]
        exact ⟨rfl, rfl⟩
  · intro p raw rest hcur hsec htrig hsafe
    have h1 : ¬ sStarts "Project:" (strim raw) = true := fun hh =>
      sStarts_not_both (by decide) (by decide) (by decide) hh htrig
    have h2 : ¬ sStarts "Description:" (strim raw) = true := fun hh =>
      sStarts_not_both (by decide) (by decide) (by decide) hh htrig
    have h3 : ¬ sStarts "technology:" (strim raw) = true := fun hh =>
      sStarts_not_both (by decide) (by decide) (by decide) hh htrig
    have hhead : (strim raw).data.head? = some 'k' :=
      sStarts_head_eq htrig (by decide)
    have h4 : ¬ strim raw = "PROJECT FILES INDEX:" := by
      intro hh
      rw [hh] at htrig
      exact absurd htrig (by decide)
    have h6 : ¬ strim raw = "All functions:" := by
      intro hh
      rw [hh] at htrig
      exact absurd htrig (by decide)
    have hnf' : matchFDot (strim raw).data = false :=
      matchFDot_head_not hhead (by decide)
    have h5 : ¬ (p.current_section = some Sect.files ∧ strim raw ≠ "" ∧
        ¬ sStarts "All functions:" (strim raw) = true) := fun hh =>
      hsec hh.1
    have h7 : ¬ (p.current_section = some Sect.functions ∧
        matchFDot (strim raw).data = true) := by
      intro hh
      rw [hnf'] at hh
      exact absurd hh.2 (by simp)
    have h8 : ¬ (p.current_function.isSome = true ∧ strim raw ≠ "" ∧
        ¬ matchFDot (strim raw).data = true) := by
      intro hh
      rw [hcur] at hh
      exact absurd hh.1 (by simp)
    rw [parseLines_cons, stepLine,
      stepLineCore_cfgTrigger p (strim raw) h1 h2 h3 h4 h5 h6 h7 h8 htrig]
    rw [parseLines_config_append rest _ rfl (by exact hcur)
      (fun x hx => hsafe x hx)]
    rw [joinTerm_cons]

/-- Claim C3, witness: part one at a state accumulating function `1F`
(the trigger is consumed, the config blob and the section stay put); part
two at a functions-section state with no accumulating function and three
following lines, one of them blank. -/
theorem C3_config_trigger_witness :
    ((stepLine
        { st := {}, current_section := some Sect.functions,
          current_function := some ⟨"1F", "f", "d", [], []⟩ }
        "key projct configuration: x").st.config_section =
      ({ st := {}, current_section := some Sect.functions,
         current_function :=
           some ⟨"1F", "f", "d", [], []⟩ } : PState).st.config_section ∧
     (stepLine
        { st := {}, current_section := some Sect.functions,
          current_function := some ⟨"1F", "f", "d", [], []⟩ }
        "key projct configuration: x").current_section =
      ({ st := {}, current_section := some Sect.functions,
         current_function :=
           some ⟨"1F", "f", "d", [], []⟩ } : PState).current_section) ∧
    (parseLines
        { st := {}, current_section := some Sect.functions,
          current_function := none }
        ("key projct configuration:" :: ["a", "", "b"])).st.config_section =
      joinTerm (strim "key projct configuration:" ::
        (["a", "", "b"] : List String).map strim) :=
  ⟨C3_config_trigger.1
      { st := {}, current_section := some Sect.functions,
        current_function := some ⟨"1F", "f", "d", [], []⟩ }
      "key projct configuration: x" ⟨"1F", "f", "d", [], []⟩ rfl (by decide),
   C3_config_trigger.2
      { st := {}, current_section := some Sect.functions,
        current_function := none }
      "key projct configuration:" ["a", "", "b"] rfl (by decide) (by decide)
      (by
        intro r hr
        unfold cfgLineSafe
        fin_cases hr <;>
          exact ⟨by decide, by decide, by decide, by decide, by decide,
            by decide⟩)⟩

/-- Claim C3, counterexample: the claim says the trigger captures the
blob regardless of scanner state, in particular after functions have
been accumulated.  In the document below the trigger follows function
`1F`, the config blob stays empty (the trigger line became the
function's description), and the claim's expected blob is not there. -/
theorem C3_counterexample :
    (parseContent
      "All functions:\n1F. f\nkey projct configuration:\nX").config_section =
      "" ∧
    ("" : String) ≠ "key projct configuration:\nX\n" ∧
    (dlookup "1F" (parseContent
      "All functions:\n1F. f\nkey projct configuration:\nX").functions).map
        Function.description = some "key projct configuration:" := by
  refine ⟨rfl, by decide, rfl⟩

theorem splitCharAux_concat (sep : Char) (u v : List Char) :
    splitCharAux sep (u ++ sep :: v) =
      ((splitCharAux sep u).1,
        (splitCharAux sep u).2 ++ splitChar sep v) := by
  induction u with
  | nil =>
    rw [List.nil_append]
    show splitCharAux sep (sep :: v) = (([] : List Char), splitChar sep v)
    rw [splitCharAux, if_pos rfl]
    rfl
  | cons c u' ih =>
    by_cases hc : c = sep
    · subst hc
      rw [List.cons_append, splitCharAux, if_pos rfl, ih, splitCharAux,
        if_pos rfl]
      rfl
    · rw [List.cons_append, splitCharAux, if_neg hc, ih, splitCharAux,
        if_neg hc]

/-- Splitting distributes over a separator occurrence: Python splits on
every occurrence, so the pieces concatenate. -/
theorem splitChar_concat (sep : Char) (u v : List Char) :
    splitChar sep (u ++ sep :: v) = splitChar sep u ++ splitChar sep v := by
  unfold splitChar
  rw [splitCharAux_concat]
  rfl

theorem splitLines_joinNL_flat (es : List String) (hne : es ≠ []) :
    splitLines (joinNL es) = es.flatMap splitLines := by
  induction es with
  | nil => exact absurd rfl hne
  | cons x rest ih =>
    cases rest with
    | nil =>
      show splitLines (joinNL [x]) = splitLines x ++ []
      rw [List.append_nil, show joinNL [x] = x from ext_data rfl]
    | cons y t =>
      have hdata : (joinNL (x :: y :: t)).data =
          x.data ++ '\n' :: (joinNL (y :: t)).data := rfl
      show (splitChar '\n' (joinNL (x :: y :: t)).data).map
          (fun l => (⟨l⟩ : String)) = _
      rw [hdata, splitChar_concat, List.map_append, List.flatMap_cons]
      congr 1
      exact ih (by simp)

theorem splitLines_single {s : String} (h : ('\n' : Char) ∉ s.data) :
    splitLines s = [s] := by
  unfold splitLines splitChar
  rw [splitCharAux_no_sep_eq '\n' s.data h]
  show [(⟨s.data⟩ : String)] = [s]
  rw [show (⟨s.data⟩ : String) = s from ext_data rfl]

theorem flatMap_splitLines_id (xs : List String)
    (h : ∀ x ∈ xs, ('\n' : Char) ∉ x.data) : xs.flatMap splitLines = xs := by
  induction xs with
  | nil => rfl
  | cons x t ih =>
    rw [List.flatMap_cons, splitLines_single (h x (List.mem_cons_self x t)),
      ih (fun y hy => h y (List.mem_cons_of_mem x hy))]
    rfl

theorem trimChars_head_not_ws (l : List Char) (c : Char)
    (h : (trimChars l).head? = some c) : c.isWhitespace = false := by
  unfold trimChars at h
  rcases dropTrail_prefix Char.isWhitespace (l.dropWhile Char.isWhitespace)
    with ⟨t, ht⟩
  have hhead : (l.dropWhile Char.isWhitespace).head? = some c := by
    rw [← ht]
    cases hx : (((l.dropWhile Char.isWhitespace).reverse.dropWhile
        Char.isWhitespace).reverse) with
    | nil => rw [hx] at h; simp at h
    | cons b bs =>
      rw [hx] at h
      simp only [List.head?_cons, Option.some.injEq] at h
      subst h
      rfl
  exact dropWhile_head_not Char.isWhitespace l c hhead

theorem trimChars_getLast_not_ws (l : List Char) (c : Char)
    (h : (trimChars l).getLast? = some c) : c.isWhitespace = false := by
  unfold trimChars at h
  rw [List.getLast?_reverse] at h
  exact dropWhile_head_not Char.isWhitespace _ c h

theorem trimChars_eq_self_of_clean (l : List Char)
    (hh : ∀ c, l.head? = some c → c.isWhitespace = false)
    (hl : ∀ c, l.getLast? = some c → c.isWhitespace = false) :
    trimChars l = l := by
  unfold trimChars
  rw [dropWhile_eq_self_of_head Char.isWhitespace l hh,
    dropWhile_eq_self_of_head Char.isWhitespace l.reverse
      (fun c hc => hl c (by rwa [List.head?_reverse] at hc)),
    List.reverse_reverse]

theorem ne_empty_of_head {s : String} {c : Char}
    (h : s.data.head? = some c) : s ≠ "" := by
  intro he
  rw [he, data_nil_eq] at h
  simp at h

theorem not_sStarts_of_head {p s : String} {cp cs : Char}
    (hp : p.data.head? = some cp) (hs : s.data.head? = some cs)
    (hne : cp ≠ cs) : ¬ sStarts p s = true := by
  intro h
  have h2 := sStarts_head_eq h hp
  rw [h2] at hs
  exact hne (Option.some.inj hs)

theorem ne_of_head {s t : String} {cs ct : Char}
    (hs : s.data.head? = some cs) (ht : t.data.head? = some ct)
    (hne : cs ≠ ct) : s ≠ t := by
  intro he
  rw [he] at hs
  rw [hs] at ht
  exact hne (Option.some.inj ht)

theorem digit_ne_char {c d : Char} (hd : d.isDigit = true)
    (hc : c.isDigit = false) : c ≠ d := by
  intro h
  rw [h] at hc
  rw [hd] at hc
  exact Bool.noConfusion hc

theorem string_empty_append (a : String) : "" ++ a = a := by
  apply ext_data
  rw [data_append]
  rfl

theorem joinNL_singleton (x : String) : joinNL [x] = x := ext_data rfl

theorem joinNL_cons_ne (x : String) (zs : List String) (h : zs ≠ []) :
    joinNL (x :: zs) = x ++ "\n" ++ joinNL zs := by
  cases zs with
  | nil => exact absurd rfl h
  | cons z t =>
    apply ext_data
    rw [data_append, data_append]
    show joinChar '\n' (x.data :: z.data :: t.map String.data) =
      (x.data ++ ("\n" : String).data) ++
        joinChar '\n' (z.data :: t.map String.data)
    rw [show joinChar '\n' (x.data :: z.data :: t.map String.data) =
        x.data ++ '\n' :: joinChar '\n' (z.data :: t.map String.data)
      from rfl, List.append_assoc]
    rfl

theorem joinNL_snoc (xs : List String) (y : String) :
    joinNL (xs ++ [y]) = joinTerm xs ++ y := by
  induction xs with
  | nil =>
    rw [List.nil_append, joinNL_singleton, joinTerm_nil,
      string_empty_append]
  | cons x t ih =>
    rw [List.cons_append, joinNL_cons_ne x (t ++ [y]) (by simp), ih,
      joinTerm_cons]
    simp only [string_append_assoc]

theorem trimChars_append_nl (x : List Char) :
    trimChars (x ++ ['\n']) = trimChars x := by
  unfold trimChars
  rw [List.dropWhile_append]
  by_cases h : (x.dropWhile Char.isWhitespace).isEmpty
  · rw [if_pos h]
    have hx : x.dropWhile Char.isWhitespace = [] := by
      rwa [List.isEmpty_iff] at h
    rw [hx]
    rfl
  · rw [if_neg h]
    have hrev : (x.dropWhile Char.isWhitespace ++ ['\n']).reverse =
        '\n' :: (x.dropWhile Char.isWhitespace).reverse := by
      rw [List.reverse_append]
      rfl
    rw [hrev, List.dropWhile_cons_of_pos (by decide)]

theorem strim_append_nl (s : String) : strim (s ++ "\n") = strim s := by
  apply ext_data
  show trimChars ((s ++ "\n").data) = trimChars s.data
  rw [data_append]
  exact trimChars_append_nl s.data

theorem trimChars_cons_ws (c : Char) (l : List Char)
    (hc : c.isWhitespace = true) : trimChars (c :: l) = trimChars l := by
  unfold trimChars
  rw [List.dropWhile_cons_of_pos hc]

theorem strim_cons_ws {s : String} (c : Char) (hc : c.isWhitespace = true)
    (hs : strim s = s) : strim ⟨c :: s.data⟩ = s := by
  apply ext_data
  show trimChars (c :: s.data) = s.data
  rw [trimChars_cons_ws c s.data hc]
  exact congrArg String.data hs

theorem strim_label_append (pre s : String) (c0 cl : Char)
    (hh : pre.data.head? = some c0) (h0 : c0.isWhitespace = false)
    (hl : pre.data.getLast? = some cl) (hcl : cl.isWhitespace = false)
    (hs : strim s = s) : strim (pre ++ s) = pre ++ s := by
  apply ext_data
  show trimChars ((pre ++ s).data) = (pre ++ s).data
  rw [data_append]
  apply trimChars_eq_self_of_clean
  · intro c hc
    rcases hd : pre.data with _ | ⟨a, r⟩
    · rw [hd] at hh; simp at hh
    · rw [hd, List.cons_append, List.head?_cons] at hc
      rw [hd] at hh
      simp only [List.head?_cons, Option.some.injEq] at hh hc
      have ha : a.isWhitespace = false := by rw [hh]; exact h0
      rw [← hc]
      exact ha
  · intro c hc
    rcases hsd : s.data with _ | ⟨b, r⟩
    · rw [hsd, List.append_nil, hl] at hc
      rw [← Option.some.inj hc]
      exact hcl
    · rw [List.getLast?_append_of_ne_nil pre.data (by rw [hsd]; simp)] at hc
      have hs' : trimChars s.data = s.data := congrArg String.data hs
      rw [← hs'] at hc
      exact trimChars_getLast_not_ws s.data c hc

theorem natDigits_ne_nil (n : Nat) : natDigits n ≠ [] := by
  unfold natDigits natDigitsF
  split_ifs with h
  · simp
  · simp

theorem takeWhile_digits_append (ds : List Char) (c : Char)
    (rest : List Char) (hds : ∀ x ∈ ds, x.isDigit = true)
    (hc : c.isDigit = false) :
    (ds ++ c :: rest).takeWhile Char.isDigit = ds ∧
    (ds ++ c :: rest).dropWhile Char.isDigit = c :: rest := by
  induction ds with
  | nil =>
    constructor
    · rw [List.nil_append, List.takeWhile_cons_of_neg (by simp [hc])]
    · rw [List.nil_append, List.dropWhile_cons_of_neg (by simp [hc])]
  | cons d t ih =>
    have hd := hds d (List.mem_cons_self d t)
    obtain ⟨ih1, ih2⟩ := ih (fun x hx => hds x (List.mem_cons_of_mem d hx))
    constructor
    · rw [List.cons_append, List.takeWhile_cons_of_pos (by rw [hd]), ih1]
    · rw [List.cons_append, List.dropWhile_cons_of_pos (by rw [hd]), ih2]

theorem not_mem_digits {ds : List Char} (hds : ∀ x ∈ ds, x.isDigit = true)
    {c : Char} (hc : c.isDigit = false) : c ∉ ds := by
  intro h
  rw [hds c h] at hc
  exact Bool.noConfusion hc

theorem dlookup_perm {α β : Type} [DecidableEq α] {l₁ l₂ : List (α × β)}
    (h : l₁.Perm l₂) :
    (l₁.map Prod.fst).Nodup → ∀ k, dlookup k l₁ = dlookup k l₂ := by
  induction h with
  | nil => intro _ k; rfl
  | cons x h ih =>
    intro hnd k
    rw [List.map_cons, List.nodup_cons] at hnd
    by_cases hx : x.1 = k
    · simp [dlookup, hx]
    · simp only [dlookup, hx, if_false]
      exact ih hnd.2 k
  | swap x y l =>
    intro hnd k
    have hyx : y.1 ≠ x.1 := by
      rw [List.map_cons, List.map_cons, List.nodup_cons] at hnd
      exact fun he => hnd.1 (by rw [he]; exact List.mem_cons_self x.1 _)
    by_cases hx : x.1 = k <;> by_cases hy2 : y.1 = k
    · exact absurd (hy2.trans hx.symm) hyx
    · simp [dlookup, hx, hy2]
    · simp [dlookup, hx, hy2]
    · simp [dlookup, hx, hy2]
  | trans h₁ h₂ ih₁ ih₂ =>
    intro hnd k
    rw [ih₁ hnd k, ih₂ (((h₁.map Prod.fst).nodup_iff).1 hnd) k]

theorem foldl_dinsert_fresh {α β : Type} [DecidableEq α] :
    ∀ (entries : List (α × β)) (acc : List (α × β)),
      (entries.map Prod.fst).Nodup →
      (∀ e ∈ entries, dlookup e.1 acc = none) →
      entries.foldl (fun d e => dinsert d e.1 e.2) acc = acc ++ entries := by
  intro entries
  induction entries with
  | nil => intro acc _ _; rw [List.foldl_nil, List.append_nil]
  | cons e rest ih =>
    intro acc hnd hfresh
    rw [List.map_cons, List.nodup_cons] at hnd
    rw [List.foldl_cons]
    have hde : dinsert acc e.1 e.2 = acc ++ [e] := by
      unfold dinsert
      rw [hfresh e (List.mem_cons_self e rest),
        if_neg (by simp : ¬ (none : Option β).isSome = true)]
    have hfresh' : ∀ e' ∈ rest, dlookup e'.1 (acc ++ [e]) = none := by
      intro e' he'
      have hne : e'.1 ≠ e.1 :=
        fun hh => hnd.1 (hh ▸ List.mem_map_of_mem Prod.fst he')
      rw [dlookup_append, hfresh e' (List.mem_cons_of_mem e he')]
      show Option.or none (dlookup e'.1 [e]) = none
      rw [dlookup, if_neg (fun hh => hne hh.symm)]
      rfl
    rw [hde, ih (acc ++ [e]) hnd.2 hfresh', List.append_assoc]
    rfl

theorem data_ne_nil {s : String} (h : s ≠ "") : s.data ≠ [] :=
  fun hd => h (ext_data hd)

theorem joinTerm_head (l0 : String) (ls : List String) {c0 : Char}
    (h0 : l0.data.head? = some c0) :
    (joinTerm (l0 :: ls)).data.head? = some c0 := by
  show (((l0 :: ls).map (fun s => s.data ++ ['\n'])).flatten).head? = some c0
  rw [List.map_cons, List.flatten_cons]
  rcases hd : l0.data with _ | ⟨a, r⟩
  · rw [hd] at h0; simp at h0
  · rw [hd] at h0
    simp only [List.head?_cons, Option.some.injEq] at h0
    subst h0
    rfl

/-- Stripping the newline-terminated config blob drops exactly the
trailing newline and any trailing blank lines, leaving the newline-join
of the remaining (already trimmed) lines. -/
theorem strim_joinTerm (l0 : String) (c0 : Char)
    (h0 : l0.data.head? = some c0) (hc0 : c0.isWhitespace = false)
    (hl0 : strim l0 = l0) (ls : List String) :
    (∀ l ∈ ls, strim l = l) →
    strim (joinTerm (l0 :: ls)) = joinNL (l0 :: dropTrailBlank ls) := by
  induction ls using List.reverseRecOn with
  | nil =>
    intro _
    rw [joinTerm_singleton, strim_append_nl, hl0]
    show l0 = joinNL [l0]
    rw [joinNL_singleton]
  | append_singleton ys y ih =>
    intro hwf
    rw [← joinTerm_snoc, strim_append_nl]
    by_cases hy : y = ""
    · subst hy
      rw [string_append_empty,
        ih (fun l hl => hwf l (List.mem_append_left _ hl))]
      have hdt : dropTrailBlank (ys ++ [""]) = dropTrailBlank ys := by
        unfold dropTrailBlank
        have h1 : (ys ++ [""]).reverse = "" :: ys.reverse := by
          rw [List.reverse_append]
          rfl
        rw [h1, List.dropWhile_cons_of_pos (by decide)]
      rw [hdt]
    · have hyd : dropTrailBlank (ys ++ [y]) = ys ++ [y] := by
        unfold dropTrailBlank
        have h1 : (ys ++ [y]).reverse = y :: ys.reverse := by
          rw [List.reverse_append]
          rfl
        rw [h1, List.dropWhile_cons_of_neg (by simp [hy]),
          List.reverse_cons, List.reverse_reverse]
      rw [hyd,
        show l0 :: (ys ++ [y]) = (l0 :: ys) ++ [y] from rfl, joinNL_snoc]
      apply ext_data
      show trimChars ((joinTerm (l0 :: ys) ++ y).data) = _
      rw [data_append]
      apply trimChars_eq_self_of_clean
      · intro c hc
        have hh := joinTerm_head l0 ys h0
        rcases hJd : (joinTerm (l0 :: ys)).data with _ | ⟨a, r⟩
        · rw [hJd] at hh; simp at hh
        · rw [hJd] at hh hc
          rw [List.cons_append, List.head?_cons] at hc
          simp only [List.head?_cons, Option.some.injEq] at hh hc
          rw [← hc, hh]
          exact hc0
      · intro c hc
        rw [List.getLast?_append_of_ne_nil _ (data_ne_nil hy)] at hc
        have hy' : trimChars y.data = y.data :=
          congrArg String.data
            (hwf y (List.mem_append_right ys (List.mem_cons_self y [])))
        rw [← hy'] at hc
        exact trimChars_getLast_not_ws y.data c hc

/-- Whole-state effect of scanning already-trimmed safe lines from inside
the config section: only the config blob changes, each line appended
with a newline. -/
theorem parseLines_config_state (rest : List String) :
    ∀ (p : PState), p.current_section = some Sect.config →
    p.current_function = none →
    (∀ r ∈ rest, lineWf r ∧ cfgLineSafe r) →
    parseLines p rest =
      { p with st.config_section := p.st.config_section ++ joinTerm rest } := by
  induction rest with
  | nil =>
    intro p _ _ _
    rw [parseLines_nil, joinTerm_nil, string_append_empty]
  | cons r rest' ih =>
    intro p hsec hcur hsafe
    obtain ⟨hwfr, hcs⟩ := hsafe r (List.mem_cons_self r rest')
    obtain ⟨s1, s2, s3, s9, s4, s6⟩ := hcs
    have hstep : stepLine p r =
        { p with st.config_section := p.st.config_section ++ r ++ "\n" } := by
      rw [stepLine, hwfr.1]
      apply stepLineCore_cfgAppend p r s1 s2 s3 s4
      · intro hh
        rw [hsec] at hh
        exact absurd hh.1 (by simp)
      · exact s6
      · intro hh
        rw [hsec] at hh
        exact absurd hh.1 (by simp)
      · intro hh
        rw [hcur] at hh
        exact absurd hh.1 (by simp)
      · exact s9
      · exact hsec
    rw [parseLines_cons, hstep,
      ih _ (by exact hsec) (by exact hcur)
        (fun x hx => hsafe x (List.mem_cons_of_mem r hx)),
      joinTerm_cons]
    simp only [string_append_assoc]

theorem stepLine_blank (p : PState)
    (hsec : ¬ p.current_section = some Sect.config) : stepLine p "" = p := by
  rw [stepLine, show strim "" = "" from rfl]
  exact stepLineCore_skip p "" (by decide) (by decide) (by decide) (by decide)
    (fun hh => hh.2.1 rfl) (by decide) (fun hh => absurd hh.2 (by decide))
    (fun hh => hh.2.1 rfl) (by decide) hsec

theorem stepLine_allFunc (p : PState) :
    stepLine p "All functions:" =
      { p with current_section := some Sect.functions } := by
  rw [stepLine, show strim "All functions:" = "All functions:" from by decide]
  exact stepLineCore_funcTrigger p "All functions:" (by decide) (by decide)
    (by decide) (by decide) (fun hh => hh.2.2 (by decide)) rfl

theorem stepLine_implMark (p : PState) (c : CurFunc)
    (hc : p.current_function = some c)
    (hsec : p.current_section = some Sect.functions) :
    stepLine p "Implementation:" = p := by
  rw [stepLine,
    show strim "Implementation:" = "Implementation:" from by decide]
  refine stepLineCore_implMark p "Implementation:" c (by decide) (by decide)
    (by decide) (by decide) ?_ (by decide) ?_ hc (by decide) (by decide)
    ?_ (by decide)
  · intro hh
    rw [hsec] at hh
    exact absurd hh.1 (by decide)
  · intro hh
    exact absurd hh.2 (by decide)
  · intro hh
    exact hh.2 (by decide)

theorem stepLineCore_numDot (p : PState)
    (hsec : p.current_section = some Sect.files)
    (ds : List Char) (hdig : ∀ x ∈ ds, x.isDigit = true)
    (d0 : Char) (hd0 : ds.head? = some d0)
    (rest : List Char) (line : String)
    (hdata : line.data = ds ++ '.' :: rest) :
    stepLineCore p line =
      { p with
        st.files :=
          dinsert p.st.files (digitsToNat ds)
            ⟨digitsToNat ds, strim ⟨rest⟩, ""⟩ } := by
  obtain ⟨ds', hcons⟩ : ∃ ds', ds = d0 :: ds' := by
    cases hl : ds with
    | nil => rw [hl] at hd0; simp at hd0
    | cons a b =>
      rw [hl] at hd0
      simp only [List.head?_cons, Option.some.injEq] at hd0
      exact ⟨b, by rw [hd0]⟩
  have hd0d : d0.isDigit = true := by
    refine hdig d0 ?_
    rw [hcons]
    exact List.mem_cons_self d0 ds'
  have hhead : line.data.head? = some d0 := by
    rw [hdata, hcons, List.cons_append, List.head?_cons]
  have h1 : ¬ sStarts "Project:" line = true :=
    not_sStarts_of_head
      (show ("Project:" : String).data.head? = some 'P' from rfl) hhead
      (digit_ne_char hd0d (by decide))
  have h2 : ¬ sStarts "Description:" line = true :=
    not_sStarts_of_head
      (show ("Description:" : String).data.head? = some 'D' from rfl) hhead
      (digit_ne_char hd0d (by decide))
  have h3 : ¬ sStarts "technology:" line = true :=
    not_sStarts_of_head
      (show ("technology:" : String).data.head? = some 't' from rfl) hhead
      (digit_ne_char hd0d (by decide))
  have h4 : ¬ line = "PROJECT FILES INDEX:" :=
    ne_of_head hhead
      (show ("PROJECT FILES INDEX:" : String).data.head? = some 'P' from rfl)
      (Ne.symm (digit_ne_char hd0d (by decide)))
  have hnall : ¬ sStarts "All functions:" line = true :=
    not_sStarts_of_head
      (show ("All functions:" : String).data.head? = some 'A' from rfl) hhead
      (digit_ne_char hd0d (by decide))
  have hne_line : line ≠ "" := ne_empty_of_head hhead
  obtain ⟨ht, hdp⟩ :=
    takeWhile_digits_append ds '.' rest hdig (by decide)
  have hm : matchNumDot line.data = true := by
    unfold matchNumDot
    rw [hdata, ht, hdp]
    simp [hcons]
  have hsplit : splitOnce '.' line.data = some (ds, rest) := by
    rw [hdata]
    exact splitOnce_append_not_mem '.' ds rest
      (not_mem_digits hdig (by decide))
  exact stepLineCore_fileEntry p line ds rest h1 h2 h3 h4
    ⟨hsec, hne_line, hnall⟩ hm hsplit

theorem stepLine_fileLine (p : PState)
    (hsec : p.current_section = some Sect.files)
    (i : Int) (h0 : 0 ≤ i) (path : String) (hpath : lineWf path) :
    stepLine p (intStr i ++ ". " ++ path) =
      { p with st.files := dinsert p.st.files i ⟨i, path, ""⟩ } := by
  have hint : intStr i = natStr i.toNat := by
    unfold intStr
    rw [if_neg (by omega)]
  have hdig := natDigits_isDigit i.toNat
  have hnil := natDigits_ne_nil i.toNat
  obtain ⟨d0, ds', hcons⟩ : ∃ d0 ds', natDigits i.toNat = d0 :: ds' := by
    cases hd : natDigits i.toNat with
    | nil => exact absurd hd hnil
    | cons a b => exact ⟨a, b, rfl⟩
  have hd0 : d0.isDigit = true := by
    refine hdig d0 ?_
    rw [hcons]
    exact List.mem_cons_self d0 ds'
  have hdata : (intStr i ++ ". " ++ path).data =
      natDigits i.toNat ++ '.' :: ' ' :: path.data := by
    rw [data_append, data_append, hint]
    show natDigits i.toNat ++ (". " : String).data ++ path.data = _
    rw [List.append_assoc]
    rfl
  by_cases hp : path = ""
  · subst hp
    have hstrim : strim (intStr i ++ ". " ++ "") =
        ⟨natDigits i.toNat ++ ['.']⟩ := by
      apply ext_data
      show trimChars ((intStr i ++ ". " ++ "").data) = _
      rw [hdata]
      show trimChars (natDigits i.toNat ++ ['.', ' ']) =
        natDigits i.toNat ++ ['.']
      unfold trimChars
      rw [dropWhile_eq_self_of_head Char.isWhitespace
        (natDigits i.toNat ++ ['.', ' ']) ?_]
      · have hrev : (natDigits i.toNat ++ ['.', ' ']).reverse =
            ' ' :: '.' :: (natDigits i.toNat).reverse := by
          rw [List.reverse_append]
          rfl
        rw [hrev, List.dropWhile_cons_of_pos (by decide),
          List.dropWhile_cons_of_neg (by decide), List.reverse_cons,
          List.reverse_reverse]
      · intro c hc
        rw [hcons, List.cons_append, List.head?_cons] at hc
        rw [← Option.some.inj hc]
        exact isDigit_not_ws hd0
    rw [stepLine, hstrim,
      stepLineCore_numDot p hsec (natDigits i.toNat) hdig d0
        (by rw [hcons]; rfl) [] _ rfl,
      digitsToNat_natDigits, Int.toNat_of_nonneg h0]
    rfl
  · have hstrim : strim (intStr i ++ ". " ++ path) =
        intStr i ++ ". " ++ path := by
      apply ext_data
      show trimChars ((intStr i ++ ". " ++ path).data) =
        (intStr i ++ ". " ++ path).data
      rw [hdata]
      apply trimChars_eq_self_of_clean
      · intro c hc
        rw [hcons, List.cons_append, List.head?_cons] at hc
        rw [← Option.some.inj hc]
        exact isDigit_not_ws hd0
      · intro c hc
        rw [show ('.' :: ' ' :: path.data) = ['.', ' '] ++ path.data
            from rfl,
          ← List.append_assoc,
          List.getLast?_append_of_ne_nil _ (data_ne_nil hp)] at hc
        have hps : trimChars path.data = path.data :=
          congrArg String.data hpath.1
        rw [← hps] at hc
        exact trimChars_getLast_not_ws path.data c hc
    rw [stepLine, hstrim,
      stepLineCore_numDot p hsec (natDigits i.toNat) hdig d0
        (by rw [hcons]; rfl) (' ' :: path.data) _ hdata,
      digitsToNat_natDigits, Int.toNat_of_nonneg h0,
      strim_cons_ws ' ' (by decide) hpath.1]

theorem stepLineCore_fDot (p : PState)
    (hsec : p.current_section = some Sect.functions)
    (ds : List Char) (hdig : ∀ x ∈ ds, x.isDigit = true)
    (d0 : Char) (hd0 : ds.head? = some d0)
    (rest : List Char) (line : String)
    (hdata : line.data = ds ++ 'F' :: '.' :: rest) :
    stepLineCore p line =
      { p with
        st.functions := commitCur p.st.functions p.current_function
        current_function :=
          some ⟨strim ⟨ds ++ ['F']⟩, strim ⟨rest⟩, "", [], []⟩ } := by
  obtain ⟨ds', hcons⟩ : ∃ ds', ds = d0 :: ds' := by
    cases hl : ds with
    | nil => rw [hl] at hd0; simp at hd0
    | cons a b =>
      rw [hl] at hd0
      simp only [List.head?_cons, Option.some.injEq] at hd0
      exact ⟨b, by rw [hd0]⟩
  have hd0d : d0.isDigit = true := by
    refine hdig d0 ?_
    rw [hcons]
    exact List.mem_cons_self d0 ds'
  have hhead : line.data.head? = some d0 := by
    rw [hdata, hcons, List.cons_append, List.head?_cons]
  have h1 : ¬ sStarts "Project:" line = true :=
    not_sStarts_of_head
      (show ("Project:" : String).data.head? = some 'P' from rfl) hhead
      (digit_ne_char hd0d (by decide))
  have h2 : ¬ sStarts "Description:" line = true :=
    not_sStarts_of_head
      (show ("Description:" : String).data.head? = some 'D' from rfl) hhead
      (digit_ne_char hd0d (by decide))
  have h3 : ¬ sStarts "technology:" line = true :=
    not_sStarts_of_head
      (show ("technology:" : String).data.head? = some 't' from rfl) hhead
      (digit_ne_char hd0d (by decide))
  have h4 : ¬ line = "PROJECT FILES INDEX:" :=
    ne_of_head hhead
      (show ("PROJECT FILES INDEX:" : String).data.head? = some 'P' from rfl)
      (Ne.symm (digit_ne_char hd0d (by decide)))
  have h6 : ¬ line = "All functions:" :=
    ne_of_head hhead
      (show ("All functions:" : String).data.head? = some 'A' from rfl)
      (Ne.symm (digit_ne_char hd0d (by decide)))
  have h5 : ¬ (p.current_section = some Sect.files ∧ line ≠ "" ∧
      ¬ sStarts "All functions:" line = true) := by
    intro hh
    rw [hsec] at hh
    exact absurd hh.1 (by decide)
  obtain ⟨ht, hdp⟩ :=
    takeWhile_digits_append ds 'F' ('.' :: rest) hdig (by decide)
  have hm : matchFDot line.data = true := by
    unfold matchFDot
    rw [hdata, ht, hdp]
    simp [hcons]
  have hsplit : splitOnce '.' line.data = some (ds ++ ['F'], rest) := by
    rw [hdata,
      show ds ++ 'F' :: '.' :: rest = (ds ++ ['F']) ++ '.' :: rest from by
        rw [List.append_assoc]
        rfl]
    refine splitOnce_append_not_mem '.' (ds ++ ['F']) rest ?_
    intro hmem
    rcases List.mem_append.1 hmem with hmem | hmem
    · exact not_mem_digits hdig (by decide) hmem
    · simp at hmem
  exact stepLineCore_funcHeader p line (ds ++ ['F']) rest h1 h2 h3 h4 h5 h6
    ⟨hsec, hm⟩ hsplit

theorem stepLine_funcHeaderLine (p : PState)
    (hsec : p.current_section = some Sect.functions)
    (f : Function) (hid : isIdForm f.id) (hname : lineWf f.name) :
    stepLine p (f.id ++ ". " ++ f.name) =
      { p with
        st.functions := commitCur p.st.functions p.current_function
        current_function := some ⟨f.id, f.name, "", [], []⟩ } := by
  obtain ⟨ds, hne, hdig, hiddata⟩ := hid
  obtain ⟨d0, ds', hcons⟩ : ∃ d0 ds', ds = d0 :: ds' := by
    cases hd : ds with
    | nil => exact absurd hd hne
    | cons a b => exact ⟨a, b, rfl⟩
  have hd0 : d0.isDigit = true := by
    refine hdig d0 ?_
    rw [hcons]
    exact List.mem_cons_self d0 ds'
  have hidstr : (⟨ds ++ ['F']⟩ : String) = f.id := ext_data hiddata.symm
  have hdata : (f.id ++ ". " ++ f.name).data =
      ds ++ 'F' :: '.' :: ' ' :: f.name.data := by
    rw [data_append, data_append, hiddata, List.append_assoc,
      List.append_assoc]
    rfl
  by_cases hn : f.name = ""
  · have hstrim : strim (f.id ++ ". " ++ f.name) =
        ⟨ds ++ ['F', '.']⟩ := by
      apply ext_data
      show trimChars ((f.id ++ ". " ++ f.name).data) = _
      rw [hdata, hn]
      show trimChars (ds ++ ['F', '.', ' ']) = ds ++ ['F', '.']
      unfold trimChars
      rw [dropWhile_eq_self_of_head Char.isWhitespace
        (ds ++ ['F', '.', ' ']) ?_]
      · have hrev : (ds ++ ['F', '.', ' ']).reverse =
            ' ' :: '.' :: 'F' :: ds.reverse := by
          rw [List.reverse_append]
          rfl
        rw [hrev, List.dropWhile_cons_of_pos (by decide),
          List.dropWhile_cons_of_neg (by decide), List.reverse_cons,
          List.reverse_cons, List.reverse_reverse, List.append_assoc]
        rfl
      · intro c hc
        rw [hcons, List.cons_append, List.head?_cons] at hc
        rw [← Option.some.inj hc]
        exact isDigit_not_ws hd0
    rw [stepLine, hstrim,
      stepLineCore_fDot p hsec ds hdig d0 (by rw [hcons]; rfl) [] _ rfl,
      strim_of_digits_F ds hdig, hidstr, hn]
    rfl
  · have hstrim : strim (f.id ++ ". " ++ f.name) =
        f.id ++ ". " ++ f.name := by
      apply ext_data
      show trimChars ((f.id ++ ". " ++ f.name).data) =
        (f.id ++ ". " ++ f.name).data
      rw [hdata]
      apply trimChars_eq_self_of_clean
      · intro c hc
        rw [hcons, List.cons_append, List.head?_cons] at hc
        rw [← Option.some.inj hc]
        exact isDigit_not_ws hd0
      · intro c hc
        rw [show ('F' :: '.' :: ' ' :: f.name.data) =
            ['F', '.', ' '] ++ f.name.data from rfl,
          ← List.append_assoc,
          List.getLast?_append_of_ne_nil _ (data_ne_nil hn)] at hc
        have hps : trimChars f.name.data = f.name.data :=
          congrArg String.data hname.1
        rw [← hps] at hc
        exact trimChars_getLast_not_ws f.name.data c hc
    rw [stepLine, hstrim,
      stepLineCore_fDot p hsec ds hdig d0 (by rw [hcons]; rfl)
        (' ' :: f.name.data) _ hdata,
      strim_of_digits_F ds hdig, hidstr,
      strim_cons_ws ' ' (by decide) hname.1]

theorem parseLines_one (p : PState) (x : String) :
    parseLines p [x] = stepLine p x := rfl

theorem sStarts_append (p s : String) : sStarts p (p ++ s) = true :=
  sStarts_iff.2 ⟨s.data, data_append p s⟩

theorem head_append_of_ne {s t : String} {c : Char}
    (h : s.data.head? = some c) : (s ++ t).data.head? = some c := by
  rw [data_append]
  cases hd : s.data with
  | nil => rw [hd] at h; simp at h
  | cons a r =>
    rw [hd] at h
    rw [List.head?_cons] at h
    rw [List.cons_append, List.head?_cons]
    exact h

theorem afterColon_label (pre s : String) (u : List Char)
    (hdata : pre.data = u ++ [':']) (hmem : ':' ∉ u) :
    afterColon (pre ++ s) = s := by
  unfold afterColon
  have h1 : (pre ++ s).data = u ++ ':' :: s.data := by
    rw [data_append, hdata, List.append_assoc]
    rfl
  rw [h1, splitOnce_append_not_mem ':' u s.data hmem]

theorem stepLine_descLine (p : PState) (c : CurFunc)
    (hc : p.current_function = some c) (hcd : c.description = "")
    (hsec : p.current_section = some Sect.functions)
    (d : String) (hdne : d ≠ "") (hdwf : lineWf d) (hds : contentSafe d) :
    stepLine p d =
      { p with current_function := some ({ c with description := d }) } := by
  obtain ⟨c1, c2, c3, c4, c5, c6, c7⟩ := hds
  rw [stepLine, hdwf.1]
  refine stepLineCore_descLine p d c c1 c2 c3 c5 ?_ c6 ?_ hc hdne c7 ⟨hcd, c4⟩
  · intro hh
    rw [hsec] at hh
    exact absurd hh.1 (by decide)
  · intro hh
    exact c7 hh.2

/-- A description-position line (blank or not) read while the fresh
accumulator still has an empty description leaves the accumulator with
that line as description (a blank line is skipped, which has the same
effect since the description was empty). -/
theorem stepLine_descUnified (p : PState) (c : CurFunc)
    (hc : p.current_function = some c) (hcd : c.description = "")
    (hsec : p.current_section = some Sect.functions)
    (d : String) (hdwf : lineWf d) (hds : contentSafe d) :
    stepLine p d =
      { p with current_function := some ({ c with description := d }) } := by
  by_cases hdne : d = ""
  · subst hdne
    rw [stepLine_blank p (by rw [hsec]; decide)]
    have hcc : ({ c with description := "" } : CurFunc) = c := by
      rw [← hcd]
    rw [hcc]
    show p = { p with current_function := some c }
    rw [← hc]
  · exact stepLine_descLine p c hc hcd hsec d hdne hdwf hds

theorem parseLines_implLines (ls : List String) :
    ∀ (p : PState) (c : CurFunc), (∀ l ∈ ls, implLineWf l) →
    p.current_section = some Sect.functions →
    p.current_function = some c → c.description ≠ "" →
    parseLines p ls =
      { p with
        current_function :=
          some ({ c with
                  files := c.files ++ ls.flatMap (fun l => refsOfLine l)
                  implementation := c.implementation ++ ls }) } := by
  induction ls with
  | nil =>
    intro p c _ _ hc _
    rw [parseLines_nil, List.flatMap_nil, List.append_nil, List.append_nil]
    show p = { p with current_function := some c }
    rw [← hc]
  | cons l ls' ih =>
    intro p c hwf hsec hc hcd
    obtain ⟨hlne, hlwf, hlcs⟩ := hwf l (List.mem_cons_self l ls')
    obtain ⟨c1, c2, c3, c4, c5, c6, c7⟩ := hlcs
    rw [parseLines_cons]
    have hrl : refsOfLine l =
        if sStarts "File " l = true then fileRefs l.data else [] := rfl
    by_cases hfile : sStarts "File " l = true
    · have hstep : stepLine p l =
          { p with
            current_function :=
              some ({ c with
                      files := c.files ++ fileRefs l.data
                      implementation := c.implementation ++ [l] }) } := by
        rw [stepLine, hlwf.1]
        refine stepLineCore_fileLine p l c c1 c2 c3 c5 ?_ c6 ?_ hc hlne c7
          ?_ c4 hfile
        · intro hh
          rw [hsec] at hh
          exact absurd hh.1 (by decide)
        · intro hh
          exact c7 hh.2
        · intro hh
          exact hcd hh.1
      rw [hstep,
        ih { p with
              current_function :=
                some ({ c with
                        files := c.files ++ fileRefs l.data
                        implementation := c.implementation ++ [l] }) }
          ({ c with
             files := c.files ++ fileRefs l.data
             implementation := c.implementation ++ [l] })
          (fun x hx => hwf x (List.mem_cons_of_mem l hx))
          (by exact hsec) rfl (by exact hcd)]
      dsimp only
      rw [List.flatMap_cons, hrl, if_pos hfile,
        List.append_assoc c.files (fileRefs l.data)
          (ls'.flatMap (fun x => refsOfLine x)),
        List.append_assoc c.implementation [l] ls']
      rfl
    · have hstep : stepLine p l =
          { p with
            current_function :=
              some ({ c with
                      implementation := c.implementation ++ [l] }) } := by
        rw [stepLine, hlwf.1]
        refine stepLineCore_otherLine p l c c1 c2 c3 c5 ?_ c6 ?_ hc hlne c7
          ?_ c4 hfile
        · intro hh
          rw [hsec] at hh
          exact absurd hh.1 (by decide)
        · intro hh
          exact c7 hh.2
        · intro hh
          exact hcd hh.1
      rw [hstep,
        ih { p with
              current_function :=
                some ({ c with
                        implementation := c.implementation ++ [l] }) }
          ({ c with implementation := c.implementation ++ [l] })
          (fun x hx => hwf x (List.mem_cons_of_mem l hx))
          (by exact hsec) rfl (by exact hcd)]
      dsimp only
      rw [List.flatMap_cons, hrl, if_neg hfile,
        List.append_assoc c.implementation [l] ls']
      rfl

theorem parseLines_implChunk (p : PState) (f : Function)
    (hc : p.current_function =
      some (⟨f.id, f.name, f.description, [], []⟩ : CurFunc))
    (hsec : p.current_section = some Sect.functions)
    (hwf : wfFunction f) :
    parseLines p (splitLines f.implementation) =
      { p with current_function := some (toCur f) } := by
  by_cases himpl : f.implementation = ""
  · rw [himpl, show splitLines "" = [""] from rfl, parseLines_one,
      stepLine_blank p (by rw [hsec]; decide)]
    have h1 : implLines f = [] := by
      unfold implLines
      rw [if_pos himpl]
    have h2 : f.files_involved = [] := by
      rw [hwf.2.2.2.2.2.1, h1]
      rfl
    rw [show toCur f = ⟨f.id, f.name, f.description, implLines f,
        f.files_involved⟩ from rfl, h1, h2]
    show p =
      { p with
        current_function :=
          some (⟨f.id, f.name, f.description, [], []⟩ : CurFunc) }
    rw [← hc]
  · have hlines : splitLines f.implementation = implLines f := by
      unfold implLines
      rw [if_neg himpl]
    rw [hlines,
      parseLines_implLines (implLines f) p
        (⟨f.id, f.name, f.description, [], []⟩ : CurFunc)
        hwf.2.2.2.2.1 hsec hc (hwf.2.2.2.2.2.2.1 himpl)]
    dsimp only
    rw [List.nil_append, List.nil_append, ← hwf.2.2.2.2.2.1]
    rfl

theorem parseLines_block (kv : String × Function)
    (hid : kv.1 = kv.2.id) (hwf : wfFunction kv.2)
    (p : PState) (hsec : p.current_section = some Sect.functions) :
    parseLines p (blockLines kv) =
      { p with
        st.functions := commitCur p.st.functions p.current_function
        current_function := some (toCur kv.2) } := by
  rw [show blockLines kv =
      [kv.1 ++ ". " ++ kv.2.name] ++ ([kv.2.description] ++
        (["Implementation:"] ++
          (splitLines kv.2.implementation ++ [""]))) from rfl,
    parseLines_append, parseLines_append, parseLines_append,
    parseLines_append]
  simp only [parseLines_one]
  rw [hid, stepLine_funcHeaderLine p hsec kv.2 hwf.1 hwf.2.1]
  rw [stepLine_descUnified _ ⟨kv.2.id, kv.2.name, "", [], []⟩ rfl rfl
    (by exact hsec) kv.2.description hwf.2.2.1 hwf.2.2.2.1]
  rw [stepLine_implMark _
    ({ (⟨kv.2.id, kv.2.name, "", [], []⟩ : CurFunc) with
       description := kv.2.description }) rfl (by exact hsec)]
  rw [parseLines_implChunk _ kv.2 rfl (by exact hsec) hwf]
  rw [stepLine_blank _
    (by show ¬ p.current_section = some Sect.config; rw [hsec]; decide)]

theorem parseLines_blocks (entries : List (String × Function)) :
    ∀ (p : PState),
    (∀ e ∈ entries, e.1 = e.2.id ∧ wfFunction e.2) →
    p.current_section = some Sect.functions →
    (parseLines p (entries.flatMap blockLines)).current_section =
      some Sect.functions ∧
    (parseLines p (entries.flatMap blockLines)).st.project_name =
      p.st.project_name ∧
    (parseLines p (entries.flatMap blockLines)).st.project_description =
      p.st.project_description ∧
    (parseLines p (entries.flatMap blockLines)).st.technology =
      p.st.technology ∧
    (parseLines p (entries.flatMap blockLines)).st.files = p.st.files ∧
    (parseLines p (entries.flatMap blockLines)).st.config_section =
      p.st.config_section ∧
    commitCur (parseLines p (entries.flatMap blockLines)).st.functions
        (parseLines p (entries.flatMap blockLines)).current_function =
      entries.foldl (fun d e => dinsert d e.1 e.2)
        (commitCur p.st.functions p.current_function) := by
  induction entries with
  | nil =>
    intro p _ hsec
    rw [List.flatMap_nil, parseLines_nil, List.foldl_nil]
    exact ⟨hsec, rfl, rfl, rfl, rfl, rfl, rfl⟩
  | cons e rest ih =>
    intro p hwf hsec
    have hmem := List.mem_cons_self e rest
    rw [List.flatMap_cons, parseLines_append,
      parseLines_block e (hwf e hmem).1 (hwf e hmem).2 p hsec]
    obtain ⟨q1, q2, q3, q4, q5, q6, q7⟩ :=
      ih { p with
            st.functions := commitCur p.st.functions p.current_function
            current_function := some (toCur e.2) }
        (fun x hx => hwf x (List.mem_cons_of_mem e hx)) (by exact hsec)
    refine ⟨q1, ?_, ?_, ?_, ?_, ?_, ?_⟩
    · rw [q2]
    · rw [q3]
    · rw [q4]
    · rw [q5]
    · rw [q6]
    · rw [q7, List.foldl_cons]
      congr 1
      show commitCur (commitCur p.st.functions p.current_function)
          (some (toCur e.2)) =
        dinsert (commitCur p.st.functions p.current_function) e.1 e.2
      show dinsert (commitCur p.st.functions p.current_function)
          (toCur e.2).id
          ⟨(toCur e.2).id, (toCur e.2).name, (toCur e.2).description,
            joinNL (toCur e.2).implementation, (toCur e.2).files⟩ = _
      dsimp only [toCur]
      rw [(hwf e hmem).2.2.2.2.2.2.2.2, (hwf e hmem).1]

theorem parseLines_headers (m : TaskFlowState)
    (h1 : lineWf m.project_name) (h2 : lineWf m.project_description)
    (h3 : lineWf m.technology) :
    parseLines initPState
      ["Project:" ++ m.project_name,
        "Description:" ++ m.project_description,
        "technology:" ++ m.technology, "PROJECT FILES INDEX:"] =
      { st := { project_name := m.project_name
                project_description := m.project_description
                technology := m.technology }
        current_section := some Sect.files
        current_function := none } := by
  show stepLine (stepLine (stepLine (stepLine initPState
      ("Project:" ++ m.project_name))
      ("Description:" ++ m.project_description))
      ("technology:" ++ m.technology)) "PROJECT FILES INDEX:" = _
  have hd1 : ("Project:" ++ m.project_name).data.head? = some 'P' :=
    head_append_of_ne
      (show ("Project:" : String).data.head? = some 'P' from rfl)
  have hd2 : ("Description:" ++ m.project_description).data.head? =
      some 'D' :=
    head_append_of_ne
      (show ("Description:" : String).data.head? = some 'D' from rfl)
  have hd3 : ("technology:" ++ m.technology).data.head? = some 't' :=
    head_append_of_ne
      (show ("technology:" : String).data.head? = some 't' from rfl)
  have e1 : stepLine initPState ("Project:" ++ m.project_name) =
      { initPState with st.project_name := m.project_name } := by
    rw [stepLine,
      strim_label_append "Project:" m.project_name 'P' ':' rfl (by decide)
        (by decide) (by decide) h1.1,
      stepLineCore_header_P _ _ (sStarts_append "Project:" m.project_name),
      afterColon_label "Project:" m.project_name "Project".data rfl
        (by decide), h1.1]
  have e2 : stepLine { initPState with st.project_name := m.project_name }
      ("Description:" ++ m.project_description) =
      { initPState with
        st.project_name := m.project_name
        st.project_description := m.project_description } := by
    rw [stepLine,
      strim_label_append "Description:" m.project_description 'D' ':' rfl
        (by decide) (by decide) (by decide) h2.1,
      stepLineCore_header_D _ _
        (not_sStarts_of_head
          (show ("Project:" : String).data.head? = some 'P' from rfl) hd2
          (by decide))
        (sStarts_append "Description:" m.project_description),
      afterColon_label "Description:" m.project_description
        "Description".data rfl (by decide), h2.1]
  have e3 : stepLine
      { initPState with
        st.project_name := m.project_name
        st.project_description := m.project_description }
      ("technology:" ++ m.technology) =
      { initPState with
        st.project_name := m.project_name
        st.project_description := m.project_description
        st.technology := m.technology } := by
    rw [stepLine,
      strim_label_append "technology:" m.technology 't' ':' rfl
        (by decide) (by decide) (by decide) h3.1,
      stepLineCore_header_T _ _
        (not_sStarts_of_head
          (show ("Project:" : String).data.head? = some 'P' from rfl) hd3
          (by decide))
        (not_sStarts_of_head
          (show ("Description:" : String).data.head? = some 'D' from rfl)
          hd3 (by decide))
        (sStarts_append "technology:" m.technology),
      afterColon_label "technology:" m.technology "technology".data rfl
        (by decide), h3.1]
  have e4 : stepLine
      { initPState with
        st.project_name := m.project_name
        st.project_description := m.project_description
        st.technology := m.technology }
      "PROJECT FILES INDEX:" =
      { initPState with
        st.project_name := m.project_name
        st.project_description := m.project_description
        st.technology := m.technology
        current_section := some Sect.files } := by
    rw [stepLine,
      show strim "PROJECT FILES INDEX:" = "PROJECT FILES INDEX:"
        from by decide,
      stepLineCore_filesTrigger _ _ (by decide) (by decide) (by decide) rfl]
  rw [e1, e2, e3, e4]
  rfl

theorem flatMap_congr_mem {α β : Type} (l : List α) (f g : α → List β)
    (h : ∀ a ∈ l, f a = g a) : l.flatMap f = l.flatMap g := by
  induction l with
  | nil => rfl
  | cons a t ih =>
    rw [List.flatMap_cons, List.flatMap_cons, h a (List.mem_cons_self a t),
      ih (fun x hx => h x (List.mem_cons_of_mem a hx))]

theorem dropTrailBlank_subset (ls : List String) :
    ∀ l ∈ dropTrailBlank ls, l ∈ ls := by
  intro l hl
  unfold dropTrailBlank at hl
  rw [List.mem_reverse] at hl
  exact List.mem_reverse.1 ((List.dropWhile_sublist _).subset hl)

theorem label_no_nl (pre s : String) (hpre : ('\n' : Char) ∉ pre.data)
    (hs : ('\n' : Char) ∉ s.data) : ('\n' : Char) ∉ (pre ++ s).data := by
  rw [data_append]
  intro hmem
  rcases List.mem_append.1 hmem with h | h
  · exact hpre h
  · exact hs h

theorem intStr_no_nl (i : Int) (h0 : 0 ≤ i) :
    ('\n' : Char) ∉ (intStr i).data := by
  rw [show intStr i = natStr i.toNat from by
    unfold intStr
    rw [if_neg (by omega)]]
  intro hmem
  exact absurd (natDigits_isDigit i.toNat '\n' hmem) (by decide)

theorem idForm_no_nl {s : String} (hid : isIdForm s) :
    ('\n' : Char) ∉ s.data := by
  obtain ⟨ds, hne, hdig, hdata⟩ := hid
  rw [hdata]
  intro hmem
  rcases List.mem_append.1 hmem with h | h
  · exact absurd (hdig '\n' h) (by decide)
  · simp at h

theorem fileLine_no_nl (i : Int) (h0 : 0 ≤ i) {path : String}
    (hp : ('\n' : Char) ∉ path.data) :
    ('\n' : Char) ∉ (intStr i ++ ". " ++ path).data :=
  label_no_nl _ _ (label_no_nl _ _ (intStr_no_nl i h0) (by decide)) hp

theorem funcHeader_no_nl {s name : String} (hid : isIdForm s)
    (hn : ('\n' : Char) ∉ name.data) :
    ('\n' : Char) ∉ (s ++ ". " ++ name).data :=
  label_no_nl _ _ (label_no_nl _ _ (idForm_no_nl hid) (by decide)) hn

theorem parseLines_fileLines (entries : List (Int × ProjectFile)) :
    ∀ (p : PState), (∀ e ∈ entries, wfFile e.1 e.2) →
    p.current_section = some Sect.files →
    parseLines p (entries.map (fun kv => intStr kv.1 ++ ". " ++ kv.2.path)) =
      { p with
        st.files :=
          entries.foldl (fun d e => dinsert d e.1 e.2) p.st.files } := by
  induction entries with
  | nil =>
    intro p _ _
    rw [List.map_nil, parseLines_nil, List.foldl_nil]
  | cons e rest ih =>
    intro p hwf hsec
    obtain ⟨h0, hidx, hpath, hdesc⟩ := hwf e (List.mem_cons_self e rest)
    have he : (⟨e.1, e.2.path, ""⟩ : ProjectFile) = e.2 := by
      rw [← hidx, ← hdesc]
    rw [List.map_cons, parseLines_cons,
      stepLine_fileLine p hsec e.1 h0 e.2.path hpath, he,
      ih { p with st.files := dinsert p.st.files e.1 e.2 }
        (fun x hx => hwf x (List.mem_cons_of_mem e hx)) (by exact hsec),
      List.foldl_cons]

theorem parseLines_fileLines_clean (entries : List (Int × ProjectFile))
    (p : PState) (hwf : ∀ e ∈ entries, wfFile e.1 e.2)
    (hsec : p.current_section = some Sect.files)
    (hnd : (entries.map Prod.fst).Nodup)
    (hbase : p.st.files = []) :
    parseLines p (entries.map (fun kv => intStr kv.1 ++ ". " ++ kv.2.path)) =
      { p with st.files := entries } := by
  rw [parseLines_fileLines entries p hwf hsec, hbase,
    foldl_dinsert_fresh entries [] hnd (fun e _ => rfl)]
  rfl

theorem stepLine_cfgTriggerLine (p : PState)
    (hsec : p.current_section = some Sect.functions)
    (hcur : p.current_function = none)
    (l0 : String) (hl0 : lineWf l0)
    (htrig : sStarts "key projct configuration:" l0 = true) :
    stepLine p l0 =
      { p with
        current_section := some Sect.config
        st.config_section := l0 ++ "\n" } := by
  rw [stepLine, hl0.1]
  have hhead : l0.data.head? = some 'k' :=
    sStarts_head_eq htrig
      (show ("key projct configuration:" : String).data.head? = some 'k'
        from rfl)
  refine stepLineCore_cfgTrigger p l0
    (not_sStarts_of_head
      (show ("Project:" : String).data.head? = some 'P' from rfl) hhead
      (by decide))
    (not_sStarts_of_head
      (show ("Description:" : String).data.head? = some 'D' from rfl) hhead
      (by decide))
    (not_sStarts_of_head
      (show ("technology:" : String).data.head? = some 't' from rfl) hhead
      (by decide))
    (ne_of_head hhead
      (show ("PROJECT FILES INDEX:" : String).data.head? = some 'P' from rfl)
      (by decide))
    ?_
    (ne_of_head hhead
      (show ("All functions:" : String).data.head? = some 'A' from rfl)
      (by decide))
    ?_ ?_ htrig
  · intro hh
    rw [hsec] at hh
    exact absurd hh.1 (by decide)
  · intro hh
    have hmf := matchFDot_head_not hhead (by decide)
    rw [hmf] at hh
    exact Bool.noConfusion hh.2
  · intro hh
    rw [hcur] at hh
    exact absurd hh.1 (by simp)

/-- The serialize-then-reparse computation: on a well-formed model whose
config blob and function collection are not both nonempty, reparsing the
generated text reproduces the file collection and the function
collection up to the serializer's sort order. -/
theorem reparse_generate (m : TaskFlowState) (hm : wfModel m)
    (hsep : m.config_section = "" ∨ m.functions = []) :
    (parseContent (generateContent m)).files =
      sortByKey (fun kv => kv.1) m.files ∧
    (parseContent (generateContent m)).functions =
      sortByKey (fun kv => (idNum kv.1 : Int)) m.functions := by
  obtain ⟨w1, w2, w3, w4, w5, w6, w7, w8⟩ := hm
  have hsfwf : ∀ e ∈ sortByKey (fun kv => kv.1) m.files, wfFile e.1 e.2 :=
    fun e he => w4 e ((sortByKey_perm (fun kv => kv.1) m.files).mem_iff.1 he)
  have hndf : ((sortByKey (fun kv => kv.1) m.files).map Prod.fst).Nodup :=
    (((sortByKey_perm (fun kv => kv.1) m.files).map Prod.fst).nodup_iff).2 w5
  have hfnwf : ∀ e ∈ sortByKey (fun kv => (idNum kv.1 : Int)) m.functions,
      e.1 = e.2.id ∧ wfFunction e.2 :=
    fun e he => w6 e
      ((sortByKey_perm (fun kv => (idNum kv.1 : Int)) m.functions).mem_iff.1
        he)
  have hndfn : ((sortByKey (fun kv => (idNum kv.1 : Int))
      m.functions).map Prod.fst).Nodup :=
    (((sortByKey_perm (fun kv => (idNum kv.1 : Int))
      m.functions).map Prod.fst).nodup_iff).2 w7
  have hgen : generateContent m = joinNL
      ((["Project:" ++ m.project_name,
        "Description:" ++ m.project_description,
        "technology:" ++ m.technology, "PROJECT FILES INDEX:"] ++
       (sortByKey (fun kv => kv.1) m.files).map
         (fun kv => intStr kv.1 ++ ". " ++ kv.2.path) ++ [""] ++
       ["All functions:"] ++
       (sortByKey (fun kv => (idNum kv.1 : Int)) m.functions).flatMap
         (fun kv =>
           [kv.1 ++ ". " ++ kv.2.name, kv.2.description, "Implementation:",
            kv.2.implementation, ""]) ++
       [strim m.config_section])) := rfl
  have hH4 : (["Project:" ++ m.project_name,
      "Description:" ++ m.project_description,
      "technology:" ++ m.technology,
      "PROJECT FILES INDEX:"] : List String).flatMap splitLines =
      ["Project:" ++ m.project_name,
        "Description:" ++ m.project_description,
        "technology:" ++ m.technology, "PROJECT FILES INDEX:"] := by
    apply flatMap_splitLines_id
    intro x hx
    fin_cases hx
    · exact label_no_nl "Project:" m.project_name (by decide) w1.2
    · exact label_no_nl "Description:" m.project_description (by decide) w2.2
    · exact label_no_nl "technology:" m.technology (by decide) w3.2
    · decide
  have hFL : ((sortByKey (fun kv => kv.1) m.files).map
      (fun kv => intStr kv.1 ++ ". " ++ kv.2.path)).flatMap splitLines =
      (sortByKey (fun kv => kv.1) m.files).map
        (fun kv => intStr kv.1 ++ ". " ++ kv.2.path) := by
    apply flatMap_splitLines_id
    intro x hx
    rcases List.mem_map.1 hx with ⟨kv, hkv, rfl⟩
    have hw := hsfwf kv hkv
    exact fileLine_no_nl kv.1 hw.1 hw.2.2.1.2
  have hFNL : ((sortByKey (fun kv => (idNum kv.1 : Int))
        m.functions).flatMap
      (fun kv =>
        [kv.1 ++ ". " ++ kv.2.name, kv.2.description, "Implementation:",
         kv.2.implementation, ""])).flatMap splitLines =
      (sortByKey (fun kv => (idNum kv.1 : Int)) m.functions).flatMap
        blockLines := by
    rw [List.flatMap_assoc]
    apply flatMap_congr_mem
    intro kv hkv
    obtain ⟨hkid, hkwf⟩ := hfnwf kv hkv
    show splitLines (kv.1 ++ ". " ++ kv.2.name) ++
        (splitLines kv.2.description ++ (splitLines "Implementation:" ++
          (splitLines kv.2.implementation ++ (splitLines "" ++ [])))) =
      blockLines kv
    rw [splitLines_single
        (by rw [hkid]; exact funcHeader_no_nl hkwf.1 hkwf.2.1.2),
      splitLines_single hkwf.2.2.1.2,
      splitLines_single (by decide),
      show splitLines "" = [""] from rfl]
    rfl
  have hCFG : ([strim m.config_section] : List String).flatMap splitLines =
      splitLines (strim m.config_section) := by
    rw [List.flatMap_cons, List.flatMap_nil, List.append_nil]
  have hL : splitLines (generateContent m) =
      ["Project:" ++ m.project_name,
        "Description:" ++ m.project_description,
        "technology:" ++ m.technology, "PROJECT FILES INDEX:"] ++
      (sortByKey (fun kv => kv.1) m.files).map
        (fun kv => intStr kv.1 ++ ". " ++ kv.2.path) ++ [""] ++
      ["All functions:"] ++
      (sortByKey (fun kv => (idNum kv.1 : Int)) m.functions).flatMap
        blockLines ++
      splitLines (strim m.config_section) := by
    rw [hgen, splitLines_joinNL_flat _ (by simp), List.flatMap_append,
      List.flatMap_append, List.flatMap_append, List.flatMap_append,
      List.flatMap_append, hH4, hFL, hFNL, hCFG,
      show ([""] : List String).flatMap splitLines = [""] from rfl,
      show (["All functions:"] : List String).flatMap splitLines =
        ["All functions:"] from rfl]
  unfold parseContent
  rw [hL, parseLines_append, parseLines_append, parseLines_append,
    parseLines_append, parseLines_append,
    parseLines_headers m w1 w2 w3]
  set Q1 : PState :=
    { st := { project_name := m.project_name
              project_description := m.project_description
              technology := m.technology }
      current_section := some Sect.files
      current_function := none } with hQ1
  rw [parseLines_fileLines_clean (sortByKey (fun kv => kv.1) m.files) Q1
    hsfwf (by rw [hQ1]) hndf (by rw [hQ1])]
  set Q2 : PState :=
    { Q1 with st.files := sortByKey (fun kv => kv.1) m.files } with hQ2
  rw [parseLines_one Q2 "", stepLine_blank Q2 (by rw [hQ2, hQ1]; simp),
    parseLines_one Q2 "All functions:", stepLine_allFunc Q2]
  set Q4 : PState :=
    { Q2 with current_section := some Sect.functions } with hQ4
  obtain ⟨b1, b2, b3, b4, b5, b6, b7⟩ :=
    parseLines_blocks (sortByKey (fun kv => (idNum kv.1 : Int)) m.functions)
      Q4 hfnwf (by rw [hQ4])
  by_cases hcfg : m.config_section = ""
  · rw [hcfg, show splitLines (strim "") = [""] from rfl, parseLines_one,
      stepLine_blank
        (parseLines Q4
          ((sortByKey (fun kv => (idNum kv.1 : Int)) m.functions).flatMap
            blockLines))
        (by rw [b1]; decide)]
    constructor
    · show (parseLines Q4
          ((sortByKey (fun kv => (idNum kv.1 : Int)) m.functions).flatMap
            blockLines)).st.files = sortByKey (fun kv => kv.1) m.files
      rw [b5, hQ4, hQ2]
    · show commitCur
          (parseLines Q4
            ((sortByKey (fun kv => (idNum kv.1 : Int)) m.functions).flatMap
              blockLines)).st.functions
          (parseLines Q4
            ((sortByKey (fun kv => (idNum kv.1 : Int)) m.functions).flatMap
              blockLines)).current_function =
        sortByKey (fun kv => (idNum kv.1 : Int)) m.functions
      rw [b7]
      have hbase : commitCur Q4.st.functions Q4.current_function = [] := by
        rw [hQ4, hQ2, hQ1]
        rfl
      rw [hbase,
        foldl_dinsert_fresh (sortByKey (fun kv => (idNum kv.1 : Int))
          m.functions) [] hndfn (fun e _ => rfl)]
      rfl
  · have hfn : m.functions = [] := hsep.resolve_left hcfg
    have hsfn : sortByKey (fun kv => (idNum kv.1 : Int)) m.functions = [] := by
      rw [hfn]
      rfl
    rw [hsfn, List.flatMap_nil, parseLines_nil]
    rcases w8 with hc0 | ⟨l0, ls, hcfgeq, htrig, hl0wf, hlswf⟩
    · exact absurd hc0 hcfg
    have hhead : l0.data.head? = some 'k' :=
      sStarts_head_eq htrig
        (show ("key projct configuration:" : String).data.head? = some 'k'
          from rfl)
    have hsplitcfg : splitLines (strim m.config_section) =
        l0 :: dropTrailBlank ls := by
      rw [hcfgeq, strim_joinTerm l0 'k' hhead (by decide) hl0wf.1 ls
        (fun l hl => (hlswf l hl).1.1)]
      apply splitLines_joinNL
      · simp
      · intro l hl
        rcases List.mem_cons.1 hl with rfl | hl
        · exact hl0wf.2
        · exact (hlswf l (dropTrailBlank_subset ls l hl)).1.2
    rw [hsplitcfg,
      show (l0 :: dropTrailBlank ls) = [l0] ++ dropTrailBlank ls from rfl,
      parseLines_append, parseLines_one,
      stepLine_cfgTriggerLine Q4 (by rw [hQ4]) (by rw [hQ4, hQ2, hQ1]) l0
        hl0wf htrig]
    set Q5 : PState :=
      { Q4 with
        current_section := some Sect.config
        st.config_section := l0 ++ "\n" } with hQ5
    rw [parseLines_config_state (dropTrailBlank ls) Q5 (by rw [hQ5])
      (by rw [hQ5, hQ4, hQ2, hQ1])
      (fun r hr => hlswf r (dropTrailBlank_subset ls r hr))]
    constructor
    · rw [hQ5, hQ4, hQ2]
      rfl
    · rw [hQ5, hQ4, hQ2, hQ1]
      rfl

/-- Claim C1 (amended): serializing a parsed document and reparsing the
result reproduces the file collection (every index looks up the same
file entry) and the function collection (every id looks up the same
function record), provided the parsed model does not have both a
nonempty config blob and a nonempty function collection.  When it has
both, the serializer emits the stripped config blob after the functions
section, and on reparse those config lines are swallowed into the last
function's implementation, so the round trip fails. -/
theorem C1_roundtrip (text : String)
    (h : (parseContent text).config_section = "" ∨
      (parseContent text).functions = []) :
    (∀ i : Int,
      dlookup i (parseContent (generateContent (parseContent text))).files =
        dlookup i (parseContent text).files) ∧
    (∀ s : String,
      dlookup s
          (parseContent (generateContent (parseContent text))).functions =
        dlookup s (parseContent text).functions) := by
  have hm := parseContent_wf text
  obtain ⟨hfs, hfns⟩ := reparse_generate (parseContent text) hm h
  obtain ⟨w1, w2, w3, w4, w5, w6, w7, w8⟩ := hm
  constructor
  · intro i
    rw [hfs]
    exact dlookup_perm
      (sortByKey_perm (fun kv => kv.1) (parseContent text).files)
      ((((sortByKey_perm (fun kv => kv.1)
        (parseContent text).files).map Prod.fst).nodup_iff).2 w5) i
  · intro s
    rw [hfns]
    exact dlookup_perm
      (sortByKey_perm (fun kv => (idNum kv.1 : Int))
        (parseContent text).functions)
      ((((sortByKey_perm (fun kv => (idNum kv.1 : Int))
        (parseContent text).functions).map Prod.fst).nodup_iff).2 w7) s

/-- Claim C1, witness: a concrete document with an empty config blob, one
file and one function; the round trip preserves both collections'
lookups. -/
theorem C1_roundtrip_witness :
    (parseContent
      "Project:A\nPROJECT FILES INDEX:\n1. src\nAll functions:\n1F. foo\nbar").config_section
        = "" ∧
    dlookup (1 : Int)
        (parseContent (generateContent (parseContent
          "Project:A\nPROJECT FILES INDEX:\n1. src\nAll functions:\n1F. foo\nbar"))).files =
      dlookup (1 : Int)
        (parseContent
          "Project:A\nPROJECT FILES INDEX:\n1. src\nAll functions:\n1F. foo\nbar").files ∧
    dlookup "1F"
        (parseContent (generateContent (parseContent
          "Project:A\nPROJECT FILES INDEX:\n1. src\nAll functions:\n1F. foo\nbar"))).functions =
      dlookup "1F"
        (parseContent
          "Project:A\nPROJECT FILES INDEX:\n1. src\nAll functions:\n1F. foo\nbar").functions :=
  ⟨by decide,
   (C1_roundtrip
     "Project:A\nPROJECT FILES INDEX:\n1. src\nAll functions:\n1F. foo\nbar"
     (Or.inl (by decide))).1 1,
   (C1_roundtrip
     "Project:A\nPROJECT FILES INDEX:\n1. src\nAll functions:\n1F. foo\nbar"
     (Or.inl (by decide))).2 "1F"⟩

/-- Claim C1, counterexample: a document with both a nonempty config blob
and a function.  The serializer emits the stripped config after the
functions section; on reparse, with function 1F still accumulating,
those config lines become 1F's implementation, so the function
collection is not preserved and the claimed unconditional round trip
fails. -/
theorem C1_counterexample :
    (parseContent
      "key projct configuration:\ncfg\nAll functions:\n1F. foo\ndesc").config_section
        ≠ "" ∧
    (parseContent
      "key projct configuration:\ncfg\nAll functions:\n1F. foo\ndesc").functions
        ≠ [] ∧
    dlookup "1F"
        (parseContent (generateContent (parseContent
          "key projct configuration:\ncfg\nAll functions:\n1F. foo\ndesc"))).functions ≠
      dlookup "1F"
        (parseContent
          "key projct configuration:\ncfg\nAll functions:\n1F. foo\ndesc").functions := by
  refine ⟨by decide, by decide, by decide⟩

end TaskFlow
